import Mathlib

/-!
The package netdb: a path-compressed binary trie of IP networks.

Shallow embedding of `netdb.go`.

* A Go `*node` is a value of the inductive type `node`; the nil pointer is
  `node.nil`.  The children `zero` and `one` are owned sub-trees.
* The `parent` back-pointer is not stored.  A pointer that the code follows
  upwards (`prev` in `Lookup`, the receiver of `to16`) is represented by the
  chain `n :: parent :: grandparent :: ...` ending at the root; the nil
  pointer is the empty chain, and `p.parent` is the tail of the chain.
* `[]uint8` bit slices are `List Nat`, a `net.IP` is the `List Nat` of its
  bytes, `int` is `Int` (no arithmetic in the file leaves the range of a
  machine integer), and the payload `interface{}` is a type parameter `D`.
* The standard library parsers `net.ParseCIDR` and `net.ParseIP` are
  parameters of the functions that call them.
* A `for` loop that stays at one node while it reads bits and moves to a child
  in between is a pair of functions: the first recurses on the unread bits with
  the node fixed, the second recurses on the node and hands the first one the
  continuation for the step into a child.
-/

namespace Netdb

/-! ## Data model -/

/-- The struct `node` (fields `bits`, `mask`, `zero`, `one`, `data`); `nil` is the nil pointer. -/
inductive node (D : Type) where
  | nil : node D
  | mk (bits : List Nat) (mask : Int) (zero one : node D) (data : D) : node D
  deriving DecidableEq, Repr

/-- The struct `NetDB`. -/
structure NetDB (D : Type) where
  root : node D
  deriving DecidableEq, Repr

variable {D : Type}

/-- Field `bits` (empty for the nil pointer, which the code never dereferences). -/
def node.bits : node D → List Nat
  | .nil => []
  | .mk bs _ _ _ _ => bs

/-- Field `mask` (`-1` marks a branch-only node). -/
def node.mask : node D → Int
  | .nil => -1
  | .mk _ m _ _ _ => m

/-- Field `zero`. -/
def node.zero : node D → node D
  | .nil => .nil
  | .mk _ _ z _ _ => z

/-- Field `one`. -/
def node.one : node D → node D
  | .nil => .nil
  | .mk _ _ _ o _ => o

/-- The value `&NetDB{}`: no root. -/
def NetDB.empty : NetDB D := ⟨.nil⟩

/-! ## Insertion -/

/-- The `for` loop of `Add` for as long as `curnode` is the node
`mk bs m z o d`: the arguments are `curnode_idx` and the unread key bits
`bits[bits_idx:]`, the result is the sub-trie that replaces `curnode`.
`down_zero` and `down_one` run the rest of the loop after `curnode` has moved
to the (non-nil) child `zero` or `one` with `curnode_idx = 0`. -/
def Add_seg (ones : Int) (data : D) (bs : List Nat) (m : Int) (z o : node D) (d : D)
    (down_zero down_one : List Nat → node D) : Nat → List Nat → node D
  | _, [] => .mk bs m z o d
  | curnode_idx, b :: rest =>
    if curnode_idx = bs.length then
      if b = 1 then
        match o with
        | .nil => .mk bs m z (.mk (b :: rest) ones .nil .nil data) d
        | _ => .mk bs m z (down_one (b :: rest)) d
      else
        match z with
        | .nil => .mk bs m (.mk (b :: rest) ones .nil .nil data) o d
        | _ => .mk bs m (down_zero (b :: rest)) o d
    else if b ≠ bs.getD curnode_idx 0 then
      let newnode : node D := .mk (b :: rest) ones .nil .nil data
      let oldnode : node D := .mk (bs.drop curnode_idx) m z o d
      if newnode.bits.headD 0 = 1 then .mk (bs.take curnode_idx) (-1) oldnode newnode d
      else .mk (bs.take curnode_idx) (-1) newnode oldnode d
    else if rest = [] then
      if curnode_idx + 1 = bs.length then .mk bs ones z o data
      else
        let oldnode : node D := .mk (bs.drop (curnode_idx + 1)) m z o d
        if oldnode.bits.headD 0 = 1 then .mk (bs.take (curnode_idx + 1)) ones .nil oldnode data
        else .mk (bs.take (curnode_idx + 1)) ones oldnode .nil data
    else Add_seg ones data bs m z o d down_zero down_one (curnode_idx + 1) rest

/-- The `for` loop of `Add` entered at `curnode` with `curnode_idx = 0` and the
unread key bits `bits[bits_idx:]`. -/
def Add_loop (ones : Int) (data : D) : node D → List Nat → node D
  | .nil, _ => .nil
  | .mk bs m z o d, bits =>
    Add_seg ones data bs m z o d (fun k => Add_loop ones data z k)
      (fun k => Add_loop ones data o k) 0 bits

/-- The body of `Add` after `parse_cidr` has succeeded with `bits` and `ones`. -/
def NetDB.add_bits (db : NetDB D) (bits : List Nat) (ones : Int) (data : D) : NetDB D :=
  match db.root with
  | .nil => ⟨.mk bits ones .nil .nil data⟩
  | root => ⟨Add_loop ones data root bits⟩

/-! ## Lookup -/

/-- The first `for` loop of `Lookup` for as long as `curnode` is the node with
segment `bs`; `cur` is the pointer to it and `anc` its `parent` pointer.  The
arguments are `curnode_idx`, the unread address bits and `prev`; the result
is the value of `prev` when the loop ends.  `down` runs the rest of the loop
after `curnode_idx = 0; prev = curnode; curnode = child`. -/
def Lookup_seg (cur anc : List (node D)) (bs : List Nat)
    (down : List Nat → List (node D)) : Nat → List Nat → List (node D) → List (node D)
  | _, [], prev => prev
  | curnode_idx, b :: rest, _ =>
    if curnode_idx = bs.length then down (b :: rest)
    else if b ≠ bs.getD curnode_idx 0 then anc
    else Lookup_seg cur anc bs down (curnode_idx + 1) rest cur

/-- The first `for` loop of `Lookup` entered at `curnode` (whose `parent`
pointer is `anc`) with `curnode_idx = 0`. -/
def Lookup_loop : node D → List (node D) → List Nat → List (node D) → List (node D)
  | .nil, _, _, prev => prev
  | .mk bs m z o d, anc, bits, prev =>
    Lookup_seg (.mk bs m z o d :: anc) anc bs
      (fun k =>
        if k.headD 0 = 1 then Lookup_loop o (.mk bs m z o d :: anc) k (.mk bs m z o d :: anc)
        else Lookup_loop z (.mk bs m z o d :: anc) k (.mk bs m z o d :: anc))
      0 bits prev

/-- The second loop of `Lookup`: `for prev != nil && prev.mask == -1 { prev = prev.parent }`. -/
def backtrack : List (node D) → List (node D)
  | [] => []
  | n :: anc => if n.mask = -1 then backtrack anc else n :: anc

/-- The pointer `prev` that `Lookup` holds after both loops, for a trie with
root `root` and the address bits `bits`. -/
def lookup_prev (root : node D) (bits : List Nat) : List (node D) :=
  backtrack (Lookup_loop root [] bits [])

/-! ## Key codec -/

/-- The function `to_array`: the loop `for i := 127; i >= 128-ones; i--` appends, in its
`j`-th iteration (`i = 127 - j`), the bit `ip[15-i/8] & (1 << (i%8)) != 0`. -/
def to_array (ip : List Nat) (ones : Nat) : List Nat :=
  (List.range ones).map fun j =>
    if (ip.getD (15 - (127 - j) / 8) 0) &&& (1 <<< ((127 - j) % 8)) ≠ 0 then 1 else 0

/-- What `parse_cidr` reads off the `*net.IPNet` returned by `net.ParseCIDR`: the bytes of
`ipnet.IP` (4 for an IPv4 network, 16 for an IPv6 network) and `ones` of `ipnet.Mask.Size()`. -/
structure IPNet where
  IP : List Nat
  ones : Nat
  deriving DecidableEq, Repr

/-- The 12 bytes that precede an IPv4 address in its 16-byte form. -/
def v4InV6 : List Nat := [0, 0, 0, 0, 0, 0, 0, 0, 0, 0, 0xff, 0xff]

/-- The method `net.IP.To16`. -/
def To16 (ip : List Nat) : List Nat :=
  if ip.length = 4 then v4InV6 ++ ip else if ip.length = 16 then ip else []

/-- The function `parse_cidr`, with `net.ParseCIDR` as the parameter `ParseCIDR`;
the result is the error, or `bits` and `ones`.  `strings.Contains(netcidr, "/")` is the
membership of the character in the list of characters of the string. -/
def parse_cidr (ParseCIDR : String → Except String IPNet) (netcidr : String) :
    Except String (List Nat × Nat) :=
  let netcidr :=
    if !netcidr.data.contains '/' then
      if netcidr.data.contains ':' then netcidr ++ "/128" else netcidr ++ "/32"
    else netcidr
  match ParseCIDR netcidr with
  | .error err => .error err
  | .ok ipnet =>
    if ipnet.ones = 0 then .error "incorrect parameter"
    else
      let ones := if ipnet.IP.length = 4 then ipnet.ones + 96 else ipnet.ones
      .ok (to_array (To16 ipnet.IP) ones, ones)

/-- The inner loop of `to16` for one node, on the state `(array, curbit)`: it walks `n.bits`
from the last bit to the first, sets bit `7 - curbit % 8` of byte `curbit / 8` for every
non-zero bit, and decrements `curbit`.  Quotient and remainder are those of Go for
`curbit >= 0`, which is the range in which the code indexes `array`. -/
def to16_node (bits : List Nat) (st : List Nat × Int) : List Nat × Int :=
  bits.reverse.foldl
    (fun st bit =>
      let byte_idx := (st.2 / 8).toNat
      let bit_idx := (st.2 % 8).toNat
      (if bit ≠ 0 then st.1.set byte_idx (st.1.getD byte_idx 0 ||| (1 <<< (7 - bit_idx)))
        else st.1,
       st.2 - 1))
    st

/-- The method `to16` on the pointer `p` (a node followed by its ancestors). -/
def to16 (p : List (node D)) : List Nat :=
  (p.foldl (fun st n => to16_node n.bits st)
    (List.replicate 16 0, (p.headD .nil).mask - 1)).1

/-- The function `IsIPv4Mapped`. -/
def IsIPv4Mapped (ip : List Nat) : Bool :=
  ip.take 12 = v4InV6

/-- The method `adjmask` on the pointer `p`. -/
def adjmask (p : List (node D)) : Int :=
  if IsIPv4Mapped (to16 p) then (p.headD .nil).mask - 96 else (p.headD .nil).mask

/-! ## Public interface -/

/-- The method `Add`, with `net.ParseCIDR` as a parameter: the trie after the call and the
returned error (`none` for Go's `nil`). -/
def NetDB.Add (ParseCIDR : String → Except String IPNet) (db : NetDB D) (netcidr : String)
    (data : D) : NetDB D × Option String :=
  match parse_cidr ParseCIDR netcidr with
  | .error err => (db, some err)
  | .ok (bits, ones) => (db.add_bits bits ones data, none)

/-- The method `Lookup`, with `net.ParseIP` as a parameter (`[]` is its nil result).
`to_array(ip, 128)` reads `ip[0]` to `ip[15]`, so a shorter slice stops the program with an
index-out-of-range panic.  A pointer is never a chain that starts with `nil`: that case of
the last `match` is there for totality only. -/
def NetDB.Lookup (ParseIP : String → List Nat) (db : NetDB D) (ipstr : String) :
    Except String (List Nat × Int × D) :=
  let ip := ParseIP ipstr
  match db.root with
  | .nil => .error "not found"
  | root =>
    if ip.length < 16 then .error "panic: index out of range"
    else
      match lookup_prev root (to_array ip 128) with
      | [] => .error "not found"
      | .nil :: _ => .error "panic: nil pointer dereference"
      | .mk bs netmask z o data :: anc =>
        let network := to16 (.mk bs netmask z o data :: anc)
        .ok (network, if IsIPv4Mapped network then netmask - 96 else netmask, data)

/-- The method `count`. -/
def node.count (hostsonly : Bool) : node D → Nat
  | .nil => 0
  | .mk _ m z o _ => (if hostsonly && m = -1 then 0 else 1) + o.count hostsonly + z.count hostsonly

/-- The method `Networks`. -/
def NetDB.Networks (db : NetDB D) : Nat := db.root.count true

/-- The method `Nodes`. -/
def NetDB.Nodes (db : NetDB D) : Nat := db.root.count false

/-! ## Specification vocabulary -/

/-- The registered triples of a sub-trie: for every node whose `mask` is not
`-1`, the concatenation of the segments from the root of the sub-trie to the
node, its `mask` and its `data`. -/
def node.entries : node D → List (List Nat × Int × D)
  | .nil => []
  | .mk bs m z o d =>
    (if m = -1 then [] else [(bs, m, d)])
      ++ (z.entries.map fun e => (bs ++ e.1, e.2))
      ++ (o.entries.map fun e => (bs ++ e.1, e.2))

/-- The registered triples of a trie. -/
def NetDB.entries (db : NetDB D) : List (List Nat × Int × D) := db.root.entries

/-- A child in the slot of bit `b` is absent or has a segment that starts with `b`. -/
def slot_ok (b : Nat) : node D → Prop
  | .nil => True
  | .mk bs _ _ _ _ => bs.head? = some b

/-- Structural invariant of a sub-trie whose root hangs `p` bits below the root of the trie. -/
def node.WF : Nat → node D → Prop
  | _, .nil => True
  | p, .mk bs m z o _ =>
    (∀ b ∈ bs, b = 0 ∨ b = 1) ∧ p + bs.length ≤ 128 ∧ (m ≠ -1 → m = ((p + bs.length : Nat) : Int)) ∧
    slot_ok 0 z ∧ slot_ok 1 o ∧ z.WF (p + bs.length) ∧ o.WF (p + bs.length)

/-- A well-formed key: between 1 and 128 bits, each 0 or 1. -/
def KeyWF (k : List Nat) : Prop :=
  1 ≤ k.length ∧ k.length ≤ 128 ∧ ∀ b ∈ k, b = 0 ∨ b = 1

/-- The trie built from the empty trie by adding the keys of `ops` in order,
each with the prefix length `ones = len(bits)` that `parse_cidr` returns. -/
def build (ops : List (List Nat × D)) : NetDB D :=
  ops.foldl (fun db op => db.add_bits op.1 op.1.length op.2) NetDB.empty

/-- The payload of the last element of `ops` with key `k`. -/
def last_added (ops : List (List Nat × D)) (k : List Nat) : Option D :=
  (ops.reverse.find? fun op => op.1 = k).map fun op => op.2

/-- The key of a pointer: the concatenation of the segments from the root down to the node. -/
def chain_key : List (node D) → List Nat
  | [] => []
  | n :: anc => chain_key anc ++ n.bits

instance (k : List Nat) : Decidable (KeyWF k) := by
  unfold KeyWF; infer_instance

/-- What the callers of `parse_cidr` rely on from `net.ParseCIDR`: an IPv4 network has 4
address bytes and at most 32 mask bits, an IPv6 network 16 bytes and at most 128 bits. -/
def ValidCIDR (ParseCIDR : String → Except String IPNet) : Prop :=
  ∀ s n, ParseCIDR s = .ok n →
    (n.IP.length = 4 ∧ n.ones ≤ 32) ∨ (n.IP.length = 16 ∧ n.ones ≤ 128)

/-- The trie after the calls `Add(netcidr, data)` of `calls`, in order, on the empty trie. -/
def after_calls (ParseCIDR : String → Except String IPNet) (calls : List (String × D)) :
    NetDB D :=
  calls.foldl (fun db c => (db.Add ParseCIDR c.1 c.2).1) NetDB.empty

/-- The keys and payloads of the calls of `calls` on which `parse_cidr` succeeds. -/
def parsed_calls (ParseCIDR : String → Except String IPNet) (calls : List (String × D)) :
    List (List Nat × D) :=
  calls.filterMap fun c =>
    match parse_cidr ParseCIDR c.1 with
    | .ok (bits, _) => some (bits, c.2)
    | .error _ => none

/-- Bit `j` of an address, counted from the most significant bit of byte 0. -/
def bit_at (ip : List Nat) (j : Nat) : Bool :=
  (ip.getD (j / 8) 0).testBit (7 - j % 8)

/-- The sub-trie without its payloads: nodes, segments, prefix lengths and links. -/
def node.shape : node D → node Unit
  | .nil => .nil
  | .mk bs m z o _ => .mk bs m z.shape o.shape ()

/-- The text that `parse_cidr` hands to `net.ParseCIDR`: the argument, with `/128` or `/32`
appended when it has no `/`. -/
def cidr_text (netcidr : String) : String :=
  if !netcidr.data.contains '/' then
    if netcidr.data.contains ':' then netcidr ++ "/128" else netcidr ++ "/32"
  else netcidr

/-- The prefix length that `parse_cidr` returns for a parsed network: 96 more than the mask
size for an IPv4 network. -/
def stored_ones (n : IPNet) : Nat :=
  if n.IP.length = 4 then n.ones + 96 else n.ones

/-- The first 96 bits of an IPv4 address in its 16-byte form: 80 zeros and 16 ones. -/
def v4_bits : List Nat := List.replicate 80 0 ++ List.replicate 16 1

deriving instance DecidableEq for Except

/-- Some values of `net.ParseCIDR`, for the concrete instances below. -/
def sample_ParseCIDR : String → Except String IPNet
  | "10.0.0.0/8" => .ok ⟨[10, 0, 0, 0], 8⟩
  | "10.0.0.0/16" => .ok ⟨[10, 0, 0, 0], 16⟩
  | "1.0.0.0/8" => .ok ⟨[1, 0, 0, 0], 8⟩
  | "127.0.0.1/0" => .ok ⟨[0, 0, 0, 0], 0⟩
  | "194.2.218.254/32" => .ok ⟨[194, 2, 218, 254], 32⟩
  | "::1/128" => .ok ⟨[0, 0, 0, 0, 0, 0, 0, 0, 0, 0, 0, 0, 0, 0, 0, 1], 128⟩
  | "::/80" => .ok ⟨[0, 0, 0, 0, 0, 0, 0, 0, 0, 0, 0, 0, 0, 0, 0, 0], 80⟩
  | "8000::/1" => .ok ⟨[128, 0, 0, 0, 0, 0, 0, 0, 0, 0, 0, 0, 0, 0, 0, 0], 1⟩
  | "::ffff:1.2.3.4/128" => .ok ⟨[0, 0, 0, 0, 0, 0, 0, 0, 0, 0, 255, 255, 1, 2, 3, 4], 128⟩
  | "::ffff:0:0/100" => .ok ⟨[0, 0, 0, 0, 0, 0, 0, 0, 0, 0, 255, 255, 0, 0, 0, 0], 100⟩
  | _ => .error "invalid CIDR address"

/-- Some values of `net.ParseIP` (always the 16-byte form), for the concrete instances below. -/
def sample_ParseIP : String → List Nat
  | "10.0.0.0" => [0, 0, 0, 0, 0, 0, 0, 0, 0, 0, 255, 255, 10, 0, 0, 0]
  | "10.1.2.3" => [0, 0, 0, 0, 0, 0, 0, 0, 0, 0, 255, 255, 10, 1, 2, 3]
  | "1.2.3.4" => [0, 0, 0, 0, 0, 0, 0, 0, 0, 0, 255, 255, 1, 2, 3, 4]
  | "194.2.218.254" => [0, 0, 0, 0, 0, 0, 0, 0, 0, 0, 255, 255, 194, 2, 218, 254]
  | "::1" => [0, 0, 0, 0, 0, 0, 0, 0, 0, 0, 0, 0, 0, 0, 0, 1]
  | "8000::1" => [128, 0, 0, 0, 0, 0, 0, 0, 0, 0, 0, 0, 0, 0, 0, 1]
  | "e000::" => [224, 0, 0, 0, 0, 0, 0, 0, 0, 0, 0, 0, 0, 0, 0, 0]
  | "::ffff:1.2.3.4" => [0, 0, 0, 0, 0, 0, 0, 0, 0, 0, 255, 255, 1, 2, 3, 4]
  | "::ffff:0.0.0.1" => [0, 0, 0, 0, 0, 0, 0, 0, 0, 0, 255, 255, 0, 0, 0, 1]
  | _ => []

/-- The sub-trie has no branch-only node: every node has a `mask` other than `-1`. -/
def node.no_branch : node D → Prop
  | .nil => True
  | .mk _ m z o _ => m ≠ -1 ∧ z.no_branch ∧ o.no_branch

/-- The IPv4-mapped pattern on an address: bytes 0 to 9 are zero, bytes 10 and 11 are `0xFF`. -/
def mapped_pattern (ip : List Nat) : Prop :=
  (∀ i, i < 10 → ip.getD i 0 = 0) ∧ ip.getD 10 0 = 0xff ∧ ip.getD 11 0 = 0xff

/-- The pointers to the nodes of a sub-trie whose root has the `parent` pointer `anc`. -/
def node.pointers : node D → List (node D) → List (List (node D))
  | .nil, _ => []
  | .mk bs m z o d, anc =>
    (.mk bs m z o d :: anc)
      :: (z.pointers (.mk bs m z o d :: anc) ++ o.pointers (.mk bs m z o d :: anc))

/-- The pointers to the nodes of a trie. -/
def NetDB.pointers (db : NetDB D) : List (List (node D)) := db.root.pointers []

/-- Invariant of a pointer, for the node and each of its ancestors: a registered node has its
key length as `mask`, keys have at most 128 bits, each 0 or 1, every node but the root has
a segment that is not empty, and the children sit in the slots of their first bits. -/
def chain_ok : List (node D) → Prop
  | [] => True
  | n :: anc =>
    n ≠ .nil ∧
    (n.mask ≠ -1 → n.mask = ((chain_key (n :: anc)).length : Int)) ∧
    (chain_key (n :: anc)).length ≤ 128 ∧
    (∀ b ∈ n.bits, b = 0 ∨ b = 1) ∧
    (anc ≠ [] → n.bits ≠ []) ∧
    slot_ok 0 n.zero ∧ slot_ok 1 n.one ∧
    chain_ok anc

/-- The values of `curbit` at which the inner loop of `to16` computes `byte_idx` and
`bit_idx` for one node: the state is the list of the values so far and `curbit`. -/
def to16_node_idx (bits : List Nat) (st : List Int × Int) : List Int × Int :=
  bits.reverse.foldl (fun st _ => (st.1 ++ [st.2], st.2 - 1)) st

/-- The values of `curbit` at which `to16` on the pointer `p` computes `byte_idx` and
`bit_idx`, in the order of the computation. -/
def to16_idx (p : List (node D)) : List Int :=
  (p.foldl (fun st n => to16_node_idx n.bits st) ([], (p.headD .nil).mask - 1)).1

/-- Every branch-only node of the sub-trie has both children. -/
def node.full : node D → Prop
  | .nil => True
  | .mk _ m z o _ => (m = -1 → z ≠ .nil ∧ o ≠ .nil) ∧ z.full ∧ o.full

/-! ## Insertion: the four ways the loop ends -/

theorem getD_append_cons (pre seg : List Nat) (x : Nat) :
    (pre ++ x :: seg).getD pre.length 0 = x := by
  induction pre with
  | nil => rfl
  | cons a pre ih => simpa using ih

theorem Add_seg_cons (ones : Int) (data : D) (bs : List Nat) (m : Int) (z o : node D) (d : D)
    (dz dn : List Nat → node D) (idx b : Nat) (rest : List Nat) :
    Add_seg ones data bs m z o d dz dn idx (b :: rest) =
      if idx = bs.length then
        if b = 1 then
          match o with
          | .nil => .mk bs m z (.mk (b :: rest) ones .nil .nil data) d
          | _ => .mk bs m z (dn (b :: rest)) d
        else
          match z with
          | .nil => .mk bs m (.mk (b :: rest) ones .nil .nil data) o d
          | _ => .mk bs m (dz (b :: rest)) o d
      else if b ≠ bs.getD idx 0 then
        if b = 1 then .mk (bs.take idx) (-1) (.mk (bs.drop idx) m z o d)
            (.mk (b :: rest) ones .nil .nil data) d
        else .mk (bs.take idx) (-1) (.mk (b :: rest) ones .nil .nil data)
            (.mk (bs.drop idx) m z o d) d
      else if rest = [] then
        if idx + 1 = bs.length then .mk bs ones z o data
        else
          if (bs.drop (idx + 1)).headD 0 = 1 then
            .mk (bs.take (idx + 1)) ones .nil (.mk (bs.drop (idx + 1)) m z o d) data
          else .mk (bs.take (idx + 1)) ones (.mk (bs.drop (idx + 1)) m z o d) .nil data
      else Add_seg ones data bs m z o d dz dn (idx + 1) rest := rfl

theorem Add_seg_match_more (ones : Int) (data : D) (bs : List Nat) (m : Int) (z o : node D) (d : D)
    (dz dn : List Nat → node D) (idx b : Nat) (rest : List Nat)
    (h1 : idx ≠ bs.length) (h2 : bs.getD idx 0 = b) (h3 : rest ≠ []) :
    Add_seg ones data bs m z o d dz dn idx (b :: rest)
      = Add_seg ones data bs m z o d dz dn (idx + 1) rest := by
  rw [Add_seg_cons, if_neg h1, if_neg (by rw [h2]; exact fun h => h rfl), if_neg h3]

theorem Add_seg_advance (ones : Int) (data : D) (bs : List Nat) (m : Int) (z o : node D) (d : D)
    (dz dn : List Nat → node D) (c : List Nat) :
    ∀ (pre seg tail : List Nat), tail ≠ [] → bs = pre ++ c ++ seg →
      Add_seg ones data bs m z o d dz dn pre.length (c ++ tail)
        = Add_seg ones data bs m z o d dz dn (pre.length + c.length) tail := by
  induction c with
  | nil => intro pre seg tail _ _; simp
  | cons x c ih =>
    intro pre seg tail ht hbs
    have h1 : pre.length ≠ bs.length := by
      rw [hbs]; simp
    have h2 : bs.getD pre.length 0 = x := by
      rw [hbs]; simpa using getD_append_cons pre (c ++ seg) x
    have h3 : c ++ tail ≠ [] := by simp [ht]
    have h4 : Add_seg ones data bs m z o d dz dn (pre.length + 1) (c ++ tail)
        = Add_seg ones data bs m z o d dz dn (pre.length + 1 + c.length) tail := by
      simpa using ih (pre ++ [x]) seg tail ht (by simp [hbs])
    rw [List.cons_append, Add_seg_match_more _ _ _ _ _ _ _ _ _ _ _ _ h1 h2 h3, h4]
    congr 1; simp; omega

theorem Add_loop_mk (ones : Int) (data : D) (bs : List Nat) (m : Int) (z o : node D) (d : D)
    (key : List Nat) :
    Add_loop ones data (.mk bs m z o d) key
      = Add_seg ones data bs m z o d (fun k => Add_loop ones data z k)
          (fun k => Add_loop ones data o k) 0 key := rfl

/-- The key runs past the end of the segment: step into a child, or create it. -/
theorem Add_loop_past (ones : Int) (data : D) (bs : List Nat) (m : Int) (z o : node D) (d : D)
    (b : Nat) (rest : List Nat) :
    Add_loop ones data (.mk bs m z o d) (bs ++ b :: rest) =
      if b = 1 then
        match o with
        | .nil => .mk bs m z (.mk (b :: rest) ones .nil .nil data) d
        | _ => .mk bs m z (Add_loop ones data o (b :: rest)) d
      else
        match z with
        | .nil => .mk bs m (.mk (b :: rest) ones .nil .nil data) o d
        | _ => .mk bs m (Add_loop ones data z (b :: rest)) o d := by
  rw [Add_loop_mk]
  have := Add_seg_advance ones data bs m z o d (fun k => Add_loop ones data z k)
    (fun k => Add_loop ones data o k) bs [] [] (b :: rest) (by simp) (by simp)
  simp only [List.length_nil, Nat.zero_add] at this
  rw [this, Add_seg_cons, if_pos rfl]

/-- The key and the segment differ at a bit: the node is split in a branch node with two children. -/
theorem Add_loop_mismatch (ones : Int) (data : D) (m : Int) (z o : node D) (d : D)
    (c s r : List Nat) (x y : Nat) (hxy : y ≠ x) :
    Add_loop ones data (.mk (c ++ x :: s) m z o d) (c ++ y :: r) =
      if y = 1 then .mk c (-1) (.mk (x :: s) m z o d) (.mk (y :: r) ones .nil .nil data) d
      else .mk c (-1) (.mk (y :: r) ones .nil .nil data) (.mk (x :: s) m z o d) d := by
  rw [Add_loop_mk]
  have := Add_seg_advance ones data (c ++ x :: s) m z o d (fun k => Add_loop ones data z k)
    (fun k => Add_loop ones data o k) c [] (x :: s) (y :: r) (by simp) (by simp)
  simp only [List.length_nil, Nat.zero_add] at this
  rw [this, Add_seg_cons, if_neg (by simp), getD_append_cons, if_pos hxy]
  simp

/-- The key ends where the segment ends: the node is overwritten. -/
theorem Add_loop_exact (ones : Int) (data : D) (m : Int) (z o : node D) (d : D)
    (c : List Nat) (b : Nat) :
    Add_loop ones data (.mk (c ++ [b]) m z o d) (c ++ [b]) = .mk (c ++ [b]) ones z o data := by
  rw [Add_loop_mk]
  have := Add_seg_advance ones data (c ++ [b]) m z o d (fun k => Add_loop ones data z k)
    (fun k => Add_loop ones data o k) c [] [b] [b] (by simp) (by simp)
  simp only [List.length_nil, Nat.zero_add] at this
  rw [this, Add_seg_cons, if_neg (by simp), getD_append_cons, if_neg (by simp), if_pos rfl,
    if_pos (by simp)]

/-- The key ends inside the segment: the node is split in a registered node and one child. -/
theorem Add_loop_inside (ones : Int) (data : D) (m : Int) (z o : node D) (d : D)
    (c s : List Nat) (b x : Nat) :
    Add_loop ones data (.mk (c ++ b :: x :: s) m z o d) (c ++ [b]) =
      if x = 1 then .mk (c ++ [b]) ones .nil (.mk (x :: s) m z o d) data
      else .mk (c ++ [b]) ones (.mk (x :: s) m z o d) .nil data := by
  rw [Add_loop_mk]
  have := Add_seg_advance ones data (c ++ b :: x :: s) m z o d (fun k => Add_loop ones data z k)
    (fun k => Add_loop ones data o k) c [] (b :: x :: s) [b] (by simp) (by simp)
  simp only [List.length_nil, Nat.zero_add] at this
  rw [this, Add_seg_cons, if_neg (by simp), getD_append_cons, if_neg (by simp), if_pos rfl,
    if_neg (by simp)]
  have h1 : (c ++ b :: x :: s).drop (c.length + 1) = x :: s := by
    have : c ++ b :: x :: s = (c ++ [b]) ++ x :: s := by simp
    rw [this, List.drop_left' (by simp)]
  have h2 : (c ++ b :: x :: s).take (c.length + 1) = c ++ [b] := by
    have : c ++ b :: x :: s = (c ++ [b]) ++ x :: s := by simp
    rw [this, List.take_left' (by simp)]
  rw [h1, h2]; rfl

/-- How a non-empty key relates to a segment. -/
theorem key_cases (bs : List Nat) : ∀ key : List Nat, key ≠ [] →
    (∃ b rest, key = bs ++ b :: rest) ∨
    (∃ c x s y r, y ≠ x ∧ bs = c ++ x :: s ∧ key = c ++ y :: r) ∨
    (∃ c b, bs = c ++ [b] ∧ key = c ++ [b]) ∨
    (∃ c b x s, bs = c ++ b :: x :: s ∧ key = c ++ [b]) := by
  induction bs with
  | nil =>
    intro key hk
    cases key with
    | nil => exact absurd rfl hk
    | cons b rest => exact Or.inl ⟨b, rest, rfl⟩
  | cons a bs ih =>
    intro key hk
    cases key with
    | nil => exact absurd rfl hk
    | cons b rest =>
      by_cases hab : b = a
      · subst hab
        by_cases hr : rest = []
        · subst hr
          cases bs with
          | nil => exact Or.inr (Or.inr (Or.inl ⟨[], b, rfl, rfl⟩))
          | cons x s => exact Or.inr (Or.inr (Or.inr ⟨[], b, x, s, rfl, rfl⟩))
        · rcases ih rest hr with ⟨b', rest', h⟩ | ⟨c, x, s, y, r, hxy, h1, h2⟩ | ⟨c, b', h1, h2⟩ |
            ⟨c, b', x, s, h1, h2⟩
          · exact Or.inl ⟨b', rest', by simp [h]⟩
          · exact Or.inr (Or.inl ⟨b :: c, x, s, y, r, hxy, by simp [h1], by simp [h2]⟩)
          · exact Or.inr (Or.inr (Or.inl ⟨b :: c, b', by simp [h1], by simp [h2]⟩))
          · exact Or.inr (Or.inr (Or.inr ⟨b :: c, b', x, s, by simp [h1], by simp [h2]⟩))
      · exact Or.inr (Or.inl ⟨[], a, bs, b, rest, hab, rfl, rfl⟩)

/-! ## Registered triples -/

theorem mem_entries_mk (bs : List Nat) (m : Int) (z o : node D) (d : D)
    (k : List Nat) (mm : Int) (dd : D) :
    (k, mm, dd) ∈ (node.mk bs m z o d).entries ↔
      (m ≠ -1 ∧ k = bs ∧ mm = m ∧ dd = d) ∨
      (∃ k', k = bs ++ k' ∧ (k', mm, dd) ∈ z.entries) ∨
      (∃ k', k = bs ++ k' ∧ (k', mm, dd) ∈ o.entries) := by
  simp only [node.entries, List.mem_append, List.mem_map, Prod.mk.injEq, Prod.exists]
  constructor
  · rintro ((h | h) | h)
    · left
      by_cases hm : m = -1
      · simp [hm] at h
      · simp [hm] at h; exact ⟨hm, h⟩
    · obtain ⟨k', m', d', hmem, rfl, rfl, rfl⟩ := h
      exact Or.inr (Or.inl ⟨k', rfl, hmem⟩)
    · obtain ⟨k', m', d', hmem, rfl, rfl, rfl⟩ := h
      exact Or.inr (Or.inr ⟨k', rfl, hmem⟩)
  · rintro (⟨hm, rfl, rfl, rfl⟩ | ⟨k', rfl, h⟩ | ⟨k', rfl, h⟩)
    · left; left; simp [hm]
    · left; right; exact ⟨k', mm, dd, h, rfl, rfl, rfl⟩
    · right; exact ⟨k', mm, dd, h, rfl, rfl, rfl⟩

theorem entries_nil : (node.nil : node D).entries = [] := rfl

/-- Every registered key of a sub-trie starts with the segment of its root. -/
theorem entries_key_append (bs : List Nat) (m : Int) (z o : node D) (d : D)
    (k : List Nat) (mm : Int) (dd : D) (h : (k, mm, dd) ∈ (node.mk bs m z o d).entries) :
    ∃ k', k = bs ++ k' := by
  rw [mem_entries_mk] at h
  rcases h with ⟨_, rfl, _, _⟩ | ⟨k', rfl, _⟩ | ⟨k', rfl, _⟩
  · exact ⟨[], by simp⟩
  · exact ⟨k', rfl⟩
  · exact ⟨k', rfl⟩

/-- Every registered key under a child starts with the bit of its slot. -/
theorem entries_head (b : Nat) (t : node D) (hs : slot_ok b t)
    (k : List Nat) (mm : Int) (dd : D) (h : (k, mm, dd) ∈ t.entries) :
    ∃ k', k = b :: k' := by
  cases t with
  | nil => simp [entries_nil] at h
  | mk bs m z o d =>
    obtain ⟨k', rfl⟩ := entries_key_append bs m z o d k mm dd h
    cases bs with
    | nil => simp [slot_ok] at hs
    | cons a bs =>
      simp [slot_ok] at hs
      subst hs
      exact ⟨bs ++ k', rfl⟩

/-- Lengthening the segment of the root prepends the added bits to every registered key. -/
theorem mem_entries_append (c bs : List Nat) (m : Int) (z o : node D) (d : D)
    (k : List Nat) (mm : Int) (dd : D) :
    (k, mm, dd) ∈ (node.mk (c ++ bs) m z o d).entries ↔
      ∃ k', k = c ++ k' ∧ (k', mm, dd) ∈ (node.mk bs m z o d).entries := by
  simp only [mem_entries_mk]
  constructor
  · rintro (⟨hm, rfl, rfl, rfl⟩ | ⟨k', rfl, h⟩ | ⟨k', rfl, h⟩)
    · exact ⟨bs, rfl, Or.inl ⟨hm, rfl, rfl, rfl⟩⟩
    · exact ⟨bs ++ k', by simp, Or.inr (Or.inl ⟨k', rfl, h⟩)⟩
    · exact ⟨bs ++ k', by simp, Or.inr (Or.inr ⟨k', rfl, h⟩)⟩
  · rintro ⟨k0, rfl, (⟨hm, rfl, rfl, rfl⟩ | ⟨k', rfl, h⟩ | ⟨k', rfl, h⟩)⟩
    · exact Or.inl ⟨hm, rfl, rfl, rfl⟩
    · exact Or.inr (Or.inl ⟨k', by simp, h⟩)
    · exact Or.inr (Or.inr ⟨k', by simp, h⟩)

theorem Add_loop_entries (ones : Int) (data : D) (hones : ones ≠ -1) :
    ∀ (t : node D) (p : Nat) (key : List Nat), t.WF p → t ≠ .nil → key ≠ [] →
    ∀ (k : List Nat) (mm : Int) (dd : D),
      (k, mm, dd) ∈ (Add_loop ones data t key).entries ↔
        (k = key ∧ mm = ones ∧ dd = data) ∨ ((k, mm, dd) ∈ t.entries ∧ k ≠ key) := by
  intro t
  induction t with
  | nil => intro p key _ h; exact absurd rfl h
  | mk bs m z o d ihz iho =>
    intro p key hwf _ hkey k mm dd
    obtain ⟨hbits, hlen, hmask, hsz, hso, hwz, hwo⟩ := hwf
    have hz := entries_head 0 z hsz
    have ho := entries_head 1 o hso
    rcases key_cases bs key hkey with ⟨b, rest, rfl⟩ | ⟨c, x, s, y, r, hxy, rfl, rfl⟩ |
      ⟨c, b, rfl, rfl⟩ | ⟨c, b, x, s, rfl, rfl⟩
    · rw [Add_loop_past]
      by_cases hb : b = 1
      · rw [if_pos hb]
        subst hb
        cases o with
        | nil =>
          simp only [mem_entries_mk, entries_nil, List.not_mem_nil, and_false, exists_false, or_false]
          constructor
          · rintro (⟨hm, rfl, rfl, rfl⟩ | ⟨k', rfl, h⟩ | ⟨k', rfl, _, rfl, rfl, rfl⟩)
            · exact Or.inr ⟨Or.inl ⟨hm, rfl, rfl, rfl⟩, by simp⟩
            · obtain ⟨k'', rfl⟩ := hz _ _ _ h
              exact Or.inr ⟨Or.inr ⟨_, rfl, h⟩, by simp⟩
            · exact Or.inl ⟨rfl, rfl, rfl⟩
          · rintro (⟨rfl, rfl, rfl⟩ | ⟨(⟨hm, rfl, rfl, rfl⟩ | ⟨k', rfl, h⟩), _⟩)
            · exact Or.inr (Or.inr ⟨_, rfl, hones, rfl, rfl, rfl⟩)
            · exact Or.inl ⟨hm, rfl, rfl, rfl⟩
            · exact Or.inr (Or.inl ⟨k', rfl, h⟩)
        | mk bs' m' z' o' d' =>
          have ih := iho (p + bs.length) (1 :: rest) hwo (by simp) (by simp)
          simp only [mem_entries_mk bs, ih]
          constructor
          · rintro (⟨hm, rfl, rfl, rfl⟩ | ⟨k', rfl, h⟩ | ⟨k', rfl, (⟨rfl, rfl, rfl⟩ | ⟨h, hne⟩)⟩)
            · exact Or.inr ⟨Or.inl ⟨hm, rfl, rfl, rfl⟩, by simp⟩
            · obtain ⟨k'', rfl⟩ := hz _ _ _ h
              exact Or.inr ⟨Or.inr (Or.inl ⟨_, rfl, h⟩), by simp⟩
            · exact Or.inl ⟨rfl, rfl, rfl⟩
            · exact Or.inr ⟨Or.inr (Or.inr ⟨_, rfl, h⟩), by simpa using hne⟩
          · rintro (⟨rfl, rfl, rfl⟩ | ⟨(⟨hm, rfl, rfl, rfl⟩ | ⟨k', rfl, h⟩ | ⟨k', rfl, h⟩), hne⟩)
            · exact Or.inr (Or.inr ⟨_, rfl, Or.inl ⟨rfl, rfl, rfl⟩⟩)
            · exact Or.inl ⟨hm, rfl, rfl, rfl⟩
            · exact Or.inr (Or.inl ⟨k', rfl, h⟩)
            · exact Or.inr (Or.inr ⟨k', rfl, Or.inr ⟨h, by simpa using hne⟩⟩)
      · rw [if_neg hb]
        cases z with
        | nil =>
          simp only [mem_entries_mk, entries_nil, List.not_mem_nil, and_false, exists_false,
            or_false, false_or]
          constructor
          · rintro (⟨hm, rfl, rfl, rfl⟩ | ⟨k', rfl, _, rfl, rfl, rfl⟩ | ⟨k', rfl, h⟩)
            · exact Or.inr ⟨Or.inl ⟨hm, rfl, rfl, rfl⟩, by simp⟩
            · exact Or.inl ⟨rfl, rfl, rfl⟩
            · obtain ⟨k'', rfl⟩ := ho _ _ _ h
              exact Or.inr ⟨Or.inr ⟨_, rfl, h⟩, fun h => hb (List.cons.inj (List.append_cancel_left h)).1.symm⟩
          · rintro (⟨rfl, rfl, rfl⟩ | ⟨(⟨hm, rfl, rfl, rfl⟩ | ⟨k', rfl, h⟩), _⟩)
            · exact Or.inr (Or.inl ⟨_, rfl, hones, rfl, rfl, rfl⟩)
            · exact Or.inl ⟨hm, rfl, rfl, rfl⟩
            · exact Or.inr (Or.inr ⟨k', rfl, h⟩)
        | mk bs' m' z' o' d' =>
          have ih := ihz (p + bs.length) (b :: rest) hwz (by simp) (by simp)
          simp only [mem_entries_mk bs, ih]
          constructor
          · rintro (⟨hm, rfl, rfl, rfl⟩ | ⟨k', rfl, (⟨rfl, rfl, rfl⟩ | ⟨h, hne⟩)⟩ | ⟨k', rfl, h⟩)
            · exact Or.inr ⟨Or.inl ⟨hm, rfl, rfl, rfl⟩, by simp⟩
            · exact Or.inl ⟨rfl, rfl, rfl⟩
            · exact Or.inr ⟨Or.inr (Or.inl ⟨_, rfl, h⟩), by simpa using hne⟩
            · obtain ⟨k'', rfl⟩ := ho _ _ _ h
              exact Or.inr ⟨Or.inr (Or.inr ⟨_, rfl, h⟩), fun h => hb (List.cons.inj (List.append_cancel_left h)).1.symm⟩
          · rintro (⟨rfl, rfl, rfl⟩ | ⟨(⟨hm, rfl, rfl, rfl⟩ | ⟨k', rfl, h⟩ | ⟨k', rfl, h⟩), hne⟩)
            · exact Or.inr (Or.inl ⟨_, rfl, Or.inl ⟨rfl, rfl, rfl⟩⟩)
            · exact Or.inl ⟨hm, rfl, rfl, rfl⟩
            · exact Or.inr (Or.inl ⟨k', rfl, Or.inr ⟨h, by simpa using hne⟩⟩)
            · exact Or.inr (Or.inr ⟨k', rfl, h⟩)
    · rw [Add_loop_mismatch _ _ _ _ _ _ _ _ _ _ _ hxy, mem_entries_append]
      have hnew : ∀ k', (k', mm, dd) ∈ (node.mk (y :: r) ones .nil .nil data).entries ↔
          (k' = y :: r ∧ mm = ones ∧ dd = data) := by
        intro k'
        simp [mem_entries_mk, entries_nil, hones]
      have hold := entries_key_append (x :: s) m z o d
      by_cases hy : y = 1
      · rw [if_pos hy, mem_entries_mk]
        simp only [hnew]
        constructor
        · rintro (⟨hm, _⟩ | ⟨k', rfl, h⟩ | ⟨k', rfl, rfl, rfl, rfl⟩)
          · exact absurd rfl hm
          · obtain ⟨k'', rfl⟩ := hold _ _ _ h
            exact Or.inr ⟨⟨_, rfl, h⟩, by simpa using fun h _ => hxy h.symm⟩
          · exact Or.inl ⟨rfl, rfl, rfl⟩
        · rintro (⟨rfl, rfl, rfl⟩ | ⟨⟨k', rfl, h⟩, _⟩)
          · exact Or.inr (Or.inr ⟨_, rfl, rfl, rfl, rfl⟩)
          · exact Or.inr (Or.inl ⟨k', rfl, h⟩)
      · rw [if_neg hy, mem_entries_mk]
        simp only [hnew]
        constructor
        · rintro (⟨hm, _⟩ | ⟨k', rfl, rfl, rfl, rfl⟩ | ⟨k', rfl, h⟩)
          · exact absurd rfl hm
          · exact Or.inl ⟨rfl, rfl, rfl⟩
          · obtain ⟨k'', rfl⟩ := hold _ _ _ h
            exact Or.inr ⟨⟨_, rfl, h⟩, by simpa using fun h _ => hxy h.symm⟩
        · rintro (⟨rfl, rfl, rfl⟩ | ⟨⟨k', rfl, h⟩, _⟩)
          · exact Or.inr (Or.inl ⟨_, rfl, rfl, rfl, rfl⟩)
          · exact Or.inr (Or.inr ⟨k', rfl, h⟩)
    · rw [Add_loop_exact]
      simp only [mem_entries_mk]
      constructor
      · rintro (⟨_, rfl, rfl, rfl⟩ | ⟨k', rfl, h⟩ | ⟨k', rfl, h⟩)
        · exact Or.inl ⟨rfl, rfl, rfl⟩
        · obtain ⟨k'', rfl⟩ := hz _ _ _ h
          exact Or.inr ⟨Or.inr (Or.inl ⟨_, rfl, h⟩), by simp⟩
        · obtain ⟨k'', rfl⟩ := ho _ _ _ h
          exact Or.inr ⟨Or.inr (Or.inr ⟨_, rfl, h⟩), by simp⟩
      · rintro (⟨rfl, rfl, rfl⟩ | ⟨(⟨hm, rfl, rfl, rfl⟩ | ⟨k', rfl, h⟩ | ⟨k', rfl, h⟩), hne⟩)
        · exact Or.inl ⟨hones, rfl, rfl, rfl⟩
        · exact absurd rfl hne
        · exact Or.inr (Or.inl ⟨k', rfl, h⟩)
        · exact Or.inr (Or.inr ⟨k', rfl, h⟩)
    · rw [Add_loop_inside]
      have hsplit : c ++ b :: x :: s = (c ++ [b]) ++ x :: s := by simp
      rw [hsplit, mem_entries_append]
      have hold := entries_key_append (x :: s) m z o d
      by_cases hx : x = 1
      · rw [if_pos hx, mem_entries_mk]
        simp only [entries_nil, List.not_mem_nil, and_false, exists_false, false_or]
        constructor
        · rintro (⟨_, rfl, rfl, rfl⟩ | ⟨k', rfl, h⟩)
          · exact Or.inl ⟨rfl, rfl, rfl⟩
          · obtain ⟨k'', rfl⟩ := hold _ _ _ h
            exact Or.inr ⟨⟨_, rfl, h⟩, by simp⟩
        · rintro (⟨rfl, rfl, rfl⟩ | ⟨⟨k', rfl, h⟩, _⟩)
          · exact Or.inl ⟨hones, rfl, rfl, rfl⟩
          · exact Or.inr ⟨k', rfl, h⟩
      · rw [if_neg hx, mem_entries_mk]
        simp only [entries_nil, List.not_mem_nil, and_false, exists_false, or_false]
        constructor
        · rintro (⟨_, rfl, rfl, rfl⟩ | ⟨k', rfl, h⟩)
          · exact Or.inl ⟨rfl, rfl, rfl⟩
          · obtain ⟨k'', rfl⟩ := hold _ _ _ h
            exact Or.inr ⟨⟨_, rfl, h⟩, by simp⟩
        · rintro (⟨rfl, rfl, rfl⟩ | ⟨⟨k', rfl, h⟩, _⟩)
          · exact Or.inl ⟨hones, rfl, rfl, rfl⟩
          · exact Or.inr ⟨k', rfl, h⟩

theorem WF_mk (p : Nat) (bs : List Nat) (m : Int) (z o : node D) (d : D) :
    (node.mk bs m z o d).WF p ↔
      ((∀ b ∈ bs, b = 0 ∨ b = 1) ∧ p + bs.length ≤ 128 ∧
        (m ≠ -1 → m = ((p + bs.length : Nat) : Int)) ∧
        slot_ok 0 z ∧ slot_ok 1 o ∧ z.WF (p + bs.length) ∧ o.WF (p + bs.length)) := Iff.rfl

theorem WF_leaf (p : Nat) (bs : List Nat) (ones : Int) (data : D)
    (h1 : ∀ b ∈ bs, b = 0 ∨ b = 1) (h2 : p + bs.length ≤ 128)
    (h3 : ones = ((p + bs.length : Nat) : Int)) :
    (node.mk bs ones .nil .nil data).WF p :=
  ⟨h1, h2, fun _ => h3, trivial, trivial, trivial, trivial⟩

theorem slot_ok_mk (b : Nat) (bs : List Nat) (m : Int) (z o : node D) (d : D) :
    slot_ok b (node.mk bs m z o d) ↔ bs.head? = some b := Iff.rfl

theorem Add_loop_WF (ones : Int) (data : D) :
    ∀ (t : node D) (p : Nat) (key : List Nat), t.WF p → t ≠ .nil → key ≠ [] →
      (∀ b ∈ key, b = 0 ∨ b = 1) → p + key.length ≤ 128 →
      ones = ((p + key.length : Nat) : Int) →
      (Add_loop ones data t key).WF p ∧
        (∀ b, slot_ok b t → key.head? = some b → slot_ok b (Add_loop ones data t key)) := by
  intro t
  induction t with
  | nil => intro p key _ h; exact absurd rfl h
  | mk bs m z o d ihz iho =>
    intro p key hwf _ hkey hkb hkl hones
    obtain ⟨hbits, hlen, hmask, hsz, hso, hwz, hwo⟩ := hwf
    rcases key_cases bs key hkey with ⟨b, rest, rfl⟩ | ⟨c, x, s, y, r, hxy, rfl, rfl⟩ |
      ⟨c, b, rfl, rfl⟩ | ⟨c, b, x, s, rfl, rfl⟩
    · rw [Add_loop_past]
      have hb01 : b = 0 ∨ b = 1 := hkb b (by simp)
      have hrest : ∀ a ∈ b :: rest, a = 0 ∨ a = 1 := fun a ha => hkb a (by simp at ha ⊢; tauto)
      have hl : p + bs.length + (b :: rest).length ≤ 128 := by simp at hkl ⊢; omega
      have ho1 : ones = ((p + bs.length + (b :: rest).length : Nat) : Int) := by
        rw [hones]; simp; omega
      by_cases hb : b = 1
      · rw [if_pos hb]
        cases o with
        | nil =>
          exact ⟨⟨hbits, hlen, hmask, hsz, by simp [slot_ok, hb], hwz,
            WF_leaf _ _ _ _ hrest hl ho1⟩, fun b' h _ => h⟩
        | mk bs' m' z' o' d' =>
          have ih := iho (p + bs.length) (b :: rest) hwo (by simp) (by simp) hrest hl ho1
          exact ⟨⟨hbits, hlen, hmask, hsz, ih.2 1 hso (by simp [hb]), hwz, ih.1⟩, fun b' h _ => h⟩
      · rw [if_neg hb]
        have hb0 : b = 0 := by tauto
        cases z with
        | nil =>
          exact ⟨⟨hbits, hlen, hmask, by simp [slot_ok, hb0], hso,
            WF_leaf _ _ _ _ hrest hl ho1, hwo⟩, fun b' h _ => h⟩
        | mk bs' m' z' o' d' =>
          have ih := ihz (p + bs.length) (b :: rest) hwz (by simp) (by simp) hrest hl ho1
          exact ⟨⟨hbits, hlen, hmask, ih.2 0 hsz (by simp [hb0]), hso, ih.1, hwo⟩, fun b' h _ => h⟩
    · rw [Add_loop_mismatch _ _ _ _ _ _ _ _ _ _ _ hxy]
      have hx01 : x = 0 ∨ x = 1 := hbits x (by simp)
      have hy01 : y = 0 ∨ y = 1 := hkb y (by simp)
      have hcb : ∀ a ∈ c, a = 0 ∨ a = 1 := fun a ha => hbits a (by simp [ha])
      have hxb : ∀ a ∈ x :: s, a = 0 ∨ a = 1 := fun a ha => hbits a (by simp at ha ⊢; tauto)
      have hyb : ∀ a ∈ y :: r, a = 0 ∨ a = 1 := fun a ha => hkb a (by simp at ha ⊢; tauto)
      have hd : p + c.length + (x :: s).length = p + (c ++ x :: s).length := by simp; omega
      have hold : (node.mk (x :: s) m z o d).WF (p + c.length) :=
        ⟨hxb, by rw [hd]; exact hlen, by rw [hd]; exact hmask, hsz, hso, by rw [hd]; exact hwz,
          by rw [hd]; exact hwo⟩
      have hnew : (node.mk (y :: r) ones .nil .nil data).WF (p + c.length) :=
        WF_leaf _ _ _ _ hyb (by simp at hkl ⊢; omega) (by rw [hones]; simp; omega)
      have hcl : p + c.length ≤ 128 := by simp at hlen; omega
      have hslot : ∀ b, slot_ok b (node.mk (c ++ x :: s) m z o d) →
          (c ++ y :: r).head? = some b → c.head? = some b := by
        intro b h1 h2
        cases c with
        | nil =>
          simp [slot_ok] at h1 h2
          exact absurd (h2.trans h1.symm) hxy
        | cons a c => simpa using h2
      by_cases hy : y = 1
      · rw [if_pos hy]
        have hx0 : x = 0 := by rcases hx01 with h | h; exact h; exact absurd (hy.trans h.symm) hxy
        exact ⟨⟨hcb, hcl, fun h => absurd rfl h, by simp [slot_ok, hx0], by simp [slot_ok, hy],
          hold, hnew⟩, hslot⟩
      · rw [if_neg hy]
        have hy0 : y = 0 := by tauto
        have hx1 : x = 1 := by rcases hx01 with h | h; exact absurd (hy0.trans h.symm) hxy; exact h
        exact ⟨⟨hcb, hcl, fun h => absurd rfl h, by simp [slot_ok, hy0], by simp [slot_ok, hx1],
          hnew, hold⟩, hslot⟩
    · rw [Add_loop_exact]
      exact ⟨⟨hbits, hlen, fun _ => hones, hsz, hso, hwz, hwo⟩, fun b h _ => h⟩
    · rw [Add_loop_inside]
      have hx01 : x = 0 ∨ x = 1 := hbits x (by simp)
      have hxb : ∀ a ∈ x :: s, a = 0 ∨ a = 1 := fun a ha => hbits a (by simp at ha ⊢; tauto)
      have hd : p + (c ++ [b]).length + (x :: s).length = p + (c ++ b :: x :: s).length := by
        simp; omega
      have hold : (node.mk (x :: s) m z o d).WF (p + (c ++ [b]).length) :=
        ⟨hxb, by rw [hd]; exact hlen, by rw [hd]; exact hmask, hsz, hso, by rw [hd]; exact hwz,
          by rw [hd]; exact hwo⟩
      have hslot : ∀ b', slot_ok b' (node.mk (c ++ b :: x :: s) m z o d) →
          (c ++ [b]).head? = some b' → (c ++ [b]).head? = some b' := fun _ _ h => h
      by_cases hx : x = 1
      · rw [if_pos hx]
        exact ⟨⟨hkb, hkl, fun _ => hones, trivial, by simp [slot_ok, hx], trivial, hold⟩, hslot⟩
      · rw [if_neg hx]
        have hx0 : x = 0 := by tauto
        exact ⟨⟨hkb, hkl, fun _ => hones, by simp [slot_ok, hx0], trivial, hold, trivial⟩, hslot⟩

/-! ## Lookup: the ways the first loop ends -/

theorem Lookup_seg_cons (cur anc : List (node D)) (bs : List Nat)
    (down : List Nat → List (node D)) (idx b : Nat) (rest : List Nat) (prev : List (node D)) :
    Lookup_seg cur anc bs down idx (b :: rest) prev =
      if idx = bs.length then down (b :: rest)
      else if b ≠ bs.getD idx 0 then anc
      else Lookup_seg cur anc bs down (idx + 1) rest cur := rfl

theorem Lookup_seg_nil (cur anc : List (node D)) (bs : List Nat)
    (down : List Nat → List (node D)) (idx : Nat) (prev : List (node D)) :
    Lookup_seg cur anc bs down idx [] prev = prev := by
  cases idx <;> rfl

theorem Lookup_seg_advance (cur anc : List (node D)) (bs : List Nat)
    (down : List Nat → List (node D)) (c : List Nat) :
    ∀ (pre seg tail : List Nat) (prev : List (node D)), bs = pre ++ c ++ seg →
      Lookup_seg cur anc bs down pre.length (c ++ tail) prev
        = Lookup_seg cur anc bs down (pre.length + c.length) tail (if c = [] then prev else cur) := by
  induction c with
  | nil => intro pre seg tail prev _; simp
  | cons x c ih =>
    intro pre seg tail prev hbs
    have h1 : pre.length ≠ bs.length := by
      rw [hbs]; simp
    have h2 : bs.getD pre.length 0 = x := by
      rw [hbs]; simpa using getD_append_cons pre (c ++ seg) x
    have h4 : Lookup_seg cur anc bs down (pre.length + 1) (c ++ tail) cur
        = Lookup_seg cur anc bs down (pre.length + 1 + c.length) tail cur := by
      have := ih (pre ++ [x]) seg tail cur (by simp [hbs])
      simpa using this
    rw [List.cons_append, Lookup_seg_cons, if_neg h1, if_neg (by rw [h2]; exact fun h => h rfl), h4]
    simp only [List.length_cons, reduceCtorEq, if_false]
    congr 1; omega

theorem Lookup_loop_mk (bs : List Nat) (m : Int) (z o : node D) (d : D)
    (anc : List (node D)) (bits : List Nat) (prev : List (node D)) :
    Lookup_loop (.mk bs m z o d) anc bits prev =
      Lookup_seg (.mk bs m z o d :: anc) anc bs
        (fun k =>
          if k.headD 0 = 1 then Lookup_loop o (.mk bs m z o d :: anc) k (.mk bs m z o d :: anc)
          else Lookup_loop z (.mk bs m z o d :: anc) k (.mk bs m z o d :: anc))
        0 bits prev := rfl

theorem Lookup_loop_nil (anc : List (node D)) (bits : List Nat) (prev : List (node D)) :
    Lookup_loop (.nil : node D) anc bits prev = prev := rfl

/-- The address runs past the end of the segment: the loop steps into a child. -/
theorem Lookup_loop_past (bs : List Nat) (m : Int) (z o : node D) (d : D)
    (anc : List (node D)) (b : Nat) (rest : List Nat) (prev : List (node D)) :
    Lookup_loop (.mk bs m z o d) anc (bs ++ b :: rest) prev =
      if b = 1 then Lookup_loop o (.mk bs m z o d :: anc) (b :: rest) (.mk bs m z o d :: anc)
      else Lookup_loop z (.mk bs m z o d :: anc) (b :: rest) (.mk bs m z o d :: anc) := by
  rw [Lookup_loop_mk]
  have := Lookup_seg_advance (.mk bs m z o d :: anc) anc bs
    (fun k =>
      if k.headD 0 = 1 then Lookup_loop o (.mk bs m z o d :: anc) k (.mk bs m z o d :: anc)
      else Lookup_loop z (.mk bs m z o d :: anc) k (.mk bs m z o d :: anc))
    bs [] [] (b :: rest) prev (by simp)
  simp only [List.length_nil, Nat.zero_add] at this
  rw [this, Lookup_seg_cons, if_pos rfl]
  rfl

/-- The address and the segment differ at a bit: `prev` is the parent. -/
theorem Lookup_loop_mismatch (m : Int) (z o : node D) (d : D) (anc : List (node D))
    (c s r : List Nat) (x y : Nat) (hxy : y ≠ x) (prev : List (node D)) :
    Lookup_loop (.mk (c ++ x :: s) m z o d) anc (c ++ y :: r) prev = anc := by
  rw [Lookup_loop_mk]
  have := Lookup_seg_advance (.mk (c ++ x :: s) m z o d :: anc) anc (c ++ x :: s)
    (fun k =>
      if k.headD 0 = 1 then
        Lookup_loop o (.mk (c ++ x :: s) m z o d :: anc) k (.mk (c ++ x :: s) m z o d :: anc)
      else Lookup_loop z (.mk (c ++ x :: s) m z o d :: anc) k (.mk (c ++ x :: s) m z o d :: anc))
    c [] (x :: s) (y :: r) prev (by simp)
  simp only [List.length_nil, Nat.zero_add] at this
  rw [this, Lookup_seg_cons, if_neg (by simp), getD_append_cons, if_pos hxy]

/-- The address ends where the segment ends: `prev` is the node. -/
theorem Lookup_loop_exact (m : Int) (z o : node D) (d : D) (anc : List (node D))
    (c : List Nat) (b : Nat) (prev : List (node D)) :
    Lookup_loop (.mk (c ++ [b]) m z o d) anc (c ++ [b]) prev = .mk (c ++ [b]) m z o d :: anc := by
  rw [Lookup_loop_mk]
  have := Lookup_seg_advance (.mk (c ++ [b]) m z o d :: anc) anc (c ++ [b])
    (fun k =>
      if k.headD 0 = 1 then
        Lookup_loop o (.mk (c ++ [b]) m z o d :: anc) k (.mk (c ++ [b]) m z o d :: anc)
      else Lookup_loop z (.mk (c ++ [b]) m z o d :: anc) k (.mk (c ++ [b]) m z o d :: anc))
    (c ++ [b]) [] [] [] prev (by simp)
  simp only [List.length_nil, Nat.zero_add, List.append_nil] at this
  rw [this, Lookup_seg_nil]
  simp

/-! ## Lookup returns the longest registered key that is a prefix of the address -/

theorem backtrack_cons (bs : List Nat) (m : Int) (z o : node D) (d : D) (anc : List (node D)) :
    backtrack (.mk bs m z o d :: anc) =
      if m = -1 then backtrack anc else .mk bs m z o d :: anc := rfl

theorem chain_key_append (c anc : List (node D)) :
    chain_key (c ++ anc) = chain_key anc ++ chain_key c := by
  induction c with
  | nil => simp [chain_key]
  | cons n c ih => simp [chain_key, ih]

/-- A registered key under the child of one slot is no prefix of an address that continues
with the other bit. -/
theorem slot_no_match (s b : Nat) (t : node D) (hs : slot_ok s t) (hb : b ≠ s)
    (bs rest k : List Nat) (mm : Int) (dd : D) (h : (k, mm, dd) ∈ t.entries) :
    ¬ (bs ++ k <+: bs ++ b :: rest) := by
  obtain ⟨k', rfl⟩ := entries_head s t hs k mm dd h
  rw [List.prefix_append_right_inj, List.cons_prefix_cons]
  exact fun h => hb h.1.symm

theorem Lookup_loop_spec :
    ∀ (t : node D) (p : Nat) (A : List Nat) (anc : List (node D)),
      t.WF p → A ≠ [] → p + A.length = 128 →
      ((∀ k mm dd, (k, mm, dd) ∈ t.entries → ¬ k <+: A) ∧
          backtrack (Lookup_loop t anc A anc) = backtrack anc) ∨
      (∃ c bs m z o d,
          backtrack (Lookup_loop t anc A anc) = (node.mk bs m z o d :: c) ++ anc ∧ m ≠ -1 ∧
          (chain_key (node.mk bs m z o d :: c), m, d) ∈ t.entries ∧
          chain_key (node.mk bs m z o d :: c) <+: A ∧
          ∀ k mm dd, (k, mm, dd) ∈ t.entries → k <+: A →
            k.length ≤ (chain_key (node.mk bs m z o d :: c)).length) := by
  intro t
  induction t with
  | nil =>
    intro p A anc _ _ _
    exact Or.inl ⟨fun k mm dd h => by simp [entries_nil] at h, rfl⟩
  | mk bs m z o d ihz iho =>
    intro p A anc hwf hA hlenA
    obtain ⟨hbits, hlen, hmask, hsz, hso, hwz, hwo⟩ := hwf
    rcases key_cases bs A hA with ⟨b, rest, rfl⟩ | ⟨c, x, s, y, r, hxy, rfl, rfl⟩ |
      ⟨c, b, rfl, rfl⟩ | ⟨c, b, x, s, rfl, rfl⟩
    · -- the walk continues in the child selected by `b`
      have step : ∀ (ch other : node D) (sb so : Nat), slot_ok so other → b ≠ so →
          ch.WF (p + bs.length) →
          (∀ k mm dd, (k, mm, dd) ∈ (node.mk bs m z o d).entries ↔
            (m ≠ -1 ∧ k = bs ∧ mm = m ∧ dd = d) ∨
            (∃ k', k = bs ++ k' ∧ (k', mm, dd) ∈ ch.entries) ∨
            (∃ k', k = bs ++ k' ∧ (k', mm, dd) ∈ other.entries)) →
          (((∀ k mm dd, (k, mm, dd) ∈ ch.entries → ¬ k <+: b :: rest) ∧
              backtrack (Lookup_loop ch (.mk bs m z o d :: anc) (b :: rest) (.mk bs m z o d :: anc))
                = backtrack (.mk bs m z o d :: anc)) ∨
            (∃ c bs' m' z' o' d',
              backtrack (Lookup_loop ch (.mk bs m z o d :: anc) (b :: rest) (.mk bs m z o d :: anc))
                = (node.mk bs' m' z' o' d' :: c) ++ (.mk bs m z o d :: anc) ∧ m' ≠ -1 ∧
              (chain_key (node.mk bs' m' z' o' d' :: c), m', d') ∈ ch.entries ∧
              chain_key (node.mk bs' m' z' o' d' :: c) <+: b :: rest ∧
              ∀ k mm dd, (k, mm, dd) ∈ ch.entries → k <+: b :: rest →
                k.length ≤ (chain_key (node.mk bs' m' z' o' d' :: c)).length)) →
          ((∀ k mm dd, (k, mm, dd) ∈ (node.mk bs m z o d).entries → ¬ k <+: bs ++ b :: rest) ∧
            backtrack (Lookup_loop ch (.mk bs m z o d :: anc) (b :: rest) (.mk bs m z o d :: anc))
              = backtrack anc) ∨
          (∃ c bs' m' z' o' d',
            backtrack (Lookup_loop ch (.mk bs m z o d :: anc) (b :: rest) (.mk bs m z o d :: anc))
              = (node.mk bs' m' z' o' d' :: c) ++ anc ∧ m' ≠ -1 ∧
            (chain_key (node.mk bs' m' z' o' d' :: c), m', d') ∈ (node.mk bs m z o d).entries ∧
            chain_key (node.mk bs' m' z' o' d' :: c) <+: bs ++ b :: rest ∧
            ∀ k mm dd, (k, mm, dd) ∈ (node.mk bs m z o d).entries → k <+: bs ++ b :: rest →
              k.length ≤ (chain_key (node.mk bs' m' z' o' d' :: c)).length) := by
        intro ch other sb so hother hbso hwch hmem ih
        rcases ih with ⟨hno, hR⟩ | ⟨c', bs', m', z', o', d', hR, hm', hin, hpre, hmax⟩
        · rw [hR, backtrack_cons]
          by_cases hm : m = -1
          · rw [if_pos hm]
            refine Or.inl ⟨?_, rfl⟩
            intro k mm dd hk
            rcases (hmem k mm dd).1 hk with ⟨h, _⟩ | ⟨k', rfl, h⟩ | ⟨k', rfl, h⟩
            · exact absurd hm h
            · rw [List.prefix_append_right_inj]; exact hno _ _ _ h
            · exact slot_no_match so b other hother hbso bs rest k' mm dd h
          · rw [if_neg hm]
            refine Or.inr ⟨[], bs, m, z, o, d, rfl, hm, ?_, ?_, ?_⟩
            · exact (hmem _ _ _).2 (Or.inl ⟨hm, by simp [chain_key, node.bits], rfl, rfl⟩)
            · simp [chain_key, node.bits]
            · intro k mm dd hk hkp
              rcases (hmem k mm dd).1 hk with ⟨_, rfl, _, _⟩ | ⟨k', rfl, h⟩ | ⟨k', rfl, h⟩
              · simp [chain_key, node.bits]
              · rw [List.prefix_append_right_inj] at hkp; exact absurd hkp (hno _ _ _ h)
              · exact absurd hkp (slot_no_match so b other hother hbso bs rest k' mm dd h)
        · refine Or.inr ⟨c' ++ [node.mk bs m z o d], bs', m', z', o', d', ?_, hm', ?_, ?_, ?_⟩
          · rw [hR]; simp
          · have : chain_key (node.mk bs' m' z' o' d' :: (c' ++ [node.mk bs m z o d]))
                = bs ++ chain_key (node.mk bs' m' z' o' d' :: c') := by
              rw [← List.cons_append, chain_key_append]; simp [chain_key, node.bits]
            rw [this]
            exact (hmem _ _ _).2 (Or.inr (Or.inl ⟨_, rfl, hin⟩))
          · have : chain_key (node.mk bs' m' z' o' d' :: (c' ++ [node.mk bs m z o d]))
                = bs ++ chain_key (node.mk bs' m' z' o' d' :: c') := by
              rw [← List.cons_append, chain_key_append]; simp [chain_key, node.bits]
            rw [this, List.prefix_append_right_inj]; exact hpre
          · have : chain_key (node.mk bs' m' z' o' d' :: (c' ++ [node.mk bs m z o d]))
                = bs ++ chain_key (node.mk bs' m' z' o' d' :: c') := by
              rw [← List.cons_append, chain_key_append]; simp [chain_key, node.bits]
            rw [this]
            intro k mm dd hk hkp
            rcases (hmem k mm dd).1 hk with ⟨_, rfl, _, _⟩ | ⟨k', rfl, h⟩ | ⟨k', rfl, h⟩
            · simp
            · rw [List.prefix_append_right_inj] at hkp
              have := hmax _ _ _ h hkp
              simp only [List.length_append]; omega
            · exact absurd hkp (slot_no_match so b other hother hbso bs rest k' mm dd h)
      have hl : p + bs.length + (b :: rest).length = 128 := by simp at hlenA ⊢; omega
      rw [Lookup_loop_past]
      by_cases hb : b = 1
      · rw [if_pos hb]
        refine step o z 1 0 hsz (by omega) hwo ?_
          (iho (p + bs.length) (b :: rest) (.mk bs m z o d :: anc) hwo (by simp) hl)
        exact fun k mm dd => (mem_entries_mk bs m z o d k mm dd).trans (or_congr_right or_comm)
      · rw [if_neg hb]
        exact step z o 0 1 hso hb hwz (fun k mm dd => mem_entries_mk bs m z o d k mm dd)
          (ihz (p + bs.length) (b :: rest) (.mk bs m z o d :: anc) hwz (by simp) hl)
    · rw [Lookup_loop_mismatch _ _ _ _ _ _ _ _ _ _ hxy]
      refine Or.inl ⟨?_, rfl⟩
      intro k mm dd hk
      obtain ⟨k', rfl⟩ := entries_key_append _ _ _ _ _ _ _ _ hk
      rw [List.append_assoc, List.prefix_append_right_inj, List.cons_append, List.cons_prefix_cons]
      exact fun h => hxy h.1.symm
    · rw [Lookup_loop_exact, backtrack_cons]
      have hchild : ∀ (sb : Nat) (ch : node D), slot_ok sb ch → ∀ k' mm dd,
          (k', mm, dd) ∈ ch.entries → ¬ ((c ++ [b]) ++ k' <+: c ++ [b]) := by
        intro sb ch hs k' mm dd h hp
        obtain ⟨k'', rfl⟩ := entries_head sb ch hs k' mm dd h
        have := hp.length_le
        simp at this
      by_cases hm : m = -1
      · rw [if_pos hm]
        refine Or.inl ⟨?_, rfl⟩
        intro k mm dd hk
        rcases (mem_entries_mk _ _ _ _ _ _ _ _).1 hk with ⟨h, _⟩ | ⟨k', rfl, h⟩ | ⟨k', rfl, h⟩
        · exact absurd hm h
        · exact hchild 0 z hsz _ _ _ h
        · exact hchild 1 o hso _ _ _ h
      · rw [if_neg hm]
        refine Or.inr ⟨[], c ++ [b], m, z, o, d, rfl, hm, ?_, ?_, ?_⟩
        · exact (mem_entries_mk _ _ _ _ _ _ _ _).2
            (Or.inl ⟨hm, by simp [chain_key, node.bits], rfl, rfl⟩)
        · simp [chain_key, node.bits]
        · intro k mm dd _ hkp
          have := hkp.length_le
          simpa [chain_key, node.bits] using this
    · exfalso
      simp at hlen hlenA
      omega

/-! ## Tries built by `Add` -/

theorem add_bits_nil (bits : List Nat) (ones : Int) (data : D) :
    (NetDB.mk (.nil : node D)).add_bits bits ones data = ⟨.mk bits ones .nil .nil data⟩ := rfl

theorem add_bits_mk (bs : List Nat) (m : Int) (z o : node D) (d : D)
    (bits : List Nat) (ones : Int) (data : D) :
    (NetDB.mk (.mk bs m z o d)).add_bits bits ones data
      = ⟨Add_loop ones data (.mk bs m z o d) bits⟩ := rfl

theorem KeyWF_ones (k : List Nat) : ((k.length : Nat) : Int) ≠ -1 := by
  omega

/-- The body of `Add` keeps the structural invariant. -/
theorem add_bits_WF (db : NetDB D) (hdb : db.root.WF 0) (k : List Nat) (hk : KeyWF k) (d : D) :
    (db.add_bits k k.length d).root.WF 0 := by
  obtain ⟨root⟩ := db
  obtain ⟨h1, h2, h3⟩ := hk
  cases root with
  | nil => exact WF_leaf 0 k _ d h3 (by omega) (by simp)
  | mk bs m z o dd =>
    rw [add_bits_mk]
    exact (Add_loop_WF _ d _ 0 k hdb (by simp) (by intro h; simp [h] at h1) h3 (by omega)
      (by simp)).1

/-- The body of `Add` registers the key and changes no other registered triple. -/
theorem add_bits_entries (db : NetDB D) (hdb : db.root.WF 0) (k : List Nat) (hk : KeyWF k) (d : D)
    (k' : List Nat) (mm : Int) (dd : D) :
    (k', mm, dd) ∈ (db.add_bits k k.length d).entries ↔
      (k' = k ∧ mm = k.length ∧ dd = d) ∨ ((k', mm, dd) ∈ db.entries ∧ k' ≠ k) := by
  obtain ⟨root⟩ := db
  have hne : k ≠ [] := by intro h; have := hk.1; simp [h] at this
  cases root with
  | nil =>
    rw [add_bits_nil]
    simp [NetDB.entries, mem_entries_mk, entries_nil, KeyWF_ones k]
  | mk bs m z o d0 =>
    rw [add_bits_mk]
    exact Add_loop_entries _ d (KeyWF_ones k) _ 0 k hdb (by simp) hne k' mm dd

theorem build_nil : build ([] : List (List Nat × D)) = NetDB.empty := rfl

theorem build_snoc (ops : List (List Nat × D)) (op : List Nat × D) :
    build (ops ++ [op]) = (build ops).add_bits op.1 op.1.length op.2 := by
  simp [build, List.foldl_append]

theorem last_added_nil (k : List Nat) : last_added ([] : List (List Nat × D)) k = none := rfl

theorem last_added_snoc (ops : List (List Nat × D)) (op : List Nat × D) (k : List Nat) :
    last_added (ops ++ [op]) k = if op.1 = k then some op.2 else last_added ops k := by
  simp only [last_added, List.reverse_append, List.reverse_singleton, List.singleton_append,
    List.find?_cons]
  by_cases h : op.1 = k <;> simp [h]

/-- A trie built by `Add` calls with well-formed keys satisfies the structural invariant. -/
theorem build_WF (ops : List (List Nat × D)) (hops : ∀ op ∈ ops, KeyWF op.1) :
    (build ops).root.WF 0 := by
  induction ops using List.reverseRecOn with
  | nil => exact trivial
  | append_singleton ops op ih =>
    rw [build_snoc]
    exact add_bits_WF _ (ih fun o ho => hops o (by simp [ho])) _ (hops op (by simp)) _

/-- The registered triples of a built trie: every added key, with its length as prefix length
and the payload that was added last for it. -/
theorem build_entries (ops : List (List Nat × D)) (hops : ∀ op ∈ ops, KeyWF op.1)
    (k : List Nat) (mm : Int) (dd : D) :
    (k, mm, dd) ∈ (build ops).entries ↔ mm = k.length ∧ last_added ops k = some dd := by
  induction ops using List.reverseRecOn with
  | nil => simp [build_nil, NetDB.empty, NetDB.entries, entries_nil, last_added_nil]
  | append_singleton ops op ih =>
    have ih := ih fun o ho => hops o (by simp [ho])
    rw [build_snoc, add_bits_entries _ (build_WF ops fun o ho => hops o (by simp [ho])) _
      (hops op (by simp)), last_added_snoc, ih]
    by_cases h : op.1 = k
    · subst h; simp [eq_comm]
    · rw [if_neg h]
      constructor
      · rintro (⟨rfl, _, _⟩ | ⟨h1, _⟩)
        · exact absurd rfl h
        · exact h1
      · exact fun h1 => Or.inr ⟨h1, fun h2 => h h2.symm⟩

theorem last_added_some_iff (ops : List (List Nat × D)) (k : List Nat) :
    (∃ d, last_added ops k = some d) ↔ ∃ d, (k, d) ∈ ops := by
  induction ops using List.reverseRecOn with
  | nil => simp [last_added_nil]
  | append_singleton ops op ih =>
    simp only [last_added_snoc, List.mem_append, List.mem_singleton]
    by_cases h : op.1 = k
    · simp only [h, if_true]
      exact ⟨fun _ => ⟨op.2, Or.inr (by rw [← h])⟩, fun _ => ⟨op.2, rfl⟩⟩
    · simp only [h, if_false, ih]
      constructor
      · rintro ⟨d, hd⟩; exact ⟨d, Or.inl hd⟩
      · rintro ⟨d, hd | hd⟩
        · exact ⟨d, hd⟩
        · exact absurd (by rw [← hd]) h

/-! ## The public interface -/

theorem to_array_length (ip : List Nat) (n : Nat) : (to_array ip n).length = n := by
  simp [to_array]

theorem Lookup_nil (ParseIP : String → List Nat) (ipstr : String) :
    (NetDB.mk (.nil : node D)).Lookup ParseIP ipstr = .error "not found" := rfl

theorem Lookup_mk (ParseIP : String → List Nat) (ipstr : String)
    (bs : List Nat) (m : Int) (z o : node D) (d : D) (hip : 16 ≤ (ParseIP ipstr).length) :
    (NetDB.mk (.mk bs m z o d)).Lookup ParseIP ipstr =
      match lookup_prev (.mk bs m z o d) (to_array (ParseIP ipstr) 128) with
      | [] => .error "not found"
      | .nil :: _ => .error "panic: nil pointer dereference"
      | .mk bs netmask z o data :: anc =>
        .ok (to16 (.mk bs netmask z o data :: anc),
          if IsIPv4Mapped (to16 (.mk bs netmask z o data :: anc)) then netmask - 96 else netmask,
          data) := by
  simp only [NetDB.Lookup]
  rw [if_neg (by omega)]

/-- What `Lookup` finds in a well-formed trie: nothing when no registered key is a prefix of
the address, and otherwise the node of the longest registered key that is one. -/
theorem Lookup_spec (ParseIP : String → List Nat) (ipstr : String) (db : NetDB D)
    (hdb : db.root.WF 0) (hip : 16 ≤ (ParseIP ipstr).length) :
    ((∀ k mm dd, (k, mm, dd) ∈ db.entries → ¬ k <+: to_array (ParseIP ipstr) 128) ∧
        db.Lookup ParseIP ipstr = .error "not found") ∨
    (∃ p k mm dd, lookup_prev db.root (to_array (ParseIP ipstr) 128) = p ∧ chain_key p = k ∧
        (p.headD .nil).mask = mm ∧ mm ≠ -1 ∧
        (k, mm, dd) ∈ db.entries ∧ k <+: to_array (ParseIP ipstr) 128 ∧
        (∀ k' mm' dd', (k', mm', dd') ∈ db.entries →
          k' <+: to_array (ParseIP ipstr) 128 → k'.length ≤ k.length) ∧
        db.Lookup ParseIP ipstr =
          .ok (to16 p, if IsIPv4Mapped (to16 p) then mm - 96 else mm, dd)) := by
  obtain ⟨root⟩ := db
  cases root with
  | nil => exact Or.inl ⟨fun k mm dd h => by simp [NetDB.entries, entries_nil] at h, rfl⟩
  | mk bs m z o d =>
    have hA : to_array (ParseIP ipstr) 128 ≠ [] := by
      intro h
      have := to_array_length (ParseIP ipstr) 128
      rw [h] at this; simp at this
    rw [Lookup_mk _ _ _ _ _ _ _ hip]
    rcases Lookup_loop_spec (.mk bs m z o d) 0 (to_array (ParseIP ipstr) 128) [] hdb hA
      (by rw [to_array_length]) with ⟨hno, hR⟩ | ⟨c, bs', m', z', o', d', hR, hm', hin, hpre, hmax⟩
    · left
      refine ⟨hno, ?_⟩
      have : lookup_prev (.mk bs m z o d) (to_array (ParseIP ipstr) 128) = [] := hR
      rw [this]
    · right
      have : lookup_prev (.mk bs m z o d) (to_array (ParseIP ipstr) 128)
          = node.mk bs' m' z' o' d' :: c := by
        simpa using hR
      refine ⟨_, _, m', d', this, rfl, ?_, hm', ?_, ?_, ?_, ?_⟩
      · rfl
      · exact hin
      · exact hpre
      · exact hmax
      · rw [this]

theorem to_array_bits (ip : List Nat) (n : Nat) : ∀ b ∈ to_array ip n, b = 0 ∨ b = 1 := by
  intro b hb
  simp only [to_array, List.mem_map] at hb
  obtain ⟨j, _, rfl⟩ := hb
  split <;> simp

/-- A key returned by `parse_cidr` is well formed and `ones` is its length. -/
theorem parse_cidr_ok (ParseCIDR : String → Except String IPNet) (hP : ValidCIDR ParseCIDR)
    (netcidr : String) (bits : List Nat) (ones : Nat)
    (h : parse_cidr ParseCIDR netcidr = .ok (bits, ones)) :
    KeyWF bits ∧ ones = bits.length := by
  unfold parse_cidr at h
  simp only at h
  split at h
  · exact absurd h (by simp)
  · rename_i ipnet hparse
    split at h
    · exact absurd h (by simp)
    · rename_i hz
      simp only [Except.ok.injEq, Prod.mk.injEq] at h
      obtain ⟨rfl, rfl⟩ := h
      have hv := hP _ _ hparse
      refine ⟨⟨?_, ?_, to_array_bits _ _⟩, ?_⟩
      · rw [to_array_length]; split <;> omega
      · rw [to_array_length]
        rcases hv with ⟨h4, h32⟩ | ⟨h16, h128⟩
        · rw [if_pos h4]; omega
        · rw [if_neg (by omega)]; exact h128
      · rw [to_array_length]

/-- `Add` is `parse_cidr` followed by the insertion of the parsed key. -/
theorem Add_ok (ParseCIDR : String → Except String IPNet) (db : NetDB D) (netcidr : String)
    (data : D) (bits : List Nat) (ones : Nat)
    (h : parse_cidr ParseCIDR netcidr = .ok (bits, ones)) :
    db.Add ParseCIDR netcidr data = (db.add_bits bits ones data, none) := by
  simp [NetDB.Add, h]

theorem Add_error (ParseCIDR : String → Except String IPNet) (db : NetDB D) (netcidr : String)
    (data : D) (err : String) (h : parse_cidr ParseCIDR netcidr = .error err) :
    db.Add ParseCIDR netcidr data = (db, some err) := by
  simp [NetDB.Add, h]

/-- The trie after any sequence of `Add` calls is the trie built from the keys of the
calls that succeeded. -/
theorem after_calls_eq_build (ParseCIDR : String → Except String IPNet)
    (hP : ValidCIDR ParseCIDR) (calls : List (String × D)) :
    after_calls ParseCIDR calls = build (parsed_calls ParseCIDR calls) ∧
      ∀ op ∈ parsed_calls ParseCIDR calls, KeyWF op.1 := by
  induction calls using List.reverseRecOn with
  | nil => exact ⟨rfl, fun op h => by simp [parsed_calls] at h⟩
  | append_singleton calls c ih =>
    have hstep : after_calls ParseCIDR (calls ++ [c])
        = ((after_calls ParseCIDR calls).Add ParseCIDR c.1 c.2).1 := by
      simp [after_calls, List.foldl_append]
    cases hp : parse_cidr ParseCIDR c.1 with
    | error err =>
      have hpc : parsed_calls ParseCIDR (calls ++ [c]) = parsed_calls ParseCIDR calls := by
        simp [parsed_calls, List.filterMap_append, hp]
      rw [hstep, hpc, Add_error _ _ _ _ _ hp]
      exact ih
    | ok r =>
      obtain ⟨bits, ones⟩ := r
      have hk := parse_cidr_ok ParseCIDR hP c.1 bits ones hp
      have hpc : parsed_calls ParseCIDR (calls ++ [c])
          = parsed_calls ParseCIDR calls ++ [(bits, c.2)] := by
        simp [parsed_calls, List.filterMap_append, hp]
      rw [hstep, hpc, Add_ok _ _ _ _ _ _ hp, build_snoc, ih.1, hk.2]
      refine ⟨rfl, ?_⟩
      intro op hop
      rcases List.mem_append.1 hop with h | h
      · exact ih.2 op h
      · simp at h; subst h; exact hk.1

/-! ## Bits and bytes -/

theorem and_shift_ne_zero (x i : Nat) : x &&& (1 <<< i) ≠ 0 ↔ x.testBit i = true := by
  rw [Nat.one_shiftLeft]
  constructor
  · intro h
    by_contra hx
    apply h
    apply Nat.eq_of_testBit_eq
    intro j
    rw [Nat.testBit_and, Nat.testBit_two_pow, Nat.zero_testBit]
    by_cases hij : i = j
    · subst hij; simp [hx]
    · simp [hij]
  · intro hx h
    have : (x &&& 2 ^ i).testBit i = true := by
      rw [Nat.testBit_and, Nat.testBit_two_pow]; simp [hx]
    rw [h, Nat.zero_testBit] at this
    exact absurd this (by simp)

theorem to_array_eq_bits (ip : List Nat) (n : Nat) (hn : n ≤ 128) :
    to_array ip n = (List.range n).map fun j => if bit_at ip j then 1 else 0 := by
  unfold to_array
  apply List.map_congr_left
  intro j hj
  have hj : j < 128 := by
    have := List.mem_range.1 hj; omega
  have h1 : 15 - (127 - j) / 8 = j / 8 := by omega
  have h2 : (127 - j) % 8 = 7 - j % 8 := by omega
  rw [h1, h2]
  by_cases hb : bit_at ip j = true
  · rw [if_pos ((and_shift_ne_zero _ _).2 hb), if_pos hb]
  · rw [if_neg (fun h => hb ((and_shift_ne_zero _ _).1 h)), if_neg hb]

theorem to_array_getD (ip : List Nat) (n j : Nat) (hn : n ≤ 128) (hj : j < n) :
    (to_array ip n).getD j 0 = if bit_at ip j then 1 else 0 := by
  rw [to_array_eq_bits ip n hn, List.getD_eq_getElem?_getD, List.getElem?_map,
    List.getElem?_range hj]
  rfl

theorem to_array_take (ip : List Nat) (n m : Nat) (hn : n ≤ 128) (hm : m ≤ n) :
    (to_array ip n).take m = to_array ip m := by
  rw [to_array_eq_bits ip n hn, to_array_eq_bits ip m (by omega), ← List.map_take,
    List.take_range, Nat.min_eq_left hm]

theorem bit_at_set (arr : List Nat) (j0 j : Nat) (h0 : j0 / 8 < arr.length) :
    bit_at (arr.set (j0 / 8) (arr.getD (j0 / 8) 0 ||| (1 <<< (7 - j0 % 8)))) j
      = (bit_at arr j || decide (j = j0)) := by
  unfold bit_at
  by_cases hq : j / 8 = j0 / 8
  · rw [hq]
    have hget : (arr.set (j0 / 8) (arr.getD (j0 / 8) 0 ||| (1 <<< (7 - j0 % 8)))).getD (j0 / 8) 0
        = arr.getD (j0 / 8) 0 ||| (1 <<< (7 - j0 % 8)) := by
      simp [List.getD_eq_getElem?_getD, List.getElem?_set, h0]
    rw [hget, Nat.testBit_or, Nat.one_shiftLeft, Nat.testBit_two_pow]
    congr 1
    have : (7 - j0 % 8 = 7 - j % 8) ↔ j = j0 := by omega
    simp [this]
  · have hget : (arr.set (j0 / 8) (arr.getD (j0 / 8) 0 ||| (1 <<< (7 - j0 % 8)))).getD (j / 8) 0
        = arr.getD (j / 8) 0 := by
      simp [List.getD_eq_getElem?_getD, List.getElem?_set, Ne.symm hq]
    have hne : j ≠ j0 := fun h => hq (by rw [h])
    rw [hget]; simp [hne]

theorem bytes_set (arr : List Nat) (i r : Nat) (hr : r < 8) (h : ∀ b ∈ arr, b < 256) :
    ∀ b ∈ arr.set i (arr.getD i 0 ||| (1 <<< r)), b < 256 := by
  intro b hb
  rcases List.mem_or_eq_of_mem_set hb with h1 | h1
  · exact h b h1
  · subst h1
    have h1 : arr.getD i 0 < 2 ^ 8 := by
      rw [List.getD_eq_getElem?_getD]
      cases hi : arr[i]? with
      | none => simp
      | some v => simpa using h v (List.getElem?_mem hi)
    have h2 : 1 <<< r < 2 ^ 8 := by
      rw [Nat.one_shiftLeft]
      exact Nat.pow_lt_pow_right (by omega) hr
    exact Nat.or_lt_two_pow h1 h2

theorem to16_node_concat (bits : List Nat) (bit : Nat) (st : List Nat × Int) :
    to16_node (bits ++ [bit]) st =
      to16_node bits
        (if bit ≠ 0 then
            st.1.set (st.2 / 8).toNat
              (st.1.getD (st.2 / 8).toNat 0 ||| (1 <<< (7 - (st.2 % 8).toNat)))
          else st.1,
          st.2 - 1) := by
  simp [to16_node]

theorem to16_node_nil (st : List Nat × Int) : to16_node [] st = st := rfl

theorem to16_node_append (a b : List Nat) (st : List Nat × Int) :
    to16_node (a ++ b) st = to16_node a (to16_node b st) := by
  simp [to16_node, List.foldl_append]

/-- The inner loop of `to16` on a key of `n` bits, started at bit index `n - 1`: it ends at
index `-1` and has set exactly the bits of the key that are not zero. -/
theorem to16_node_spec (K : List Nat) : ∀ (arr : List Nat), arr.length = 16 →
    (∀ b ∈ arr, b < 256) → K.length ≤ 128 →
    (to16_node K (arr, (K.length : Int) - 1)).2 = -1 ∧
    (to16_node K (arr, (K.length : Int) - 1)).1.length = 16 ∧
    (∀ b ∈ (to16_node K (arr, (K.length : Int) - 1)).1, b < 256) ∧
    ∀ j, bit_at (to16_node K (arr, (K.length : Int) - 1)).1 j
      = (bit_at arr j || (decide (j < K.length) && decide (K.getD j 0 ≠ 0))) := by
  induction K using List.reverseRecOn with
  | nil =>
    intro arr h1 h2 _
    simp [to16_node_nil, h1]
    exact h2
  | append_singleton K bit ih =>
    intro arr h1 h2 h3
    have hlen : ((K ++ [bit]).length : Int) - 1 = (K.length : Int) := by simp
    have hq : ((K.length : Int) / 8).toNat = K.length / 8 := by
      have : ((K.length : Int) / 8) = ((K.length / 8 : Nat) : Int) := by push_cast; rfl
      rw [this, Int.toNat_ofNat]
    have hr : ((K.length : Int) % 8).toNat = K.length % 8 := by
      have : ((K.length : Int) % 8) = ((K.length % 8 : Nat) : Int) := by push_cast; rfl
      rw [this, Int.toNat_ofNat]
    have hK : K.length < 128 := by simp at h3; omega
    rw [hlen, to16_node_concat]
    simp only [hq, hr]
    have hgetK : ∀ j, j < K.length → (K ++ [bit]).getD j 0 = K.getD j 0 := by
      intro j hj
      simp [List.getD_eq_getElem?_getD, List.getElem?_append_left hj]
    have hgetb : (K ++ [bit]).getD K.length 0 = bit := by
      exact getD_append_cons K [] bit
    by_cases hb : bit ≠ 0
    · rw [if_pos hb]
      obtain ⟨r1, r2, r3, r4⟩ := ih
        (arr.set (K.length / 8) (arr.getD (K.length / 8) 0 ||| (1 <<< (7 - K.length % 8))))
        (by simp [h1]) (bytes_set arr _ _ (by omega) h2) (by omega)
      refine ⟨r1, r2, r3, fun j => ?_⟩
      rw [r4, bit_at_set arr K.length j (by omega)]
      rcases Nat.lt_trichotomy j K.length with h | h | h
      · rw [hgetK j h]; simp [h, Nat.ne_of_lt h, Nat.lt_succ_of_lt h]
      · subst h; simp [hgetb, hb]
      · have h' : ¬ j < K.length := by omega
        have h'' : ¬ j < K.length + 1 := by omega
        simp [h', h'', Nat.ne_of_gt h]
    · rw [if_neg hb]
      obtain ⟨r1, r2, r3, r4⟩ := ih arr h1 h2 (by omega)
      refine ⟨r1, r2, r3, fun j => ?_⟩
      rw [r4]
      have hb0 : bit = 0 := by simpa using hb
      rcases Nat.lt_trichotomy j K.length with h | h | h
      · rw [hgetK j h]; simp [h, Nat.lt_succ_of_lt h]
      · subst h; simp [hgetb, hb0]
      · have h' : ¬ j < K.length := by omega
        have h'' : ¬ j < K.length + 1 := by omega
        simp [h', h'']

theorem to16_fold (p : List (node D)) : ∀ st : List Nat × Int,
    p.foldl (fun st n => to16_node n.bits st) st = to16_node (chain_key p) st := by
  induction p with
  | nil => intro st; rfl
  | cons n anc ih =>
    intro st
    rw [List.foldl_cons, ih, chain_key, to16_node_append]

theorem bit_at_zeros (j : Nat) : bit_at (List.replicate 16 0) j = false := by
  unfold bit_at
  rw [List.getD_eq_getElem?_getD]
  cases h : (List.replicate 16 0)[j / 8]? with
  | none => simp
  | some v =>
    have := List.getElem?_mem h
    rw [List.mem_replicate] at this
    simp [this.2]

/-- The method `to16` on a pointer whose `mask` is the length of its key: 16 bytes whose
leading bits are the key and whose other bits are zero. -/
theorem to16_spec (p : List (node D)) (hm : (p.headD .nil).mask = (chain_key p).length)
    (hl : (chain_key p).length ≤ 128) :
    (to16 p).length = 16 ∧ (∀ b ∈ to16 p, b < 256) ∧
    ∀ j, bit_at (to16 p) j
      = (decide (j < (chain_key p).length) && decide ((chain_key p).getD j 0 ≠ 0)) := by
  unfold to16
  rw [to16_fold, hm]
  obtain ⟨_, r2, r3, r4⟩ := to16_node_spec (chain_key p) (List.replicate 16 0) (by simp)
    (fun b hb => by rw [List.mem_replicate] at hb; omega) hl
  refine ⟨r2, r3, fun j => ?_⟩
  rw [r4, bit_at_zeros, Bool.false_or]

/-- Two byte strings of the same length with the same bits are equal. -/
theorem bytes_ext (a b : List Nat) (hlen : a.length = b.length)
    (ha : ∀ x ∈ a, x < 256) (hb : ∀ x ∈ b, x < 256)
    (h : ∀ j, j < 8 * a.length → bit_at a j = bit_at b j) : a = b := by
  apply List.ext_getElem hlen
  intro i h1 h2
  apply Nat.eq_of_testBit_eq
  intro t
  by_cases ht : t < 8
  · have := h (8 * i + (7 - t)) (by omega)
    unfold bit_at at this
    have e1 : (8 * i + (7 - t)) / 8 = i := by omega
    have e2 : 7 - (8 * i + (7 - t)) % 8 = t := by omega
    rw [e1, e2] at this
    simpa [List.getD_eq_getElem?_getD, List.getElem?_eq_getElem h1,
      List.getElem?_eq_getElem h2] using this
  · have h256 : (256 : Nat) ≤ 2 ^ t := by
      calc (256 : Nat) = 2 ^ 8 := by norm_num
        _ ≤ 2 ^ t := Nat.pow_le_pow_right (by omega) (by omega)
    rw [Nat.testBit_lt_two_pow (lt_of_lt_of_le (ha _ (List.getElem_mem h1)) h256),
      Nat.testBit_lt_two_pow (lt_of_lt_of_le (hb _ (List.getElem_mem h2)) h256)]

/-- Reconstruction: when the key of a registered pointer is the first `n` bits of the
address `ip` and the other bits of `ip` are zero, `to16` returns `ip`. -/
theorem to16_eq (p : List (node D)) (ip : List Nat) (n : Nat) (hn : n ≤ 128)
    (hk : chain_key p = to_array ip n) (hm : (p.headD .nil).mask = n)
    (hip : ip.length = 16) (hb : ∀ x ∈ ip, x < 256)
    (hz : ∀ j, n ≤ j → j < 128 → bit_at ip j = false) : to16 p = ip := by
  have hlen : (chain_key p).length = n := by rw [hk, to_array_length]
  obtain ⟨r1, r2, r3⟩ := to16_spec p (by rw [hm, hlen]) (by omega)
  apply bytes_ext _ _ (by rw [r1, hip]) r2 hb
  intro j hj
  rw [r1] at hj
  rw [r3, hlen]
  by_cases hjn : j < n
  · rw [hk, to_array_getD ip n j hn hjn]
    by_cases hbit : bit_at ip j = true
    · simp [hjn, hbit]
    · simp [hjn, hbit]
  · rw [hz j (by omega) (by omega)]
    simp [hjn]

/-- The bits of the network that `to16` returns, read back by `to_array`, are the key. -/
theorem to_array_to16 (p : List (node D)) (hm : (p.headD .nil).mask = (chain_key p).length)
    (hl : (chain_key p).length ≤ 128) (hb : ∀ b ∈ chain_key p, b = 0 ∨ b = 1) :
    to_array (to16 p) (chain_key p).length = chain_key p := by
  obtain ⟨_, _, r3⟩ := to16_spec p hm hl
  apply List.ext_getElem (by rw [to_array_length])
  intro j h1 h2
  have hj : j < (chain_key p).length := h2
  have e1 := to_array_getD (to16 p) (chain_key p).length j hl hj
  rw [List.getD_eq_getElem?_getD, List.getElem?_eq_getElem h1] at e1
  simp only [Option.getD_some] at e1
  rw [e1, r3]
  have e2 : (chain_key p).getD j 0 = (chain_key p)[j] := by
    rw [List.getD_eq_getElem?_getD, List.getElem?_eq_getElem h2]; rfl
  rw [e2]
  rcases hb _ (List.getElem_mem h2) with h | h <;> simp [hj, h]

/-! ## Counting -/

theorem count_true_eq (t : node D) : t.count true = t.entries.length := by
  induction t with
  | nil => rfl
  | mk bs m z o d ihz iho =>
    simp only [node.count, node.entries, List.length_append, List.length_map, ihz, iho]
    by_cases hm : m = -1
    · simp [hm]; omega
    · simp [hm]; omega

theorem count_shape (h : Bool) (t : node D) : t.shape.count h = t.count h := by
  induction t with
  | nil => rfl
  | mk bs m z o d ihz iho => simp [node.shape, node.count, ihz, iho]

/-- No two registered nodes of a well-formed sub-trie have the same key. -/
theorem entries_keys_nodup (t : node D) : ∀ p, t.WF p → (t.entries.map Prod.fst).Nodup := by
  induction t with
  | nil => intro p _; simp [entries_nil]
  | mk bs m z o d ihz iho =>
    intro p hwf
    obtain ⟨_, _, _, hsz, hso, hwz, hwo⟩ := hwf
    have hz := ihz _ hwz
    have ho := iho _ hwo
    have hinj : Function.Injective (fun k : List Nat => bs ++ k) := fun a b h =>
      List.append_cancel_left h
    have hmapz : ((z.entries.map fun e => (bs ++ e.1, e.2)).map Prod.fst)
        = (z.entries.map Prod.fst).map (fun k => bs ++ k) := by
      simp [List.map_map, Function.comp_def]
    have hmapo : ((o.entries.map fun e => (bs ++ e.1, e.2)).map Prod.fst)
        = (o.entries.map Prod.fst).map (fun k => bs ++ k) := by
      simp [List.map_map, Function.comp_def]
    simp only [node.entries, List.map_append, hmapz, hmapo]
    rw [List.nodup_append, List.nodup_append]
    refine ⟨⟨?_, hz.map hinj, ?_⟩, ho.map hinj, ?_⟩
    · by_cases hm : m = -1 <;> simp [hm]
    · intro k h1 h2
      have hk : k = bs := by
        by_cases hm : m = -1
        · simp [hm] at h1
        · simpa [hm] using h1
      subst hk
      simp only [List.mem_map, Prod.exists] at h2
      obtain ⟨k', ⟨a, mm, dd, hmem, rfl⟩, hk'⟩ := h2
      obtain ⟨k'', rfl⟩ := entries_head 0 z hsz _ _ _ hmem
      simp at hk'
    · intro k h1 h2
      simp only [List.mem_append, List.mem_map, Prod.exists] at h1 h2
      obtain ⟨k2, ⟨a, mm, dd, hmem2, rfl⟩, rfl⟩ := h2
      obtain ⟨k2', rfl⟩ := entries_head 1 o hso _ _ _ hmem2
      rcases h1 with h1 | ⟨k1, ⟨a1, mm1, dd1, hmem1, rfl⟩, hk1⟩
      · exfalso
        by_cases hm : m = -1
        · simp [hm] at h1
        · simp [hm] at h1
      · obtain ⟨k1', rfl⟩ := entries_head 0 z hsz _ _ _ hmem1
        simp at hk1

theorem entries_nodup (t : node D) (p : Nat) (h : t.WF p) : t.entries.Nodup :=
  List.Nodup.of_map _ (entries_keys_nodup t p h)

/-- Adding a key that is registered already changes no node, segment, prefix length or link. -/
theorem Add_loop_shape (ones : Int) (data : D) :
    ∀ (t : node D) (p : Nat) (key : List Nat) (mm : Int) (dd : D), t.WF p →
      (key, mm, dd) ∈ t.entries → ones = ((p + key.length : Nat) : Int) →
      (Add_loop ones data t key).shape = t.shape := by
  intro t
  induction t with
  | nil => intro p key mm dd _ h; simp [entries_nil] at h
  | mk bs m z o d ihz iho =>
    intro p key mm dd hwf hmem hones
    obtain ⟨hbits, hlen, hmask, hsz, hso, hwz, hwo⟩ := hwf
    have hz := entries_head 0 z hsz
    have ho := entries_head 1 o hso
    rw [mem_entries_mk] at hmem
    rcases hmem with ⟨hm, rfl, rfl, rfl⟩ | ⟨k', rfl, h⟩ | ⟨k', rfl, h⟩
    · -- the key is the segment of this node
      cases hb : key.reverse with
      | nil =>
        have : key = [] := by simpa using hb
        subst this
        rfl
      | cons b c =>
        have hk : key = c.reverse ++ [b] := by
          have := congrArg List.reverse hb
          simpa using this
        subst hk
        rw [Add_loop_exact]
        have : ones = mm := by rw [hones]; exact (hmask hm).symm
        simp [node.shape, this]
    · obtain ⟨k'', rfl⟩ := hz _ _ _ h
      rw [Add_loop_past, if_neg (by omega)]
      cases z with
      | nil => simp [entries_nil] at h
      | mk bs' m' z' o' d' =>
        have := ihz (p + bs.length) (0 :: k'') mm dd hwz h (by rw [hones]; simp; omega)
        simp only [node.shape] at this ⊢
        rw [this]
    · obtain ⟨k'', rfl⟩ := ho _ _ _ h
      rw [Add_loop_past, if_pos rfl]
      cases o with
      | nil => simp [entries_nil] at h
      | mk bs' m' z' o' d' =>
        have := iho (p + bs.length) (1 :: k'') mm dd hwo h (by rw [hones]; simp; omega)
        simp only [node.shape] at this ⊢
        rw [this]

/-! ## IPv4 networks -/

theorem parse_cidr_eq (ParseCIDR : String → Except String IPNet) (netcidr : String) (N : IPNet)
    (hN : ParseCIDR (cidr_text netcidr) = .ok N) (hL : N.ones ≠ 0) :
    parse_cidr ParseCIDR netcidr = .ok (to_array (To16 N.IP) (stored_ones N), stored_ones N) := by
  unfold parse_cidr
  simp only
  unfold cidr_text at hN
  rw [hN]
  simp only [hL, if_false, stored_ones]

theorem parse_cidr_zero (ParseCIDR : String → Except String IPNet) (netcidr : String) (N : IPNet)
    (hN : ParseCIDR (cidr_text netcidr) = .ok N) (hL : N.ones = 0) :
    parse_cidr ParseCIDR netcidr = .error "incorrect parameter" := by
  unfold parse_cidr
  simp only
  unfold cidr_text at hN
  rw [hN]
  simp only [hL, if_true]

theorem parse_cidr_error (ParseCIDR : String → Except String IPNet) (netcidr : String)
    (err : String) (hN : ParseCIDR (cidr_text netcidr) = .error err) :
    parse_cidr ParseCIDR netcidr = .error err := by
  unfold parse_cidr
  simp only
  unfold cidr_text at hN
  rw [hN]

theorem mem_parsed_calls (ParseCIDR : String → Except String IPNet) (calls : List (String × D))
    (netcidr : String) (payload : D) (bits : List Nat) (ones : Nat)
    (hcall : (netcidr, payload) ∈ calls)
    (h : parse_cidr ParseCIDR netcidr = .ok (bits, ones)) :
    (bits, payload) ∈ parsed_calls ParseCIDR calls := by
  unfold parsed_calls
  rw [List.mem_filterMap]
  exact ⟨(netcidr, payload), hcall, by simp [h]⟩

theorem stored_ones_le (ParseCIDR : String → Except String IPNet) (hP : ValidCIDR ParseCIDR)
    (s : String) (N : IPNet) (hN : ParseCIDR s = .ok N) : stored_ones N ≤ 128 := by
  unfold stored_ones
  rcases hP s N hN with ⟨h4, h⟩ | ⟨h16, h⟩
  · rw [if_pos h4]; omega
  · rw [if_neg (by omega)]; exact h

theorem bit_at_v4 (j : Nat) (hj : j < 96) :
    bit_at v4InV6 j = decide (v4_bits.getD j 0 ≠ 0) := by
  revert j
  decide

theorem bit_at_take (arr : List Nat) (n j : Nat) (hj : j / 8 < n) :
    bit_at (arr.take n) j = bit_at arr j := by
  unfold bit_at
  rw [List.getD_eq_getElem?_getD, List.getD_eq_getElem?_getD, List.getElem?_take_of_lt hj]

theorem bit_at_append (a b : List Nat) (j : Nat) (hj : j / 8 < a.length) :
    bit_at (a ++ b) j = bit_at a j := by
  unfold bit_at
  rw [List.getD_eq_getElem?_getD, List.getD_eq_getElem?_getD, List.getElem?_append_left hj]

/-- The key of an IPv4 network starts with the 96 bits of the IPv4-mapped pattern. -/
theorem to_array_v4 (ip4 : List Nat) : to_array (v4InV6 ++ ip4) 96 = v4_bits := by
  rw [to_array_eq_bits _ _ (by omega)]
  apply List.ext_getElem (by simp [v4_bits])
  intro j h1 h2
  have hj : j < 96 := by simpa using h1
  simp only [List.getElem_map, List.getElem_range]
  rw [bit_at_append _ _ _ (by simp [v4InV6]; omega), bit_at_v4 j hj]
  have e2 : v4_bits.getD j 0 = v4_bits[j] := by
    rw [List.getD_eq_getElem?_getD, List.getElem?_eq_getElem h2]; rfl
  rw [e2]
  have h01 : v4_bits[j] = 0 ∨ v4_bits[j] = 1 := by
    have := List.getElem_mem h2
    simp only [v4_bits, List.mem_append, List.mem_replicate] at this
    rcases this with h | h
    · exact Or.inl h.2
    · exact Or.inr h.2
  rcases h01 with h | h <;> simp [h]

/-- A registered pointer whose key starts with the IPv4-mapped pattern renders as an
IPv4-mapped network. -/
theorem to16_mapped (p : List (node D)) (hm : (p.headD .nil).mask = (chain_key p).length)
    (hl : (chain_key p).length ≤ 128) (h96 : 96 ≤ (chain_key p).length)
    (hK : (chain_key p).take 96 = v4_bits) : IsIPv4Mapped (to16 p) = true := by
  obtain ⟨r1, r2, r3⟩ := to16_spec p hm hl
  unfold IsIPv4Mapped
  rw [decide_eq_true_eq]
  apply bytes_ext
  · simp [r1, v4InV6]
  · exact fun x hx => r2 x (List.mem_of_mem_take hx)
  · intro x hx
    simp only [v4InV6, List.mem_cons, List.mem_singleton, List.not_mem_nil, or_false] at hx
    omega
  · intro j hj
    have hj : j < 96 := by simp [r1] at hj; omega
    rw [bit_at_take _ _ _ (by omega), r3, bit_at_v4 j hj, ← hK]
    have : ((chain_key p).take 96).getD j 0 = (chain_key p).getD j 0 := by
      rw [List.getD_eq_getElem?_getD, List.getD_eq_getElem?_getD, List.getElem?_take_of_lt hj]
    rw [this]
    have hjn : j < (chain_key p).length := by omega
    simp [hjn]

/-- What `Lookup` returns on a trie built by `Add` calls, in terms of the added keys. -/
theorem Lookup_build (ops : List (List Nat × D)) (hops : ∀ op ∈ ops, KeyWF op.1)
    (ParseIP : String → List Nat) (ipstr : String) (hip : (ParseIP ipstr).length = 16) :
    ((∃ msg, (build ops).Lookup ParseIP ipstr = .error msg) ↔
        ∀ op ∈ ops, ¬ op.1 <+: to_array (ParseIP ipstr) 128) ∧
    ∀ network netmask data, (build ops).Lookup ParseIP ipstr = .ok (network, netmask, data) →
      ∃ k, (∃ d, (k, d) ∈ ops) ∧ k <+: to_array (ParseIP ipstr) 128 ∧
        (∀ op ∈ ops, op.1 <+: to_array (ParseIP ipstr) 128 → op.1.length ≤ k.length) ∧
        last_added ops k = some data ∧
        chain_key (lookup_prev (build ops).root (to_array (ParseIP ipstr) 128)) = k ∧
        ((lookup_prev (build ops).root (to_array (ParseIP ipstr) 128)).headD .nil).mask
          = k.length ∧
        network = to16 (lookup_prev (build ops).root (to_array (ParseIP ipstr) 128)) ∧
        netmask = if IsIPv4Mapped network then (k.length : Int) - 96 else k.length := by
  have hreg : ∀ op ∈ ops, ∃ dd, (op.1, (op.1.length : Int), dd) ∈ (build ops).entries := by
    intro op hop
    obtain ⟨dd, hdd⟩ := (last_added_some_iff ops op.1).2 ⟨op.2, hop⟩
    exact ⟨dd, (build_entries ops hops _ _ _).2 ⟨rfl, hdd⟩⟩
  rcases Lookup_spec ParseIP ipstr (build ops) (build_WF ops hops) (by omega) with
    ⟨hno, hR⟩ | ⟨p, k, mm, dd, hp, hk, hmask, hmm, hin, hpre, hmax, hR⟩
  · refine ⟨⟨fun _ op hop hpre => ?_, fun _ => ⟨_, hR⟩⟩, fun network netmask data h => ?_⟩
    · obtain ⟨dd, hdd⟩ := hreg op hop
      exact hno _ _ _ hdd hpre
    · rw [hR] at h; exact absurd h (by simp)
  · obtain ⟨hmk, hlast⟩ := (build_entries ops hops _ _ _).1 hin
    refine ⟨⟨fun ⟨msg, h⟩ => ?_, fun hnone => ?_⟩, fun network netmask data h => ?_⟩
    · rw [hR] at h; exact absurd h (by simp)
    · obtain ⟨d, hd⟩ := (last_added_some_iff ops k).1 ⟨dd, hlast⟩
      exact absurd hpre (hnone _ hd)
    · rw [hR] at h
      simp only [Except.ok.injEq, Prod.mk.injEq] at h
      obtain ⟨rfl, rfl, rfl⟩ := h
      refine ⟨k, (last_added_some_iff ops k).1 ⟨_, hlast⟩, hpre, ?_, hlast, ?_, ?_, ?_, ?_⟩
      · intro op hop hopre
        obtain ⟨d', hd'⟩ := hreg op hop
        exact hmax _ _ _ hd' hopre
      · rw [hp, hk]
      · rw [hp, hmask, hmk]
      · rw [hp]
      · rw [hmk]

/-- When some added key is a prefix of the address, `Lookup` succeeds at the node of the
longest such key. -/
theorem Lookup_found (ops : List (List Nat × D)) (hops : ∀ op ∈ ops, KeyWF op.1)
    (k0 : List Nat) (d0 : D) (h0 : (k0, d0) ∈ ops)
    (ParseIP : String → List Nat) (ipstr : String) (hip : (ParseIP ipstr).length = 16)
    (hA : k0 <+: to_array (ParseIP ipstr) 128) :
    ∃ k data, KeyWF k ∧ k0 <+: k ∧ k <+: to_array (ParseIP ipstr) 128 ∧
      (∀ op ∈ ops, op.1 <+: to_array (ParseIP ipstr) 128 → op.1.length ≤ k.length) ∧
      last_added ops k = some data ∧
      chain_key (lookup_prev (build ops).root (to_array (ParseIP ipstr) 128)) = k ∧
      ((lookup_prev (build ops).root (to_array (ParseIP ipstr) 128)).headD .nil).mask
        = k.length ∧
      (build ops).Lookup ParseIP ipstr =
        .ok (to16 (lookup_prev (build ops).root (to_array (ParseIP ipstr) 128)),
          (if IsIPv4Mapped (to16 (lookup_prev (build ops).root (to_array (ParseIP ipstr) 128)))
            then (k.length : Int) - 96 else k.length), data) := by
  obtain ⟨hiff, hok⟩ := Lookup_build ops hops ParseIP ipstr hip
  cases hres : (build ops).Lookup ParseIP ipstr with
  | error msg => exact absurd hA (hiff.1 ⟨msg, hres⟩ _ h0)
  | ok r =>
    obtain ⟨network, netmask, data⟩ := r
    obtain ⟨k, ⟨d, hd⟩, hpre, hmax, hlast, hkey, hmask, hnet, hnm⟩ := hok network netmask data hres
    refine ⟨k, data, hops _ hd, List.prefix_of_prefix_length_le hA hpre (hmax _ h0 hA), hpre, hmax,
      hlast, hkey, hmask, ?_⟩
    rw [← hnet, ← hnm]

theorem prefix_take_eq (k a : List Nat) (h : k <+: a) : a.take k.length = k := by
  obtain ⟨t, rfl⟩ := h
  simp


/-- On a trie built by `Add` calls, the only error of `Lookup` for a 16-byte address is
"not found", returned exactly when no added key is a prefix of the address. -/
theorem Lookup_build_miss (ops : List (List Nat × D)) (hops : ∀ op ∈ ops, KeyWF op.1)
    (ParseIP : String → List Nat) (ipstr : String) (hip : (ParseIP ipstr).length = 16) :
    ((build ops).Lookup ParseIP ipstr = .error "not found" ↔
        ∀ op ∈ ops, ¬ op.1 <+: to_array (ParseIP ipstr) 128) ∧
    ∀ msg, (build ops).Lookup ParseIP ipstr = .error msg → msg = "not found" := by
  obtain ⟨hiff, _⟩ := Lookup_build ops hops ParseIP ipstr hip
  rcases Lookup_spec ParseIP ipstr (build ops) (build_WF ops hops) (by omega) with
    ⟨_, hR⟩ | ⟨p, k, mm, dd, _, _, _, _, _, _, _, hR⟩
  · refine ⟨⟨fun h => hiff.1 ⟨_, h⟩, fun _ => hR⟩, fun msg h => ?_⟩
    rw [hR] at h
    simp only [Except.error.injEq] at h
    exact h.symm
  · refine ⟨⟨fun h => hiff.1 ⟨_, h⟩, fun hno => ?_⟩, fun msg h => ?_⟩
    · obtain ⟨msg, hmsg⟩ := hiff.2 hno
      rw [hR] at hmsg
      exact absurd hmsg (by simp)
    · rw [hR] at h
      exact absurd h (by simp)

/-- The network and the prefix length that `Lookup` renders for a pointer whose key is the
stored key of a parsed network `N` and whose `mask` is the stored prefix length of `N`: the
network `N` in its 16-byte form, and the mask size of `N`, less 96 when `N` is an
IPv4-mapped IPv6 network. -/
theorem render_parsed (p : List (node D)) (N : IPNet)
    (hv : (N.IP.length = 4 ∧ N.ones ≤ 32) ∨ (N.IP.length = 16 ∧ N.ones ≤ 128))
    (hbytes : ∀ b ∈ N.IP, b < 256)
    (hhost : ∀ j, stored_ones N ≤ j → j < 128 → bit_at (To16 N.IP) j = false)
    (hkey : chain_key p = to_array (To16 N.IP) (stored_ones N))
    (hmask : (p.headD .nil).mask = (stored_ones N : Int)) :
    to16 p = To16 N.IP ∧
    (if IsIPv4Mapped (to16 p) then (p.headD .nil).mask - 96 else (p.headD .nil).mask)
      = (if N.IP.length = 4 then (N.ones : Int)
          else if IsIPv4Mapped N.IP then (N.ones : Int) - 96 else N.ones) := by
  have hs128 : stored_ones N ≤ 128 := by
    unfold stored_ones
    rcases hv with ⟨h4, h⟩ | ⟨h16, h⟩
    · rw [if_pos h4]; omega
    · rw [if_neg (by omega)]; exact h
  have h16 : (To16 N.IP).length = 16 := by
    unfold To16
    rcases hv with ⟨h4, _⟩ | ⟨h16, _⟩
    · rw [if_pos h4]; simp [v4InV6, h4]
    · rw [if_neg (by omega), if_pos h16, h16]
  have hbT : ∀ b ∈ To16 N.IP, b < 256 := by
    unfold To16
    intro b hb
    split at hb
    · rcases List.mem_append.1 hb with h1 | h1
      · simp only [v4InV6, List.mem_cons, List.mem_singleton, List.not_mem_nil, or_false] at h1
        omega
      · exact hbytes b h1
    · split at hb
      · exact hbytes b hb
      · simp at hb
  have hto16 := to16_eq p (To16 N.IP) (stored_ones N) hs128 hkey hmask h16 hbT hhost
  refine ⟨hto16, ?_⟩
  rw [hto16, hmask]
  by_cases h4 : N.IP.length = 4
  · have hT : To16 N.IP = v4InV6 ++ N.IP := by unfold To16; rw [if_pos h4]
    have hst : stored_ones N = N.ones + 96 := by unfold stored_ones; rw [if_pos h4]
    have hm : IsIPv4Mapped (v4InV6 ++ N.IP) = true := by
      unfold IsIPv4Mapped
      rw [decide_eq_true_eq]
      exact List.take_left' (by simp [v4InV6])
    rw [if_pos h4, hT, hm, hst]
    simp
  · have h16' : N.IP.length = 16 := by
      rcases hv with ⟨h, _⟩ | ⟨h, _⟩
      · exact absurd h h4
      · exact h
    have hT : To16 N.IP = N.IP := by unfold To16; rw [if_neg h4, if_pos h16']
    have hst : stored_ones N = N.ones := by unfold stored_ones; rw [if_neg h4]
    rw [if_neg h4, hT, hst]

theorem after_calls_snoc (ParseCIDR : String → Except String IPNet) (calls : List (String × D))
    (netcidr : String) (data : D) :
    after_calls ParseCIDR (calls ++ [(netcidr, data)])
      = ((after_calls ParseCIDR calls).Add ParseCIDR netcidr data).1 := by
  simp [after_calls, List.foldl_append]

theorem To16_length (ParseCIDR : String → Except String IPNet) (hP : ValidCIDR ParseCIDR)
    (s : String) (N : IPNet) (hN : ParseCIDR s = .ok N) : (To16 N.IP).length = 16 := by
  unfold To16
  rcases hP s N hN with ⟨h4, _⟩ | ⟨h16, _⟩
  · rw [if_pos h4]; simp [v4InV6, h4]
  · rw [if_neg (by omega), if_pos h16, h16]

theorem To16_bytes (ip : List Nat) (h : ∀ b ∈ ip, b < 256) : ∀ b ∈ To16 ip, b < 256 := by
  unfold To16
  intro b hb
  split at hb
  · rcases List.mem_append.1 hb with h1 | h1
    · simp only [v4InV6, List.mem_cons, List.mem_singleton, List.not_mem_nil, or_false] at h1
      omega
    · exact h b h1
  · split at hb
    · exact h b hb
    · simp at hb

/-- After `Add` of a network, `Lookup` of an address that starts with its stored key and with
no longer registered key returns that network, its payload, and its stored prefix length,
less 96 when the network is IPv4-mapped. -/
theorem Lookup_after_Add (ParseCIDR : String → Except String IPNet) (hP : ValidCIDR ParseCIDR)
    (calls : List (String × D)) (netcidr : String) (payload : D) (N : IPNet)
    (hN : ParseCIDR (cidr_text netcidr) = .ok N) (hL : N.ones ≠ 0)
    (hbytes : ∀ b ∈ N.IP, b < 256)
    (hhost : ∀ j, stored_ones N ≤ j → j < 128 → bit_at (To16 N.IP) j = false)
    (ParseIP : String → List Nat) (ipstr : String) (hip : ParseIP ipstr = To16 N.IP)
    (hnomore : ∀ op ∈ parsed_calls ParseCIDR calls,
      op.1 <+: to_array (To16 N.IP) 128 → op.1.length ≤ stored_ones N) :
    ((after_calls ParseCIDR calls).Add ParseCIDR netcidr payload).1.Lookup ParseIP ipstr
      = .ok (To16 N.IP,
          (if IsIPv4Mapped (To16 N.IP) then (stored_ones N : Int) - 96 else stored_ones N),
          payload) := by
  have hpc := parse_cidr_eq ParseCIDR netcidr N hN hL
  have hs128 := stored_ones_le ParseCIDR hP _ N hN
  have h16 := To16_length ParseCIDR hP _ N hN
  rw [← after_calls_snoc]
  obtain ⟨hbuild, hops⟩ := after_calls_eq_build ParseCIDR hP (calls ++ [(netcidr, payload)])
  have hpcs : parsed_calls ParseCIDR (calls ++ [(netcidr, payload)])
      = parsed_calls ParseCIDR calls
        ++ [(to_array (To16 N.IP) (stored_ones N), payload)] := by
    simp [parsed_calls, List.filterMap_append, hpc]
  rw [hpcs] at hbuild hops
  have hA : to_array (To16 N.IP) (stored_ones N) <+: to_array (ParseIP ipstr) 128 := by
    rw [hip, ← to_array_take (To16 N.IP) 128 (stored_ones N) (by omega) hs128]
    exact List.take_prefix _ _
  obtain ⟨k, data, hkwf, hk0, hpre, hmax, hlast, hkey, hmask, hres⟩ :=
    Lookup_found _ hops _ payload (by simp) ParseIP ipstr (by rw [hip]; exact h16) hA
  rw [← hbuild] at hkey hmask hres
  obtain ⟨d', hd'⟩ := (last_added_some_iff _ k).1 ⟨data, hlast⟩
  have hk : k = to_array (To16 N.IP) (stored_ones N) := by
    rcases List.mem_append.1 hd' with h | h
    · have := hnomore _ h (by rw [← hip]; exact hpre)
      exact (List.IsPrefix.eq_of_length_le hk0 (by rw [to_array_length]; exact this)).symm
    · simp only [List.mem_singleton, Prod.mk.injEq] at h
      exact h.1
  have hdata : data = payload := by
    rw [last_added_snoc, hk] at hlast
    simpa using hlast.symm
  have hto16 := to16_eq (lookup_prev (after_calls ParseCIDR (calls ++ [(netcidr, payload)])).root
      (to_array (ParseIP ipstr) 128)) (To16 N.IP) (stored_ones N) hs128 (by rw [hkey, hk])
      (by rw [hmask, hk, to_array_length]) h16 (To16_bytes _ hbytes) hhost
  rw [hres, hto16, hdata, hk, to_array_length]

theorem IsIPv4Mapped_v4 (ip4 : List Nat) : IsIPv4Mapped (v4InV6 ++ ip4) = true := by
  unfold IsIPv4Mapped
  rw [decide_eq_true_eq]
  exact List.take_left' (by simp [v4InV6])

theorem sample_ParseCIDR_valid : ValidCIDR sample_ParseCIDR := by
  intro s n h
  unfold sample_ParseCIDR at h
  split at h <;> simp only [Except.ok.injEq, reduceCtorEq] at h <;> subst h <;> decide

/-! ## Re-insertion and the number of networks -/

theorem nodup_singleton_of_mem {α : Type} (l : List α) (x : α) (hn : l.Nodup)
    (h : ∀ e, e ∈ l ↔ e = x) : l = [x] := by
  cases l with
  | nil => exact absurd ((h x).2 rfl) (by simp)
  | cons a l =>
    have ha : a = x := (h a).1 (by simp)
    subst ha
    cases l with
    | nil => rfl
    | cons b l =>
      have hb : b = a := (h b).1 (by simp)
      subst hb
      simp at hn

theorem db_keys_nodup (db : NetDB D) (hdb : db.root.WF 0) :
    (db.entries.map Prod.fst).Nodup :=
  entries_keys_nodup db.root 0 hdb

theorem Networks_eq (db : NetDB D) : db.Networks = db.entries.length :=
  count_true_eq db.root

/-- Adding a key again leaves the nodes, segments, prefix lengths and links as they are. -/
theorem add_bits_shape (db : NetDB D) (hdb : db.root.WF 0) (k : List Nat) (mm : Int) (dd : D)
    (hmem : (k, mm, dd) ∈ db.entries) (d : D) :
    (db.add_bits k k.length d).root.shape = db.root.shape := by
  obtain ⟨root⟩ := db
  cases root with
  | nil => simp [NetDB.entries, entries_nil] at hmem
  | mk bs m z o d0 =>
    rw [add_bits_mk]
    exact Add_loop_shape _ d _ 0 k mm dd hdb hmem (by simp)

/-- The number of registered nodes after one more `Add`. -/
theorem add_bits_Networks (db : NetDB D) (hdb : db.root.WF 0) (k : List Nat) (hk : KeyWF k)
    (d : D) :
    (db.add_bits k k.length d).Networks
      = db.Networks + if k ∈ db.entries.map Prod.fst then 0 else 1 := by
  have hn : (db.entries.map Prod.fst).Nodup := entries_keys_nodup db.root 0 hdb
  have hn' : ((db.add_bits k k.length d).entries.map Prod.fst).Nodup :=
    entries_keys_nodup (db.add_bits k k.length d).root 0 (add_bits_WF db hdb k hk d)
  have hmem : ∀ k', k' ∈ (db.add_bits k k.length d).entries.map Prod.fst ↔
      k' = k ∨ k' ∈ db.entries.map Prod.fst := by
    intro k'
    simp only [List.mem_map, Prod.exists, exists_and_right, exists_eq_right]
    constructor
    · rintro ⟨mm, dd, h⟩
      rcases (add_bits_entries db hdb k hk d k' mm dd).1 h with ⟨rfl, _, _⟩ | ⟨h1, _⟩
      · exact Or.inl rfl
      · exact Or.inr ⟨mm, dd, h1⟩
    · rintro (rfl | ⟨mm, dd, h⟩)
      · exact ⟨_, _, (add_bits_entries db hdb k' hk d k' _ _).2 (Or.inl ⟨rfl, rfl, rfl⟩)⟩
      · by_cases hkk : k' = k
        · subst hkk
          exact ⟨_, _, (add_bits_entries db hdb k' hk d k' _ _).2 (Or.inl ⟨rfl, rfl, rfl⟩)⟩
        · exact ⟨mm, dd, (add_bits_entries db hdb k hk d k' mm dd).2 (Or.inr ⟨h, hkk⟩)⟩
  rw [Networks_eq, Networks_eq, ← List.length_map (db.add_bits k k.length d).entries Prod.fst,
    ← List.length_map db.entries Prod.fst]
  by_cases hin : k ∈ db.entries.map Prod.fst
  · rw [if_pos hin]
    have hperm : ((db.add_bits k k.length d).entries.map Prod.fst).Perm
        (db.entries.map Prod.fst) := by
      rw [List.perm_ext_iff_of_nodup hn' hn]
      intro k'
      rw [hmem]
      constructor
      · rintro (rfl | h)
        · exact hin
        · exact h
      · exact fun h => Or.inr h
    rw [hperm.length_eq]; rfl
  · rw [if_neg hin]
    have hperm : ((db.add_bits k k.length d).entries.map Prod.fst).Perm
        (k :: db.entries.map Prod.fst) := by
      rw [List.perm_ext_iff_of_nodup hn' (List.nodup_cons.2 ⟨hin, hn⟩)]
      intro k'
      rw [hmem, List.mem_cons]
    rw [hperm.length_eq]; rfl

/-- The registered keys of a built trie are the added keys. -/
theorem build_keys (ops : List (List Nat × D)) (hops : ∀ op ∈ ops, KeyWF op.1) (k : List Nat) :
    k ∈ (build ops).entries.map Prod.fst ↔ k ∈ ops.map Prod.fst := by
  simp only [List.mem_map, Prod.exists, exists_and_right, exists_eq_right]
  constructor
  · rintro ⟨mm, dd, h⟩
    exact (last_added_some_iff ops k).1 ⟨dd, ((build_entries ops hops k mm dd).1 h).2⟩
  · intro h
    obtain ⟨dd, hdd⟩ := (last_added_some_iff ops k).2 h
    exact ⟨_, dd, (build_entries ops hops k _ dd).2 ⟨rfl, hdd⟩⟩

/-! ## Rendering of the matched network -/

theorem to16_node_length (bits : List Nat) : ∀ st : List Nat × Int,
    (to16_node bits st).1.length = st.1.length := by
  induction bits using List.reverseRecOn with
  | nil => intro st; rfl
  | append_singleton bits bit ih =>
    intro st
    rw [to16_node_concat, ih]
    split <;> simp

theorem to16_length (p : List (node D)) : (to16 p).length = 16 := by
  unfold to16
  rw [to16_fold, to16_node_length]
  simp

theorem IsIPv4Mapped_iff (ip : List Nat) (h : 12 ≤ ip.length) :
    IsIPv4Mapped ip = true ↔ mapped_pattern ip := by
  unfold IsIPv4Mapped mapped_pattern
  rw [decide_eq_true_eq]
  have hget : ∀ i, i < 12 → (ip.take 12).getD i 0 = ip.getD i 0 := by
    intro i hi
    rw [List.getD_eq_getElem?_getD, List.getD_eq_getElem?_getD, List.getElem?_take_of_lt hi]
  constructor
  · intro heq
    refine ⟨fun i hi => ?_, ?_, ?_⟩
    · rw [← hget i (by omega), heq]
      interval_cases i <;> rfl
    · rw [← hget 10 (by omega), heq]; rfl
    · rw [← hget 11 (by omega), heq]; rfl
  · rintro ⟨h1, h2, h3⟩
    apply List.ext_getElem (by simp [v4InV6]; omega)
    intro i hi1 hi2
    have hi : i < 12 := by simpa [v4InV6] using hi2
    have e1 : (ip.take 12)[i] = ip.getD i 0 := by
      rw [← hget i hi, List.getD_eq_getElem?_getD, List.getElem?_eq_getElem hi1]; rfl
    rw [e1]
    rcases Nat.lt_or_ge i 10 with h10 | h10
    · rw [h1 i h10]
      interval_cases i <;> rfl
    · have : i = 10 ∨ i = 11 := by omega
      rcases this with rfl | rfl
      · rw [h2]; rfl
      · rw [h3]; rfl

/-- A successful `Lookup` returns the network, the adjusted prefix length and the payload of
the pointer that its two loops end at. -/
theorem Lookup_ok (ParseIP : String → List Nat) (db : NetDB D) (ipstr : String)
    (network : List Nat) (netmask : Int) (data : D)
    (h : db.Lookup ParseIP ipstr = .ok (network, netmask, data)) :
    ∃ bs z o anc,
      lookup_prev db.root (to_array (ParseIP ipstr) 128)
        = .mk bs ((lookup_prev db.root (to_array (ParseIP ipstr) 128)).headD .nil).mask z o data
            :: anc ∧
      network = to16 (lookup_prev db.root (to_array (ParseIP ipstr) 128)) ∧
      netmask = (if IsIPv4Mapped network
        then ((lookup_prev db.root (to_array (ParseIP ipstr) 128)).headD .nil).mask - 96
        else ((lookup_prev db.root (to_array (ParseIP ipstr) 128)).headD .nil).mask) := by
  obtain ⟨root⟩ := db
  cases root with
  | nil => rw [Lookup_nil] at h; exact absurd h (by simp)
  | mk bs m z o d =>
    by_cases hlen : 16 ≤ (ParseIP ipstr).length
    · rw [Lookup_mk _ _ _ _ _ _ _ hlen] at h
      cases hp : lookup_prev (.mk bs m z o d) (to_array (ParseIP ipstr) 128) with
      | nil => rw [hp] at h; exact absurd h (by simp)
      | cons n anc =>
        cases n with
        | nil => rw [hp] at h; exact absurd h (by simp)
        | mk bs' m' z' o' d' =>
          rw [hp] at h
          simp only [Except.ok.injEq, Prod.mk.injEq] at h
          obtain ⟨h1, h2, h3⟩ := h
          refine ⟨bs', z', o', anc, ?_, h1.symm, ?_⟩
          · rw [← h3]; rfl
          · rw [← h2, ← h1]; rfl
    · have : (NetDB.mk (.mk bs m z o d)).Lookup ParseIP ipstr
          = .error "panic: index out of range" := by
        simp only [NetDB.Lookup]
        rw [if_pos (by omega)]
      rw [this] at h
      exact absurd h (by simp)

theorem adjmask_eq (q : List (node D)) :
    (mapped_pattern (to16 q) → adjmask q = (q.headD .nil).mask - 96) ∧
    (¬ mapped_pattern (to16 q) → adjmask q = (q.headD .nil).mask) := by
  unfold adjmask
  rw [← IsIPv4Mapped_iff _ (by rw [to16_length]; omega)]
  constructor
  · intro h; rw [if_pos h]
  · intro h; rw [if_neg h]

/-! ## Pointers to the nodes of a trie -/

theorem mem_pointers_mk (bs : List Nat) (m : Int) (z o : node D) (d : D)
    (anc p : List (node D)) :
    p ∈ (node.mk bs m z o d).pointers anc ↔
      p = .mk bs m z o d :: anc ∨ p ∈ z.pointers (.mk bs m z o d :: anc) ∨
        p ∈ o.pointers (.mk bs m z o d :: anc) := by
  simp [node.pointers]

theorem slot_ok_bits (b : Nat) (t : node D) (h : slot_ok b t) (ht : t ≠ .nil) : t.bits ≠ [] := by
  cases t with
  | nil => exact absurd rfl ht
  | mk bs m z o d =>
    intro hb
    simp only [node.bits] at hb
    simp [slot_ok, hb] at h

/-- Every pointer into a well-formed sub-trie below a well-formed pointer is well formed. -/
theorem pointers_ok (t : node D) : ∀ (anc : List (node D)), chain_ok anc →
    t.WF (chain_key anc).length → (anc ≠ [] → t ≠ .nil → t.bits ≠ []) →
    ∀ p ∈ t.pointers anc, chain_ok p := by
  induction t with
  | nil => intro anc _ _ _ p hp; simp [node.pointers] at hp
  | mk bs m z o d ihz iho =>
    intro anc hanc hwf hne p hp
    obtain ⟨hbits, hlen, hmask, hsz, hso, hwz, hwo⟩ := hwf
    have hkey : (chain_key (node.mk bs m z o d :: anc)).length
        = (chain_key anc).length + bs.length := by
      simp [chain_key, node.bits]
    have hself : chain_ok (node.mk bs m z o d :: anc) := by
      refine ⟨by simp, ?_, ?_, hbits, fun ha => hne ha (by simp), hsz, hso, hanc⟩
      · intro hm
        rw [hkey]
        exact hmask hm
      · rw [hkey]; exact hlen
    rw [mem_pointers_mk] at hp
    rcases hp with rfl | hp | hp
    · exact hself
    · exact ihz _ hself (by rw [hkey]; exact hwz) (fun _ hz => slot_ok_bits 0 z hsz hz) p hp
    · exact iho _ hself (by rw [hkey]; exact hwo) (fun _ ho => slot_ok_bits 1 o hso ho) p hp

theorem db_pointers_ok (db : NetDB D) (hdb : db.root.WF 0) : ∀ p ∈ db.pointers, chain_ok p :=
  pointers_ok db.root [] trivial hdb (fun h => absurd rfl h)

/-- The node of a pointer is a node, and the pointer extends the `parent` pointer of the root
of the sub-trie. -/
theorem pointers_head (t : node D) : ∀ (anc p : List (node D)), p ∈ t.pointers anc →
    ∃ bs m z o d c, p = .mk bs m z o d :: c ∧ ∃ c', .mk bs m z o d :: c = c' ++ anc := by
  induction t with
  | nil => intro anc p hp; simp [node.pointers] at hp
  | mk bs m z o d ihz iho =>
    intro anc p hp
    rw [mem_pointers_mk] at hp
    rcases hp with rfl | hp | hp
    · exact ⟨bs, m, z, o, d, anc, rfl, [.mk bs m z o d], rfl⟩
    · obtain ⟨bs', m', z', o', d', c, rfl, c', hc'⟩ := ihz _ p hp
      exact ⟨bs', m', z', o', d', c, rfl, c' ++ [.mk bs m z o d], by rw [hc']; simp⟩
    · obtain ⟨bs', m', z', o', d', c, rfl, c', hc'⟩ := iho _ p hp
      exact ⟨bs', m', z', o', d', c, rfl, c' ++ [.mk bs m z o d], by rw [hc']; simp⟩

/-- The key, prefix length and payload of a registered pointer are a registered triple. -/
theorem pointers_entry (t : node D) : ∀ (anc p : List (node D)), p ∈ t.pointers anc →
    ∀ bs m z o d c, p = .mk bs m z o d :: c → m ≠ -1 →
    ∃ k, chain_key p = chain_key anc ++ k ∧ (k, m, d) ∈ t.entries := by
  induction t with
  | nil => intro anc p hp; simp [node.pointers] at hp
  | mk bs m z o d ihz iho =>
    intro anc p hp bs' m' z' o' d' c hpc hm
    rw [mem_pointers_mk] at hp
    rcases hp with rfl | hp | hp
    · simp only [List.cons.injEq, node.mk.injEq] at hpc
      obtain ⟨⟨rfl, rfl, rfl, rfl, rfl⟩, rfl⟩ := hpc
      exact ⟨bs, by simp [chain_key, node.bits],
        (mem_entries_mk _ _ _ _ _ _ _ _).2 (Or.inl ⟨hm, rfl, rfl, rfl⟩)⟩
    · obtain ⟨k, hk, hin⟩ := ihz _ p hp bs' m' z' o' d' c hpc hm
      exact ⟨bs ++ k, by rw [hk]; simp [chain_key, node.bits],
        (mem_entries_mk _ _ _ _ _ _ _ _).2 (Or.inr (Or.inl ⟨k, rfl, hin⟩))⟩
    · obtain ⟨k, hk, hin⟩ := iho _ p hp bs' m' z' o' d' c hpc hm
      exact ⟨bs ++ k, by rw [hk]; simp [chain_key, node.bits],
        (mem_entries_mk _ _ _ _ _ _ _ _).2 (Or.inr (Or.inr ⟨k, rfl, hin⟩))⟩

theorem chain_ok_bits (p : List (node D)) (h : chain_ok p) :
    ∀ b ∈ chain_key p, b = 0 ∨ b = 1 := by
  induction p with
  | nil => intro b hb; simp [chain_key] at hb
  | cons n anc ih =>
    obtain ⟨_, _, _, hb, _, _, _, hanc⟩ := h
    intro b hmem
    simp only [chain_key, List.mem_append] at hmem
    rcases hmem with h1 | h1
    · exact ih hanc b h1
    · exact hb b h1

theorem chain_ok_suffix (c q : List (node D)) (h : chain_ok (c ++ q)) : chain_ok q := by
  induction c with
  | nil => exact h
  | cons n c ih => exact ih h.2.2.2.2.2.2.2

/-- A proper ancestor has a shorter key. -/
theorem chain_key_lt (c q : List (node D)) (h : chain_ok (c ++ q)) (hc : c ≠ []) (hq : q ≠ []) :
    (chain_key q).length < (chain_key (c ++ q)).length := by
  induction c with
  | nil => exact absurd rfl hc
  | cons n c ih =>
    obtain ⟨_, _, _, _, hne, _, _, hrest⟩ := h
    have hn : n.bits ≠ [] := hne (by simp [hq])
    have hpos : 0 < n.bits.length := List.length_pos.2 hn
    have hle : (chain_key q).length ≤ (chain_key (c ++ q)).length := by
      by_cases hc' : c = []
      · subst hc'; exact Nat.le_refl _
      · exact Nat.le_of_lt (ih hrest hc')
    show (chain_key q).length < (chain_key (c ++ q) ++ n.bits).length
    rw [List.length_append]
    omega

/-- The number of nodes on a pointer is at most one more than the number of bits of its key. -/
theorem chain_length_le (p : List (node D)) (h : chain_ok p) :
    p.length ≤ (chain_key p).length + 1 := by
  induction p with
  | nil => simp
  | cons n anc ih =>
    obtain ⟨_, _, _, _, hne, _, _, hrest⟩ := h
    have := ih hrest
    simp only [chain_key, List.length_append, List.length_cons]
    by_cases ha : anc = []
    · subst ha; simp
    · have hpos : 0 < n.bits.length := List.length_pos.2 (hne ha)
      omega

/-! ## The bit indices of `to16` -/

theorem to16_node_idx_concat (bits : List Nat) (bit : Nat) (st : List Int × Int) :
    to16_node_idx (bits ++ [bit]) st = to16_node_idx bits (st.1 ++ [st.2], st.2 - 1) := by
  simp [to16_node_idx]

theorem to16_node_idx_append (a b : List Nat) (st : List Int × Int) :
    to16_node_idx (a ++ b) st = to16_node_idx a (to16_node_idx b st) := by
  simp [to16_node_idx, List.foldl_append]

theorem to16_idx_fold (p : List (node D)) : ∀ st : List Int × Int,
    p.foldl (fun st n => to16_node_idx n.bits st) st = to16_node_idx (chain_key p) st := by
  induction p with
  | nil => intro st; rfl
  | cons n anc ih =>
    intro st
    rw [List.foldl_cons, ih, chain_key, to16_node_idx_append]

/-- The inner loop of `to16` visits the indices `curbit`, `curbit - 1`, ... once for each bit. -/
theorem to16_node_idx_spec (K : List Nat) : ∀ (l : List Int) (c : Int),
    to16_node_idx K (l, c)
      = (l ++ (List.range K.length).map (fun (i : Nat) => c - (i : Int)), c - (K.length : Int)) := by
  induction K using List.reverseRecOn with
  | nil => intro l c; simp [to16_node_idx]
  | append_singleton K bit ih =>
    intro l c
    rw [to16_node_idx_concat, ih]
    simp only [List.length_append, List.length_singleton, List.range_succ_eq_map,
      List.map_cons, List.map_map, List.append_assoc, List.singleton_append, Prod.mk.injEq]
    refine ⟨?_, by push_cast; omega⟩
    congr 2
    · simp
    · apply List.map_congr_left
      intro i _
      simp only [Function.comp_apply]
      push_cast
      omega

/-- The indices at which `to16` works on a pointer whose `mask` is the length `n` of its key
are `n - 1`, ..., `0`, and the 16 bytes are never indexed outside. -/
theorem to16_idx_range (p : List (node D)) (hm : (p.headD .nil).mask = (chain_key p).length)
    (hl : (chain_key p).length ≤ 128) :
    to16_idx p = (List.range (chain_key p).length).map
      (fun (i : Nat) => ((chain_key p).length : Int) - 1 - (i : Int)) ∧
    ∀ c ∈ to16_idx p, 0 ≤ c ∧ c ≤ 127 := by
  have h : to16_idx p = (List.range (chain_key p).length).map
      (fun (i : Nat) => ((chain_key p).length : Int) - 1 - (i : Int)) := by
    unfold to16_idx
    rw [to16_idx_fold, to16_node_idx_spec, hm]
    simp
  refine ⟨h, fun c hc => ?_⟩
  rw [h, List.mem_map] at hc
  obtain ⟨i, hi, rfl⟩ := hc
  have := List.mem_range.1 hi
  omega

/-- The 128 bits of the network that `to16` returns are the key followed by zeros. -/
theorem to_array_to16_full (p : List (node D))
    (hm : (p.headD .nil).mask = (chain_key p).length)
    (hl : (chain_key p).length ≤ 128) (hb : ∀ b ∈ chain_key p, b = 0 ∨ b = 1) :
    to_array (to16 p) 128
      = chain_key p ++ List.replicate (128 - (chain_key p).length) 0 := by
  obtain ⟨_, _, r3⟩ := to16_spec p hm hl
  apply List.ext_getElem (by rw [to_array_length]; simp; omega)
  intro j h1 h2
  have hj : j < 128 := by rwa [to_array_length] at h1
  have e1 := to_array_getD (to16 p) 128 j (by omega) hj
  rw [List.getD_eq_getElem?_getD, List.getElem?_eq_getElem h1] at e1
  simp only [Option.getD_some] at e1
  rw [e1, r3]
  by_cases hjn : j < (chain_key p).length
  · rw [List.getElem_append_left hjn]
    have e2 : (chain_key p).getD j 0 = (chain_key p)[j] := by
      rw [List.getD_eq_getElem?_getD, List.getElem?_eq_getElem hjn]; rfl
    rw [e2]
    rcases hb _ (List.getElem_mem hjn) with h | h <;> simp [hjn, h]
  · rw [List.getElem_append_right (by omega)]
    simp [hjn]

/-- The index trace follows the same `curbit` as the inner loop of `to16`: after the bits
of a node both have counted down by the number of bits. -/
theorem to16_node_curbit (K : List Nat) : ∀ (arr : List Nat) (l : List Int) (c : Int),
    (to16_node K (arr, c)).2 = c - (K.length : Int) ∧
    (to16_node_idx K (l, c)).2 = (to16_node K (arr, c)).2 := by
  induction K using List.reverseRecOn with
  | nil => intro arr l c; simp [to16_node_nil, to16_node_idx]
  | append_singleton K bit ih =>
    intro arr l c
    have h1 : (to16_node (K ++ [bit]) (arr, c)).2 = c - ((K ++ [bit]).length : Int) := by
      rw [to16_node_concat]
      simp only
      rw [(ih _ l (c - 1)).1]
      simp only [List.length_append, List.length_singleton]
      push_cast
      omega
    refine ⟨h1, ?_⟩
    rw [h1, to16_node_idx_spec]

/-- The pointers of a built trie are well formed, and a registered one has an added key. -/
theorem build_pointer (ops : List (List Nat × D)) (hops : ∀ op ∈ ops, KeyWF op.1)
    (p : List (node D)) (hp : p ∈ (build ops).pointers) :
    chain_ok p ∧ p ≠ [] ∧
    ((p.headD .nil).mask ≠ -1 →
      (p.headD .nil).mask = ((chain_key p).length : Int) ∧
      (∃ d, (chain_key p, d) ∈ ops) ∧ KeyWF (chain_key p)) := by
  have hok := db_pointers_ok (build ops) (build_WF ops hops) p hp
  obtain ⟨bs, m, z, o, d, c, rfl, _⟩ := pointers_head _ _ p hp
  refine ⟨hok, by simp, fun hreg => ?_⟩
  have hm : m ≠ -1 := hreg
  obtain ⟨k, hk, hin⟩ := pointers_entry _ _ _ hp bs m z o d c rfl hm
  have hk' : chain_key (node.mk bs m z o d :: c) = k := by simpa [chain_key] using hk
  obtain ⟨hmk, hlast⟩ := (build_entries ops hops k m d).1 hin
  obtain ⟨d', hd'⟩ := (last_added_some_iff ops k).1 ⟨d, hlast⟩
  rw [hk']
  exact ⟨hmk, ⟨d', hd'⟩, hops _ hd'⟩

/-! ## Branch-only nodes have two children -/

theorem full_leaf (bs : List Nat) (ones : Int) (data : D) (h : ones ≠ -1) :
    (node.mk bs ones .nil .nil data).full :=
  ⟨fun hm => absurd hm h, trivial, trivial⟩

/-- The loop of `Add` returns a node and keeps both children at every branch-only node. -/
theorem Add_loop_full (ones : Int) (data : D) (hones : ones ≠ -1) :
    ∀ (t : node D) (key : List Nat), t.full → t ≠ .nil → key ≠ [] →
      (Add_loop ones data t key).full ∧ Add_loop ones data t key ≠ .nil := by
  intro t
  induction t with
  | nil => intro key _ h; exact absurd rfl h
  | mk bs m z o d ihz iho =>
    intro key hfull _ hkey
    obtain ⟨hm, hfz, hfo⟩ := hfull
    rcases key_cases bs key hkey with ⟨b, rest, rfl⟩ | ⟨c, x, s, y, r, hxy, rfl, rfl⟩ |
      ⟨c, b, rfl, rfl⟩ | ⟨c, b, x, s, rfl, rfl⟩
    · rw [Add_loop_past]
      by_cases hb : b = 1
      · rw [if_pos hb]
        cases o with
        | nil =>
          exact ⟨⟨fun h => ⟨(hm h).1, by simp⟩, hfz, full_leaf _ _ _ hones⟩, by simp⟩
        | mk bs' m' z' o' d' =>
          obtain ⟨h1, h2⟩ := iho (b :: rest) hfo (by simp) (by simp)
          exact ⟨⟨fun h => ⟨(hm h).1, h2⟩, hfz, h1⟩, by simp⟩
      · rw [if_neg hb]
        cases z with
        | nil =>
          exact ⟨⟨fun h => ⟨by simp, (hm h).2⟩, full_leaf _ _ _ hones, hfo⟩, by simp⟩
        | mk bs' m' z' o' d' =>
          obtain ⟨h1, h2⟩ := ihz (b :: rest) hfz (by simp) (by simp)
          exact ⟨⟨fun h => ⟨h2, (hm h).2⟩, h1, hfo⟩, by simp⟩
    · rw [Add_loop_mismatch _ _ _ _ _ _ _ _ _ _ _ hxy]
      have hold : (node.mk (x :: s) m z o d).full := ⟨hm, hfz, hfo⟩
      by_cases hy : y = 1
      · rw [if_pos hy]
        exact ⟨⟨fun _ => ⟨by simp, by simp⟩, hold, full_leaf _ _ _ hones⟩, by simp⟩
      · rw [if_neg hy]
        exact ⟨⟨fun _ => ⟨by simp, by simp⟩, full_leaf _ _ _ hones, hold⟩, by simp⟩
    · rw [Add_loop_exact]
      exact ⟨⟨fun h => absurd h hones, hfz, hfo⟩, by simp⟩
    · rw [Add_loop_inside]
      have hold : (node.mk (x :: s) m z o d).full := ⟨hm, hfz, hfo⟩
      by_cases hx : x = 1
      · rw [if_pos hx]
        exact ⟨⟨fun h => absurd h hones, trivial, hold⟩, by simp⟩
      · rw [if_neg hx]
        exact ⟨⟨fun h => absurd h hones, hold, trivial⟩, by simp⟩

theorem add_bits_full (db : NetDB D) (hdb : db.root.full) (k : List Nat) (hk : KeyWF k) (d : D) :
    (db.add_bits k k.length d).root.full ∧ (db.add_bits k k.length d).root ≠ .nil := by
  obtain ⟨root⟩ := db
  have hne : k ≠ [] := by intro h; have := hk.1; simp [h] at this
  cases root with
  | nil =>
    rw [add_bits_nil]
    exact ⟨full_leaf _ _ _ (KeyWF_ones k), by simp⟩
  | mk bs m z o d0 =>
    rw [add_bits_mk]
    exact Add_loop_full _ d (KeyWF_ones k) _ k hdb (by simp) hne

theorem build_full (ops : List (List Nat × D)) (hops : ∀ op ∈ ops, KeyWF op.1) :
    (build ops).root.full ∧ (ops ≠ [] → (build ops).root ≠ .nil) := by
  induction ops using List.reverseRecOn with
  | nil => exact ⟨trivial, fun h => absurd rfl h⟩
  | append_singleton ops op ih =>
    rw [build_snoc]
    have h := add_bits_full _ (ih fun o ho => hops o (by simp [ho])).1 op.1 (hops op (by simp)) op.2
    exact ⟨h.1, fun _ => h.2⟩

/-- In a sub-trie whose branch-only nodes have both children, every pointer to a branch-only
node finds two children. -/
theorem full_pointer (t : node D) : ∀ (anc p : List (node D)), t.full → p ∈ t.pointers anc →
    ∀ bs m z o d c, p = .mk bs m z o d :: c → m = -1 → z ≠ .nil ∧ o ≠ .nil := by
  induction t with
  | nil => intro anc p _ hp; simp [node.pointers] at hp
  | mk bs m z o d ihz iho =>
    intro anc p hfull hp bs' m' z' o' d' c hpc hm
    obtain ⟨hmm, hfz, hfo⟩ := hfull
    rw [mem_pointers_mk] at hp
    rcases hp with rfl | hp | hp
    · simp only [List.cons.injEq, node.mk.injEq] at hpc
      obtain ⟨⟨rfl, rfl, rfl, rfl, rfl⟩, rfl⟩ := hpc
      exact hmm hm
    · exact ihz _ p hfz hp bs' m' z' o' d' c hpc hm
    · exact iho _ p hfo hp bs' m' z' o' d' c hpc hm

/-- With two children at every branch-only node, fewer than half of the nodes are
branch-only. -/
theorem full_count (t : node D) (hfull : t.full) (ht : t ≠ .nil) :
    t.count false + 1 ≤ 2 * t.count true := by
  induction t with
  | nil => exact absurd rfl ht
  | mk bs m z o d ihz iho =>
    obtain ⟨hm, hfz, hfo⟩ := hfull
    have hz : z = .nil ∨ z.count false + 1 ≤ 2 * z.count true := by
      by_cases h : z = .nil
      · exact Or.inl h
      · exact Or.inr (ihz hfz h)
    have ho : o = .nil ∨ o.count false + 1 ≤ 2 * o.count true := by
      by_cases h : o = .nil
      · exact Or.inl h
      · exact Or.inr (iho hfo h)
    simp only [node.count]
    by_cases hmm : m = -1
    · obtain ⟨hzn, hon⟩ := hm hmm
      rcases hz with h | hz
      · exact absurd h hzn
      rcases ho with h | ho
      · exact absurd h hon
      simp [hmm]
      omega
    · have hz' : z.count false ≤ 2 * z.count true := by
        rcases hz with h | h
        · rw [h]; simp [node.count]
        · omega
      have ho' : o.count false ≤ 2 * o.count true := by
        rcases ho with h | h
        · rw [h]; simp [node.count]
        · omega
      simp [hmm]
      omega

/-! ## The reported prefix length is not negative -/

/-- A registered pointer that renders as an IPv4-mapped network has a key of 96 bits or
more: bit 95 of the network is set, and `to16` sets no bit after the key. -/
theorem mapped_ge_96 (p : List (node D)) (hm : (p.headD .nil).mask = (chain_key p).length)
    (hl : (chain_key p).length ≤ 128) (h : IsIPv4Mapped (to16 p) = true) :
    96 ≤ (chain_key p).length := by
  obtain ⟨_, _, r3⟩ := to16_spec p hm hl
  have h1 : bit_at (to16 p) 95 = true := by
    rw [← bit_at_take (to16 p) 12 95 (by omega)]
    unfold IsIPv4Mapped at h
    rw [decide_eq_true_eq] at h
    rw [h]
    decide
  rw [r3] at h1
  by_contra hlt
  have : ¬ 95 < (chain_key p).length := by omega
  simp [this] at h1

/-- The value of `adjmask` on a registered pointer with a well-formed key. -/
theorem adjmask_range (p : List (node D)) (hm : (p.headD .nil).mask = (chain_key p).length)
    (hk : KeyWF (chain_key p)) :
    (mapped_pattern (to16 p) →
      96 ≤ (p.headD .nil).mask ∧ 0 ≤ adjmask p ∧ adjmask p ≤ 32) ∧
    (¬ mapped_pattern (to16 p) → 1 ≤ adjmask p ∧ adjmask p ≤ 128) ∧
    0 ≤ adjmask p := by
  have h1 := hk.1
  have h2 := hk.2.1
  obtain ⟨ha, hb⟩ := adjmask_eq p
  have hiff := IsIPv4Mapped_iff (to16 p) (by rw [to16_length]; omega)
  have hA : mapped_pattern (to16 p) →
      96 ≤ (p.headD .nil).mask ∧ 0 ≤ adjmask p ∧ adjmask p ≤ 32 := by
    intro hp
    have h96 := mapped_ge_96 p hm h2 (hiff.2 hp)
    rw [ha hp, hm]
    refine ⟨?_, ?_, ?_⟩ <;> omega
  have hB : ¬ mapped_pattern (to16 p) → 1 ≤ adjmask p ∧ adjmask p ≤ 128 := by
    intro hp
    rw [hb hp, hm]
    constructor <;> omega
  refine ⟨hA, hB, ?_⟩
  by_cases hp : mapped_pattern (to16 p)
  · exact (hA hp).2.1
  · have := (hB hp).1
    omega

/-! ## The contract of `Add` and `Lookup` -/

/-- C1 (longest-prefix match). Let the trie be built from the empty trie by `Add` calls
whose parsed keys and payloads are `ops` (`after_calls_eq_build`: the trie after any sequence
of `Add` calls is `build` of the keys of the calls that succeeded), and let the address parse
to 16 bytes with bit sequence `A = to_array ip 128`. `Lookup` returns the error "not found"
iff no added key is a prefix of `A`, and it returns no other error. When it returns a result,
the node it stops at has as key the longest added key `k` that is a prefix of `A`, its stored
prefix length is the length of `k`, the payload is the one added last for `k`, and the
reported prefix length is the stored one, less 96 when the returned network is IPv4-mapped. -/
theorem C1_lookup_longest_match (ops : List (List Nat × D)) (hops : ∀ op ∈ ops, KeyWF op.1)
    (ParseIP : String → List Nat) (ipstr : String) (hip : (ParseIP ipstr).length = 16) :
    ((build ops).Lookup ParseIP ipstr = .error "not found" ↔
        ∀ op ∈ ops, ¬ op.1 <+: to_array (ParseIP ipstr) 128) ∧
    (∀ msg, (build ops).Lookup ParseIP ipstr = .error msg → msg = "not found") ∧
    ((∃ msg, (build ops).Lookup ParseIP ipstr = .error msg) ↔
        ∀ op ∈ ops, ¬ op.1 <+: to_array (ParseIP ipstr) 128) ∧
    ∀ network netmask data, (build ops).Lookup ParseIP ipstr = .ok (network, netmask, data) →
      ∃ k, (∃ d, (k, d) ∈ ops) ∧ k <+: to_array (ParseIP ipstr) 128 ∧
        (∀ op ∈ ops, op.1 <+: to_array (ParseIP ipstr) 128 → op.1.length ≤ k.length) ∧
        last_added ops k = some data ∧
        chain_key (lookup_prev (build ops).root (to_array (ParseIP ipstr) 128)) = k ∧
        ((lookup_prev (build ops).root (to_array (ParseIP ipstr) 128)).headD .nil).mask
          = k.length ∧
        network = to16 (lookup_prev (build ops).root (to_array (ParseIP ipstr) 128)) ∧
        netmask = if IsIPv4Mapped network then (k.length : Int) - 96 else k.length :=
  ⟨(Lookup_build_miss ops hops ParseIP ipstr hip).1,
    (Lookup_build_miss ops hops ParseIP ipstr hip).2,
    (Lookup_build ops hops ParseIP ipstr hip).1,
    (Lookup_build ops hops ParseIP ipstr hip).2⟩

set_option maxRecDepth 8000 in
/-- C1, at an instance: the keys `1`, `11` and `01` are added. The address `::1`, which
starts with `00`, is not found; for the address `e000::`, which starts with `111`, both `1`
and `11` are prefixes and `Lookup` returns the node of the longer one, `11`. -/
theorem C1_lookup_longest_match_witness :
    (∀ op ∈ [([1], 10), ([1, 1], 20), ([0, 1], 30)], KeyWF op.1) ∧
    (sample_ParseIP "::1").length = 16 ∧ (sample_ParseIP "e000::").length = 16 ∧
    (build [([1], 10), ([1, 1], 20), ([0, 1], 30)]).Lookup sample_ParseIP "::1"
      = .error "not found" ∧
    (build [([1], 10), ([1, 1], 20), ([0, 1], 30)]).Lookup sample_ParseIP "e000::"
      = .ok ([192, 0, 0, 0, 0, 0, 0, 0, 0, 0, 0, 0, 0, 0, 0, 0], 2, 20) ∧
    [1] <+: to_array (sample_ParseIP "e000::") 128 ∧
    [1, 1] <+: to_array (sample_ParseIP "e000::") 128 ∧
    ∃ k, (∃ d, (k, d) ∈ [([1], 10), ([1, 1], 20), ([0, 1], 30)]) ∧
      k <+: to_array (sample_ParseIP "e000::") 128 ∧
      (∀ op ∈ [([1], 10), ([1, 1], 20), ([0, 1], 30)],
        op.1 <+: to_array (sample_ParseIP "e000::") 128 → op.1.length ≤ k.length) ∧
      last_added [([1], 10), ([1, 1], 20), ([0, 1], 30)] k = some 20 ∧
      chain_key (lookup_prev (build [([1], 10), ([1, 1], 20), ([0, 1], 30)]).root
        (to_array (sample_ParseIP "e000::") 128)) = k ∧
      ((lookup_prev (build [([1], 10), ([1, 1], 20), ([0, 1], 30)]).root
        (to_array (sample_ParseIP "e000::") 128)).headD .nil).mask = k.length ∧
      [192, 0, 0, 0, 0, 0, 0, 0, 0, 0, 0, 0, 0, 0, 0, 0]
        = to16 (lookup_prev (build [([1], 10), ([1, 1], 20), ([0, 1], 30)]).root
          (to_array (sample_ParseIP "e000::") 128)) ∧
      (2 : Int) = if IsIPv4Mapped [192, 0, 0, 0, 0, 0, 0, 0, 0, 0, 0, 0, 0, 0, 0, 0]
        then (k.length : Int) - 96 else k.length :=
  ⟨by decide, by decide, by decide,
    (C1_lookup_longest_match [([1], 10), ([1, 1], 20), ([0, 1], 30)] (by decide)
      sample_ParseIP "::1" (by decide)).1.2 (by decide),
    by decide, by decide, by decide,
    (C1_lookup_longest_match [([1], 10), ([1, 1], 20), ([0, 1], 30)] (by decide)
      sample_ParseIP "e000::" (by decide)).2.2.2 _ _ _ (by decide)⟩

/-- C2 (`Add` registers exactly the given key). Let `T` be built by `Add` calls with
well-formed keys, `k` a well-formed key and `d` a payload. A call of `Add` whose argument
parses to `k` returns no error and leaves the trie `T.add_bits k (len k) d`, whose registered
triples are `(k, len k, d)` together with the registered triples of `T` for the keys other
than `k`. -/
theorem C2_add_registers_key (ops : List (List Nat × D)) (hops : ∀ op ∈ ops, KeyWF op.1)
    (k : List Nat) (hk : KeyWF k) (d : D) :
    (∀ (ParseCIDR : String → Except String IPNet) (netcidr : String),
      parse_cidr ParseCIDR netcidr = .ok (k, k.length) →
        (build ops).Add ParseCIDR netcidr d = ((build ops).add_bits k k.length d, none)) ∧
    ∀ k' mm dd, (k', mm, dd) ∈ ((build ops).add_bits k k.length d).entries ↔
      (k' = k ∧ mm = k.length ∧ dd = d) ∨ ((k', mm, dd) ∈ (build ops).entries ∧ k' ≠ k) :=
  ⟨fun ParseCIDR netcidr h => Add_ok ParseCIDR (build ops) netcidr d k k.length h,
    fun k' mm dd => add_bits_entries (build ops) (build_WF ops hops) k hk d k' mm dd⟩

/-- C2, at an instance: the key `11` is added to the trie that holds `10`. -/
theorem C2_add_registers_key_witness :
    (∀ op ∈ [([1, 0], 5)], KeyWF op.1) ∧ KeyWF [1, 1] ∧
    ((build [([1, 0], 5)]).add_bits [1, 1] 2 6).entries = [([1, 0], 2, 5), ([1, 1], 2, 6)] ∧
    (([1, 0], 2, 5) ∈ ((build [([1, 0], 5)]).add_bits [1, 1] ([1, 1] : List Nat).length 6).entries ↔
      (([1, 0] : List Nat) = [1, 1] ∧ (2 : Int) = ([1, 1] : List Nat).length ∧ 5 = 6) ∨
        (([1, 0], 2, 5) ∈ (build [([1, 0], 5)]).entries ∧ ([1, 0] : List Nat) ≠ [1, 1])) :=
  ⟨by decide, by decide, by decide,
    (C2_add_registers_key [([1, 0], 5)] (by decide) [1, 1] (by decide) 6).2 [1, 0] 2 5⟩

/-- C3 (round-trip containment). Let the trie be the result of any sequence of `Add` calls,
one of which added the network `N` (as `net.ParseCIDR` returned it, with mask size
`N.ones` not 0), and let the address agree with `N` on the bits of the stored key.
`Lookup` returns no error; the node it stops at has a key `k` at least as long as the stored
key of `N` (96 bits more than `N.ones` for an IPv4 network); the returned network agrees with
the address on the bits of `k`; the reported prefix length is the length of `k`, less 96 when
the returned network is IPv4-mapped. It is at least `N.ones` when `N` is an IPv4 network,
whose match is always IPv4-mapped, and whenever the returned network is not IPv4-mapped. -/
theorem C3_round_trip_containment (ParseCIDR : String → Except String IPNet)
    (hP : ValidCIDR ParseCIDR) (calls : List (String × D)) (netcidr : String) (payload : D)
    (hcall : (netcidr, payload) ∈ calls) (N : IPNet)
    (hN : ParseCIDR (cidr_text netcidr) = .ok N) (hL : N.ones ≠ 0)
    (ParseIP : String → List Nat) (ipstr : String) (hip : (ParseIP ipstr).length = 16)
    (hagree : to_array (ParseIP ipstr) (stored_ones N) = to_array (To16 N.IP) (stored_ones N)) :
    ∃ network netmask data k,
      (after_calls ParseCIDR calls).Lookup ParseIP ipstr = .ok (network, netmask, data) ∧
      stored_ones N ≤ k.length ∧
      ((lookup_prev (after_calls ParseCIDR calls).root
        (to_array (ParseIP ipstr) 128)).headD .nil).mask = k.length ∧
      to_array network k.length = k ∧ to_array (ParseIP ipstr) k.length = k ∧
      netmask = (if IsIPv4Mapped network then (k.length : Int) - 96 else k.length) ∧
      (N.IP.length = 4 → IsIPv4Mapped network = true ∧ (N.ones : Int) ≤ netmask) ∧
      (IsIPv4Mapped network = false → (N.ones : Int) ≤ netmask) := by
  obtain ⟨hbuild, hops⟩ := after_calls_eq_build ParseCIDR hP calls
  have hpc := parse_cidr_eq ParseCIDR netcidr N hN hL
  have hmem := mem_parsed_calls ParseCIDR calls netcidr payload _ _ hcall hpc
  have hs128 := stored_ones_le ParseCIDR hP _ N hN
  have hA : to_array (To16 N.IP) (stored_ones N) <+: to_array (ParseIP ipstr) 128 := by
    rw [← hagree, ← to_array_take (ParseIP ipstr) 128 (stored_ones N) (by omega) hs128]
    exact List.take_prefix _ _
  obtain ⟨k, data, hkwf, hk0, hpre, _, _, hkey, hmask, hres⟩ :=
    Lookup_found (parsed_calls ParseCIDR calls) hops _ payload hmem ParseIP ipstr hip hA
  rw [← hbuild] at hkey hmask hres
  have hlen0 : stored_ones N ≤ k.length := by
    have := hk0.length_le
    rwa [to_array_length] at this
  have hk128 : k.length ≤ 128 := hkwf.2.1
  have hmask' : ((lookup_prev (after_calls ParseCIDR calls).root
      (to_array (ParseIP ipstr) 128)).headD .nil).mask
      = (chain_key (lookup_prev (after_calls ParseCIDR calls).root
          (to_array (ParseIP ipstr) 128))).length := by
    rw [hmask, hkey]
  have hnet : to_array (to16 (lookup_prev (after_calls ParseCIDR calls).root
      (to_array (ParseIP ipstr) 128))) k.length = k := by
    have := to_array_to16 _ hmask' (by rw [hkey]; exact hk128) (by rw [hkey]; exact hkwf.2.2)
    rwa [hkey] at this
  have hAk : to_array (ParseIP ipstr) k.length = k := by
    rw [← to_array_take (ParseIP ipstr) 128 k.length (by omega) hk128]
    exact prefix_take_eq _ _ hpre
  have hones : N.ones ≤ stored_ones N := by unfold stored_ones; split <;> omega
  refine ⟨_, _, data, k, hres, hlen0, hmask, hnet, hAk, rfl, ?_, ?_⟩
  · intro h4
    have hst : stored_ones N = N.ones + 96 := by unfold stored_ones; rw [if_pos h4]
    have hT : To16 N.IP = v4InV6 ++ N.IP := by unfold To16; rw [if_pos h4]
    have h96 : 96 ≤ k.length := by omega
    have hK : k.take 96 = v4_bits := by
      obtain ⟨t, rfl⟩ := hk0
      rw [List.take_append_of_le_length (by rw [to_array_length]; omega),
        to_array_take _ _ _ hs128 (by omega), hT, to_array_v4]
    have hmapped := to16_mapped _ hmask' (by rw [hkey]; exact hk128) (by rw [hkey]; exact h96)
      (by rw [hkey]; exact hK)
    refine ⟨hmapped, ?_⟩
    rw [hmapped]; simp only [if_true]; omega
  · intro hnot
    rw [hnot]; simp only [Bool.false_eq_true, if_false]; omega

/-- C3 as stated fails: `::ffff:0:0/100` is added with prefix length 100, the address
`::ffff:0.0.0.1` agrees with it on the 100 network bits, and `Lookup` reports the prefix
length 4, because the returned network is IPv4-mapped. -/
theorem C3_round_trip_containment_counterexample :
    sample_ParseCIDR (cidr_text "::ffff:0:0/100")
      = .ok ⟨[0, 0, 0, 0, 0, 0, 0, 0, 0, 0, 255, 255, 0, 0, 0, 0], 100⟩ ∧
    to_array (sample_ParseIP "::ffff:0.0.0.1") 100
      = to_array [0, 0, 0, 0, 0, 0, 0, 0, 0, 0, 255, 255, 0, 0, 0, 0] 100 ∧
    (after_calls sample_ParseCIDR [("::ffff:0:0/100", 1)]).Lookup sample_ParseIP "::ffff:0.0.0.1"
      = .ok ([0, 0, 0, 0, 0, 0, 0, 0, 0, 0, 255, 255, 0, 0, 0, 0], 4, 1) ∧
    ¬ ((100 : Int) ≤ 4) := by
  decide

/-- C3, at an instance: `10.0.0.0/8` is added and `10.1.2.3` is looked up. -/
theorem C3_round_trip_containment_witness :
    ("10.0.0.0/8", 1) ∈ [("10.0.0.0/8", 1)] ∧
    sample_ParseCIDR (cidr_text "10.0.0.0/8") = .ok ⟨[10, 0, 0, 0], 8⟩ ∧
    ∃ network netmask data,
      (after_calls sample_ParseCIDR [("10.0.0.0/8", 1)]).Lookup sample_ParseIP "10.1.2.3"
        = .ok (network, netmask, data) ∧
      IsIPv4Mapped network = true ∧ (8 : Int) ≤ netmask :=
  ⟨by decide, by decide,
    let ⟨network, netmask, data, _, h1, _, _, _, _, _, h7, _⟩ :=
      C3_round_trip_containment sample_ParseCIDR sample_ParseCIDR_valid [("10.0.0.0/8", 1)]
        "10.0.0.0/8" 1 (by decide) ⟨[10, 0, 0, 0], 8⟩ (by decide) (by decide)
        sample_ParseIP "10.1.2.3" (by decide) (by decide)
    ⟨network, netmask, data, h1, (h7 rfl).1, (h7 rfl).2⟩⟩

/-- C4 (nested networks). Let `k1` and `k2` be added keys with `k2` a proper prefix of `k1`,
and let the bits `A` of the address start with `k1`. `Lookup` succeeds and stops at the node
of an added key `k` with `k1` a prefix of `k` and `k` a prefix of `A`, the longest such key,
so never at the node of `k2`; the payload is the one added last for `k`. The result is the
network of `k`: for every network `N` (as `net.ParseCIDR` returns it: 4 or 16 bytes below
256, mask size within the address size, zero bits after the stored prefix) whose stored key
is `k`, `Lookup` returns the network `N` in its 16-byte form, and the prefix length `N.ones`
for an IPv4 network and for an IPv6 network that is not IPv4-mapped, and `N.ones - 96` for
an IPv4-mapped IPv6 network. When no added key longer than `k1` is a prefix of `A`, then
`k = k1`: the stored prefix length is the length of `k1`, the payload is the one added last
for `k1`, and the network and the prefix length returned are those of the network `N1` whose
stored key is `k1`, the prefix length being `N1.ones`, less 96 when `N1` is an IPv4-mapped
IPv6 network. -/
theorem C4_nested_networks (ops : List (List Nat × D)) (hops : ∀ op ∈ ops, KeyWF op.1)
    (k1 k2 : List Nat) (d1 d2 : D) (h1 : (k1, d1) ∈ ops) (h2 : (k2, d2) ∈ ops)
    (hnest : k2 <+: k1 ∧ k2 ≠ k1)
    (ParseIP : String → List Nat) (ipstr : String) (hip : (ParseIP ipstr).length = 16)
    (hA : k1 <+: to_array (ParseIP ipstr) 128) :
    ∃ network netmask data k,
      (build ops).Lookup ParseIP ipstr = .ok (network, netmask, data) ∧
      k1 <+: k ∧ k <+: to_array (ParseIP ipstr) 128 ∧ k ≠ k2 ∧
      (∀ op ∈ ops, op.1 <+: to_array (ParseIP ipstr) 128 → op.1.length ≤ k.length) ∧
      last_added ops k = some data ∧
      chain_key (lookup_prev (build ops).root (to_array (ParseIP ipstr) 128)) = k ∧
      ((lookup_prev (build ops).root (to_array (ParseIP ipstr) 128)).headD .nil).mask
        = k.length ∧
      netmask = (if IsIPv4Mapped network then (k.length : Int) - 96 else k.length) ∧
      ((∀ op ∈ ops, op.1 <+: to_array (ParseIP ipstr) 128 → op.1.length ≤ k1.length) →
        k = k1) ∧
      (∀ N : IPNet,
        ((N.IP.length = 4 ∧ N.ones ≤ 32) ∨ (N.IP.length = 16 ∧ N.ones ≤ 128)) →
        (∀ b ∈ N.IP, b < 256) →
        (∀ j, stored_ones N ≤ j → j < 128 → bit_at (To16 N.IP) j = false) →
        k = to_array (To16 N.IP) (stored_ones N) →
        network = To16 N.IP ∧
        netmask = (if N.IP.length = 4 then (N.ones : Int)
          else if IsIPv4Mapped N.IP then (N.ones : Int) - 96 else N.ones)) ∧
      ((∀ op ∈ ops, op.1 <+: to_array (ParseIP ipstr) 128 → op.1.length ≤ k1.length) →
        last_added ops k1 = some data ∧
        ((lookup_prev (build ops).root (to_array (ParseIP ipstr) 128)).headD .nil).mask
          = k1.length ∧
        ∀ N1 : IPNet,
          ((N1.IP.length = 4 ∧ N1.ones ≤ 32) ∨ (N1.IP.length = 16 ∧ N1.ones ≤ 128)) →
          (∀ b ∈ N1.IP, b < 256) →
          (∀ j, stored_ones N1 ≤ j → j < 128 → bit_at (To16 N1.IP) j = false) →
          k1 = to_array (To16 N1.IP) (stored_ones N1) →
          network = To16 N1.IP ∧
          netmask = (if N1.IP.length = 4 then (N1.ones : Int)
            else if IsIPv4Mapped N1.IP then (N1.ones : Int) - 96 else N1.ones)) := by
  obtain ⟨hiff, hok⟩ := Lookup_build ops hops ParseIP ipstr hip
  cases hres : (build ops).Lookup ParseIP ipstr with
  | error msg => exact absurd hA (hiff.1 ⟨msg, hres⟩ _ h1)
  | ok r =>
    obtain ⟨network, netmask, data⟩ := r
    obtain ⟨k, _, hpre, hmax, hlast, hkey, hmask, hnet, hnm⟩ := hok network netmask data hres
    have hk1k : k1 <+: k := List.prefix_of_prefix_length_le hA hpre (hmax _ h1 hA)
    have hkk1 : (∀ op ∈ ops, op.1 <+: to_array (ParseIP ipstr) 128 →
        op.1.length ≤ k1.length) → k = k1 := by
      intro hno
      have hkA : ∃ d, (k, d) ∈ ops := (last_added_some_iff ops k).1 ⟨data, hlast⟩
      obtain ⟨d, hd⟩ := hkA
      exact (List.IsPrefix.eq_of_length_le hk1k (hno _ hd hpre)).symm
    have hren : ∀ N : IPNet,
        ((N.IP.length = 4 ∧ N.ones ≤ 32) ∨ (N.IP.length = 16 ∧ N.ones ≤ 128)) →
        (∀ b ∈ N.IP, b < 256) →
        (∀ j, stored_ones N ≤ j → j < 128 → bit_at (To16 N.IP) j = false) →
        k = to_array (To16 N.IP) (stored_ones N) →
        network = To16 N.IP ∧
        netmask = (if N.IP.length = 4 then (N.ones : Int)
          else if IsIPv4Mapped N.IP then (N.ones : Int) - 96 else N.ones) := by
      intro N hv hbytes hhost hk
      have hlen : k.length = stored_ones N := by rw [hk, to_array_length]
      have hr := render_parsed _ N hv hbytes hhost (hkey.trans hk)
        (hmask.trans (by rw [hlen]))
      refine ⟨hnet.trans hr.1, ?_⟩
      rw [hnm, ← hr.2, hnet, hmask]
    refine ⟨network, netmask, data, k, rfl, hk1k, hpre, ?_, hmax, hlast, hkey, hmask, hnm,
      hkk1, hren, ?_⟩
    · intro hk
      subst hk
      exact hnest.2 (List.IsPrefix.eq_of_length_le hnest.1 hk1k.length_le)
    · intro hno
      have hk := hkk1 hno
      subst hk
      exact ⟨hlast, hmask, hren⟩

/-- C4 as stated fails: the keys `1`, `11` and `111` are added, `N1 = 11` lies strictly
inside `N2 = 1`, the address `e000::` lies inside `N1`, and `Lookup` returns the prefix
length 3 and the payload 30 of `111`, not the prefix length 2 and the payload 20 of `N1`. -/
theorem C4_nested_networks_counterexample :
    ([1, 1], 20) ∈ [([1], 10), ([1, 1], 20), ([1, 1, 1], 30)] ∧
    ([1], 10) ∈ [([1], 10), ([1, 1], 20), ([1, 1, 1], 30)] ∧
    [1] <+: [1, 1] ∧ [1, 1] <+: to_array (sample_ParseIP "e000::") 128 ∧
    (build [([1], 10), ([1, 1], 20), ([1, 1, 1], 30)]).Lookup sample_ParseIP "e000::"
      = .ok ([224, 0, 0, 0, 0, 0, 0, 0, 0, 0, 0, 0, 0, 0, 0, 0], 3, 30) ∧
    (3 : Int) ≠ 2 ∧ 30 ≠ 20 := by
  decide

set_option maxRecDepth 16000 in
/-- C4, at an instance: the networks `::ffff:0:0/96`, `::ffff:0:0/100` and `10.0.0.0/8` are
added with the payloads 10, 20 and 30; the last two lie strictly inside the first. `Lookup`
of `::ffff:0.0.0.1`, inside `::ffff:0:0/100`, returns that network, its payload 20 and the
prefix length 100 - 96 = 4; `Lookup` of `10.1.2.3`, inside `10.0.0.0/8`, returns that
network, its payload 30 and the prefix length 8. -/
theorem C4_nested_networks_witness :
    v4_bits <+: v4_bits ++ [0, 0, 0, 0] ∧
    v4_bits ++ [0, 0, 0, 0] <+: to_array (sample_ParseIP "::ffff:0.0.0.1") 128 ∧
    v4_bits <+: to_array (To16 [10, 0, 0, 0]) 104 ∧
    to_array (To16 [10, 0, 0, 0]) 104 <+: to_array (sample_ParseIP "10.1.2.3") 128 ∧
    (build [(v4_bits, 10), (v4_bits ++ [0, 0, 0, 0], 20),
        (to_array (To16 [10, 0, 0, 0]) 104, 30)]).Lookup sample_ParseIP "::ffff:0.0.0.1"
      = .ok ([0, 0, 0, 0, 0, 0, 0, 0, 0, 0, 255, 255, 0, 0, 0, 0], 4, 20) ∧
    (build [(v4_bits, 10), (v4_bits ++ [0, 0, 0, 0], 20),
        (to_array (To16 [10, 0, 0, 0]) 104, 30)]).Lookup sample_ParseIP "10.1.2.3"
      = .ok ([0, 0, 0, 0, 0, 0, 0, 0, 0, 0, 255, 255, 10, 0, 0, 0], 8, 30) := by
  refine ⟨by decide, by decide, by decide, by decide, ?_, ?_⟩
  · obtain ⟨network, netmask, data, k, hL, -, -, -, -, -, -, -, -, -, -, hN1⟩ :=
      C4_nested_networks [(v4_bits, 10), (v4_bits ++ [0, 0, 0, 0], 20),
          (to_array (To16 [10, 0, 0, 0]) 104, 30)] (by decide)
        (v4_bits ++ [0, 0, 0, 0]) v4_bits 20 10 (by decide) (by decide) (by decide)
        sample_ParseIP "::ffff:0.0.0.1" (by decide) (by decide)
    obtain ⟨hlast, -, hN⟩ := hN1 (by decide)
    obtain ⟨hnw, hnm⟩ := hN ⟨[0, 0, 0, 0, 0, 0, 0, 0, 0, 0, 255, 255, 0, 0, 0, 0], 100⟩
      (by decide) (by decide) (by decide) (by decide)
    have hd : last_added [(v4_bits, 10), (v4_bits ++ [0, 0, 0, 0], 20),
        (to_array (To16 [10, 0, 0, 0]) 104, 30)] (v4_bits ++ [0, 0, 0, 0]) = some 20 := by
      decide
    rw [hd] at hlast
    rw [hL, hnw, hnm, ← Option.some.inj hlast]
    decide
  · obtain ⟨network, netmask, data, k, hL, -, -, -, -, -, -, -, -, -, -, hN1⟩ :=
      C4_nested_networks [(v4_bits, 10), (v4_bits ++ [0, 0, 0, 0], 20),
          (to_array (To16 [10, 0, 0, 0]) 104, 30)] (by decide)
        (to_array (To16 [10, 0, 0, 0]) 104) v4_bits 30 10 (by decide) (by decide) (by decide)
        sample_ParseIP "10.1.2.3" (by decide) (by decide)
    obtain ⟨hlast, -, hN⟩ := hN1 (by decide)
    obtain ⟨hnw, hnm⟩ := hN ⟨[10, 0, 0, 0], 8⟩
      (by decide) (by decide) (by decide) (by decide)
    have hd : last_added [(v4_bits, 10), (v4_bits ++ [0, 0, 0, 0], 20),
        (to_array (To16 [10, 0, 0, 0]) 104, 30)] (to_array (To16 [10, 0, 0, 0]) 104)
        = some 30 := by
      decide
    rw [hd] at hlast
    rw [hL, hnw, hnm, ← Option.some.inj hlast]
    decide

/-- C5 (exact match). Let the trie be the result of any sequence of `Add` calls, let `Add`
then add the network `N` (as `net.ParseCIDR` returned it: bytes below 256, mask size
`N.ones` not 0, zero bits after the stored prefix) with payload `P`, and let no key added
before that is longer than the stored key of `N` be a prefix of the address `N`. `Lookup` of
the address `N` returns the network `N`, the payload `P`, and the prefix length `N.ones`
for an IPv4 network and for an IPv6 network that is not IPv4-mapped, and `N.ones - 96` for an
IPv4-mapped IPv6 network. -/
theorem C5_exact_match (ParseCIDR : String → Except String IPNet) (hP : ValidCIDR ParseCIDR)
    (calls : List (String × D)) (netcidr : String) (payload : D) (N : IPNet)
    (hN : ParseCIDR (cidr_text netcidr) = .ok N) (hL : N.ones ≠ 0)
    (hbytes : ∀ b ∈ N.IP, b < 256)
    (hhost : ∀ j, stored_ones N ≤ j → j < 128 → bit_at (To16 N.IP) j = false)
    (ParseIP : String → List Nat) (ipstr : String) (hip : ParseIP ipstr = To16 N.IP)
    (hnomore : ∀ op ∈ parsed_calls ParseCIDR calls,
      op.1 <+: to_array (To16 N.IP) 128 → op.1.length ≤ stored_ones N) :
    ((after_calls ParseCIDR calls).Add ParseCIDR netcidr payload).1.Lookup ParseIP ipstr
      = .ok (To16 N.IP,
          (if N.IP.length = 4 then (N.ones : Int)
            else if IsIPv4Mapped N.IP then (N.ones : Int) - 96 else N.ones),
          payload) := by
  rw [Lookup_after_Add ParseCIDR hP calls netcidr payload N hN hL hbytes hhost ParseIP ipstr hip
    hnomore]
  by_cases h4 : N.IP.length = 4
  · have hT : To16 N.IP = v4InV6 ++ N.IP := by unfold To16; rw [if_pos h4]
    have hst : stored_ones N = N.ones + 96 := by unfold stored_ones; rw [if_pos h4]
    rw [if_pos h4, hT, IsIPv4Mapped_v4, hst]
    simp
  · have h16 : N.IP.length = 16 := by
      rcases hP _ N hN with ⟨h, _⟩ | ⟨h, _⟩
      · exact absurd h h4
      · exact h
    have hT : To16 N.IP = N.IP := by unfold To16; rw [if_neg h4, if_pos h16]
    have hst : stored_ones N = N.ones := by unfold stored_ones; rw [if_neg h4]
    rw [if_neg h4, hT, hst]

set_option maxRecDepth 8000 in
/-- C5 as stated fails: with `10.0.0.0/16` in the trie, `Add` of `10.0.0.0/8` with payload 2
is followed by a `Lookup` of `10.0.0.0` that returns the prefix length 16 and the payload 1
of the more specific network. -/
theorem C5_exact_match_counterexample :
    sample_ParseCIDR (cidr_text "10.0.0.0/8") = .ok ⟨[10, 0, 0, 0], 8⟩ ∧
    ((after_calls sample_ParseCIDR [("10.0.0.0/16", 1)]).Add sample_ParseCIDR
        "10.0.0.0/8" 2).1.Lookup sample_ParseIP "10.0.0.0"
      = .ok ([0, 0, 0, 0, 0, 0, 0, 0, 0, 0, 255, 255, 10, 0, 0, 0], 16, 1) ∧
    (16 : Int) ≠ 8 ∧ 1 ≠ 2 := by
  decide

set_option maxRecDepth 8000 in
/-- C5, at an instance: `10.0.0.0/8` is added to the trie that holds `::1`, and `10.0.0.0`
is looked up. -/
theorem C5_exact_match_witness :
    sample_ParseCIDR (cidr_text "10.0.0.0/8") = .ok ⟨[10, 0, 0, 0], 8⟩ ∧
    sample_ParseIP "10.0.0.0" = To16 [10, 0, 0, 0] ∧
    ((after_calls sample_ParseCIDR [("::1", 1)]).Add sample_ParseCIDR
        "10.0.0.0/8" 2).1.Lookup sample_ParseIP "10.0.0.0"
      = .ok ([0, 0, 0, 0, 0, 0, 0, 0, 0, 0, 255, 255, 10, 0, 0, 0], 8, 2) :=
  ⟨by decide, by decide,
    C5_exact_match sample_ParseCIDR sample_ParseCIDR_valid [("::1", 1)] "10.0.0.0/8" 2
      ⟨[10, 0, 0, 0], 8⟩ (by decide) (by decide) (by decide) (by decide)
      sample_ParseIP "10.0.0.0" (by decide) (by decide)⟩

/-- C6 (idempotent re-insertion). Let `T` be built by `Add` calls with well-formed keys, one
of which added the key `k`, and let `k` be added again with the payload `d2`. The trie then
has exactly one registered node with key `k`, with prefix length `len k` and payload `d2`;
`Networks()` and `Nodes()` are what they were before the call; the nodes, their segments,
prefix lengths and links are the same. -/
theorem C6_reinsert_same_key (ops : List (List Nat × D)) (hops : ∀ op ∈ ops, KeyWF op.1)
    (k : List Nat) (d1 : D) (hreg : (k, d1) ∈ ops) (d2 : D) :
    ((build ops).add_bits k k.length d2).entries.filter (fun e => e.1 = k)
      = [(k, (k.length : Int), d2)] ∧
    ((build ops).add_bits k k.length d2).Networks = (build ops).Networks ∧
    ((build ops).add_bits k k.length d2).Nodes = (build ops).Nodes ∧
    ((build ops).add_bits k k.length d2).root.shape = (build ops).root.shape := by
  have hk : KeyWF k := hops _ hreg
  have hwf1 := build_WF ops hops
  have hwf2 := add_bits_WF _ hwf1 k hk d2
  obtain ⟨d, hd⟩ := (last_added_some_iff ops k).2 ⟨d1, hreg⟩
  have hin1 : (k, (k.length : Int), d) ∈ (build ops).entries :=
    (build_entries ops hops _ _ _).2 ⟨rfl, hd⟩
  have hshape := add_bits_shape _ hwf1 k _ d hin1 d2
  refine ⟨?_, ?_, ?_, hshape⟩
  · apply nodup_singleton_of_mem _ _ ((entries_nodup _ 0 hwf2).filter _)
    rintro ⟨k', mm, dd⟩
    rw [List.mem_filter, decide_eq_true_eq]
    constructor
    · rintro ⟨h, rfl⟩
      rcases (add_bits_entries _ hwf1 k' hk d2 _ _ _).1 h with ⟨_, rfl, rfl⟩ | ⟨_, hne⟩
      · rfl
      · exact absurd rfl hne
    · intro h
      simp only [Prod.mk.injEq] at h
      obtain ⟨rfl, rfl, rfl⟩ := h
      exact ⟨(add_bits_entries _ hwf1 k' hk dd _ _ _).2 (Or.inl ⟨rfl, rfl, rfl⟩), rfl⟩
  · unfold NetDB.Networks
    rw [← count_shape, hshape, count_shape]
  · unfold NetDB.Nodes
    rw [← count_shape, hshape, count_shape]

/-- C6, at an instance: the key `10` is added again to the trie that holds `10` and `11`. -/
theorem C6_reinsert_same_key_witness :
    (∀ op ∈ [([1, 0], 5), ([1, 1], 6)], KeyWF op.1) ∧
    ([1, 0], 5) ∈ [([1, 0], 5), ([1, 1], 6)] ∧
    ((build [([1, 0], 5), ([1, 1], 6)]).add_bits [1, 0] ([1, 0] : List Nat).length 7).Nodes
      = (build [([1, 0], 5), ([1, 1], 6)]).Nodes ∧
    ((build [([1, 0], 5), ([1, 1], 6)]).add_bits [1, 0] 2 7).entries
      = [([1, 0], 2, 7), ([1, 1], 2, 6)] :=
  ⟨by decide, by decide,
    (C6_reinsert_same_key [([1, 0], 5), ([1, 1], 6)] (by decide) [1, 0] 5 (by decide) 7).2.2.1,
    by decide⟩

/-- C7 (invalid prefix rejection is atomic). For every trie and every argument of `Add` for
which `net.ParseCIDR` returns a network with mask size 0, or returns an error, `Add` returns
an error and the trie is unchanged, so `Nodes()` and `Networks()` are unchanged; for the mask
size 0 the error is "incorrect parameter", otherwise it is the error of `net.ParseCIDR`. -/
theorem C7_invalid_prefix_rejected (ParseCIDR : String → Except String IPNet) (db : NetDB D)
    (netcidr : String) (data : D)
    (h : (∃ N, ParseCIDR (cidr_text netcidr) = .ok N ∧ N.ones = 0) ∨
      (∃ err, ParseCIDR (cidr_text netcidr) = .error err)) :
    (∃ err, (db.Add ParseCIDR netcidr data).2 = some err) ∧
    (db.Add ParseCIDR netcidr data).1 = db ∧
    (db.Add ParseCIDR netcidr data).1.Nodes = db.Nodes ∧
    (db.Add ParseCIDR netcidr data).1.Networks = db.Networks ∧
    (∀ N, ParseCIDR (cidr_text netcidr) = .ok N →
      (db.Add ParseCIDR netcidr data).2 = some "incorrect parameter") ∧
    (∀ err, ParseCIDR (cidr_text netcidr) = .error err →
      (db.Add ParseCIDR netcidr data).2 = some err) := by
  rcases h with ⟨N, hN, h0⟩ | ⟨err, herr⟩
  · have := Add_error ParseCIDR db netcidr data _ (parse_cidr_zero ParseCIDR netcidr N hN h0)
    rw [this]
    refine ⟨⟨_, rfl⟩, rfl, rfl, rfl, fun _ _ => rfl, fun err herr => ?_⟩
    rw [hN] at herr
    exact absurd herr (by simp)
  · have := Add_error ParseCIDR db netcidr data _ (parse_cidr_error ParseCIDR netcidr err herr)
    rw [this]
    refine ⟨⟨_, rfl⟩, rfl, rfl, rfl, fun N hN => ?_, fun err' herr' => ?_⟩
    · rw [hN] at herr
      exact absurd herr (by simp)
    · rw [herr] at herr'
      simp only [Except.error.injEq] at herr'
      rw [herr']

/-- C7, at an instance: `127.0.0.1/0` is added to the trie that holds `10.0.0.0/8`. -/
theorem C7_invalid_prefix_rejected_witness :
    sample_ParseCIDR (cidr_text "127.0.0.1/0") = .ok ⟨[0, 0, 0, 0], 0⟩ ∧
    ((after_calls sample_ParseCIDR [("10.0.0.0/8", 1)]).Add sample_ParseCIDR
      "127.0.0.1/0" 2).1 = after_calls sample_ParseCIDR [("10.0.0.0/8", 1)] ∧
    ((after_calls sample_ParseCIDR [("10.0.0.0/8", 1)]).Add sample_ParseCIDR
      "127.0.0.1/0" 2).2 = some "incorrect parameter" :=
  ⟨by decide,
    (C7_invalid_prefix_rejected sample_ParseCIDR (after_calls sample_ParseCIDR [("10.0.0.0/8", 1)])
      "127.0.0.1/0" 2 (Or.inl ⟨⟨[0, 0, 0, 0], 0⟩, by decide, rfl⟩)).2.1,
    by decide⟩

/-- C8 (`Networks()` counts the distinct keys). For the trie built from the empty trie by
`Add` calls with the well-formed keys of `ops`, `Networks()` is the number of distinct keys
of `ops`; one more `Add` of a well-formed key raises it by one when the key was not added
before and leaves it unchanged otherwise. -/
theorem C8_networks_counts_keys (ops : List (List Nat × D)) (hops : ∀ op ∈ ops, KeyWF op.1) :
    (build ops).Networks = ((ops.map Prod.fst).dedup).length ∧
    ∀ k d, KeyWF k →
      ((build ops).add_bits k k.length d).Networks
        = (build ops).Networks + if k ∈ ops.map Prod.fst then 0 else 1 := by
  constructor
  · rw [Networks_eq, ← List.length_map (build ops).entries Prod.fst]
    apply List.Perm.length_eq
    rw [List.perm_ext_iff_of_nodup (db_keys_nodup _ (build_WF ops hops))
      (List.nodup_dedup _)]
    intro k
    rw [List.mem_dedup]
    exact build_keys ops hops k
  · intro k d hk
    rw [add_bits_Networks _ (build_WF ops hops) k hk d]
    by_cases h : k ∈ ops.map Prod.fst
    · rw [if_pos h, if_pos ((build_keys ops hops k).2 h)]
    · rw [if_neg h, if_neg (fun h' => h ((build_keys ops hops k).1 h'))]

/-- C8, at an instance: the keys `10`, `11` and `10` again are added. -/
theorem C8_networks_counts_keys_witness :
    (∀ op ∈ [([1, 0], 5), ([1, 1], 6), ([1, 0], 7)], KeyWF op.1) ∧
    (build [([1, 0], 5), ([1, 1], 6), ([1, 0], 7)]).Networks
      = (([([1, 0], 5), ([1, 1], 6), ([1, 0], 7)].map Prod.fst).dedup).length ∧
    (build [([1, 0], 5), ([1, 1], 6), ([1, 0], 7)]).Networks = 2 :=
  ⟨by decide,
    (C8_networks_counts_keys [([1, 0], 5), ([1, 1], 6), ([1, 0], 7)] (by decide)).1, by decide⟩

/-- C9 (host addresses of both families). Let the trie be the result of any sequence of `Add`
calls and let `s` be an address without `/` that `net.ParseIP` reads as the 16 bytes `ip`:
an IPv6 literal (it has a `:`) that `net.ParseCIDR` reads, with `/128` appended, as the
network `ip` of mask size 128, or an IPv4 literal that it reads, with `/32` appended, as
the 4-byte network of mask size 32 whose 16-byte form is `ip`. After `Add` of `s` with
payload `d`, `Lookup` of `s` returns the network `ip`, the payload `d` and the prefix length
32 when `ip` is IPv4-mapped, as it is for every IPv4 literal, and 128 otherwise. -/
theorem C9_host_addresses (ParseCIDR : String → Except String IPNet) (hP : ValidCIDR ParseCIDR)
    (calls : List (String × D)) (s : String) (d : D) (hs : s.data.contains '/' = false)
    (ip : List Nat) (hlen : ip.length = 16) (hbytes : ∀ b ∈ ip, b < 256)
    (ParseIP : String → List Nat) (hPI : ParseIP s = ip)
    (hPC : (s.data.contains ':' = true ∧ ParseCIDR (s ++ "/128") = .ok ⟨ip, 128⟩) ∨
      (s.data.contains ':' = false ∧
        ∃ ip4, ip4.length = 4 ∧ ip = v4InV6 ++ ip4 ∧ ParseCIDR (s ++ "/32") = .ok ⟨ip4, 32⟩)) :
    ((after_calls ParseCIDR calls).Add ParseCIDR s d).1.Lookup ParseIP s
      = .ok (ip, (if IsIPv4Mapped ip then 32 else 128), d) ∧
    (s.data.contains ':' = false → IsIPv4Mapped ip = true) := by
  have hkeys := (after_calls_eq_build ParseCIDR hP calls).2
  rcases hPC with ⟨hc, hN⟩ | ⟨hc, ip4, h4, hip4, hN⟩
  · have htext : cidr_text s = s ++ "/128" := by unfold cidr_text; rw [hs, hc]; rfl
    have hst : stored_ones ⟨ip, 128⟩ = 128 := by
      unfold stored_ones; rw [if_neg (by simp [hlen])]
    have hT : To16 ip = ip := by unfold To16; rw [if_neg (by omega), if_pos hlen]
    have := Lookup_after_Add ParseCIDR hP calls s d ⟨ip, 128⟩ (by rw [htext]; exact hN)
      (by simp) hbytes (fun j h1 h2 => by rw [hst] at h1; omega) ParseIP s
      (by rw [hPI]; exact hT.symm)
      (fun op hop _ => by rw [hst]; exact (hkeys op hop).2.1)
    rw [this, hst]
    simp only [hT]
    refine ⟨?_, fun h => by rw [hc] at h; exact absurd h (by simp)⟩
    by_cases hm : IsIPv4Mapped ip = true
    · simp [hm]
    · simp [hm]
  · have htext : cidr_text s = s ++ "/32" := by unfold cidr_text; rw [hs, hc]; rfl
    have hst : stored_ones ⟨ip4, 32⟩ = 128 := by
      unfold stored_ones; rw [if_pos h4]
    have hT : To16 ip4 = ip := by unfold To16; rw [if_pos h4, hip4]
    have hb4 : ∀ b ∈ ip4, b < 256 := fun b hb => hbytes b (by rw [hip4]; simp [hb])
    have hmapped : IsIPv4Mapped ip = true := by rw [hip4]; exact IsIPv4Mapped_v4 ip4
    have := Lookup_after_Add ParseCIDR hP calls s d ⟨ip4, 32⟩ (by rw [htext]; exact hN)
      (by simp) hb4 (fun j h1 h2 => by rw [hst] at h1; omega) ParseIP s
      (by rw [hPI]; exact hT.symm)
      (fun op hop _ => by rw [hst]; exact (hkeys op hop).2.1)
    rw [this, hst]
    simp only [hT, hmapped]
    exact ⟨by simp, fun _ => trivial⟩

set_option maxRecDepth 8000 in
/-- C9 as stated fails: `::ffff:1.2.3.4` is an IPv6 literal, it is added without a prefix
length, and `Lookup` of it returns the prefix length 32, not 128. -/
theorem C9_host_addresses_counterexample :
    ("::ffff:1.2.3.4".data.contains ':' = true) ∧ ("::ffff:1.2.3.4".data.contains '/' = false) ∧
    (NetDB.empty.Add sample_ParseCIDR "::ffff:1.2.3.4" 1).2 = none ∧
    (NetDB.empty.Add sample_ParseCIDR "::ffff:1.2.3.4" 1).1.Lookup sample_ParseIP
        "::ffff:1.2.3.4"
      = .ok ([0, 0, 0, 0, 0, 0, 0, 0, 0, 0, 255, 255, 1, 2, 3, 4], 32, 1) ∧
    (32 : Int) ≠ 128 := by
  decide

set_option maxRecDepth 8000 in
/-- C9, at an instance: `::1` is added to the trie that holds `194.2.218.254`. -/
theorem C9_host_addresses_witness :
    ("::1".data.contains '/' = false) ∧
    ((after_calls sample_ParseCIDR [("194.2.218.254", 1)]).Add sample_ParseCIDR
        "::1" 2).1.Lookup sample_ParseIP "::1"
      = .ok ([0, 0, 0, 0, 0, 0, 0, 0, 0, 0, 0, 0, 0, 0, 0, 1],
          (if IsIPv4Mapped [0, 0, 0, 0, 0, 0, 0, 0, 0, 0, 0, 0, 0, 0, 0, 1] then 32 else 128),
          2) :=
  ⟨by decide,
    (C9_host_addresses sample_ParseCIDR sample_ParseCIDR_valid [("194.2.218.254", 1)] "::1" 2
      (by decide) [0, 0, 0, 0, 0, 0, 0, 0, 0, 0, 0, 0, 0, 0, 0, 1] (by decide) (by decide)
      sample_ParseIP (by decide) (Or.inl ⟨by decide, by decide⟩)).1⟩

/-- C10 (registered root). Let the trie be built by `Add` calls with well-formed keys, with a
root that is registered. The segment of the root is not empty, and `Lookup` returns a match
exactly for the addresses whose bits start with the segment of the root; for every other
address it returns the error "not found", and it returns no other error. -/
theorem C10_registered_root (ops : List (List Nat × D)) (hops : ∀ op ∈ ops, KeyWF op.1)
    (bs : List Nat) (m : Int) (z o : node D) (d : D)
    (hroot : (build ops).root = .mk bs m z o d) (hreg : m ≠ -1)
    (ParseIP : String → List Nat) (ipstr : String) (hip : (ParseIP ipstr).length = 16) :
    bs ≠ [] ∧
    ((∃ r, (build ops).Lookup ParseIP ipstr = .ok r) ↔ bs <+: to_array (ParseIP ipstr) 128) ∧
    ((build ops).Lookup ParseIP ipstr = .error "not found" ↔
      ¬ bs <+: to_array (ParseIP ipstr) 128) ∧
    (∀ msg, (build ops).Lookup ParseIP ipstr = .error msg → msg = "not found") ∧
    ((∃ msg, (build ops).Lookup ParseIP ipstr = .error msg) ↔
      ¬ bs <+: to_array (ParseIP ipstr) 128) := by
  have hin : (bs, m, d) ∈ (build ops).entries := by
    unfold NetDB.entries
    rw [hroot, mem_entries_mk]
    exact Or.inl ⟨hreg, rfl, rfl, rfl⟩
  obtain ⟨_, hlast⟩ := (build_entries ops hops _ _ _).1 hin
  obtain ⟨d', hd'⟩ := (last_added_some_iff ops bs).1 ⟨d, hlast⟩
  have hbs : bs ≠ [] := by
    intro h
    have := (hops _ hd').1
    simp [h] at this
  obtain ⟨hiff, hok⟩ := Lookup_build ops hops ParseIP ipstr hip
  have hall : ∀ op ∈ ops, bs <+: op.1 := by
    intro op hop
    obtain ⟨dd, hdd⟩ := (last_added_some_iff ops op.1).2 ⟨op.2, hop⟩
    have he := (build_entries ops hops op.1 _ dd).2 ⟨rfl, hdd⟩
    unfold NetDB.entries at he
    rw [hroot] at he
    obtain ⟨k', hk'⟩ := entries_key_append _ _ _ _ _ _ _ _ he
    rw [hk']
    exact List.prefix_append _ _
  have herr : (∃ msg, (build ops).Lookup ParseIP ipstr = .error msg) ↔
      ¬ bs <+: to_array (ParseIP ipstr) 128 := by
    rw [hiff]
    constructor
    · intro h
      exact h _ hd'
    · intro h op hop hpre
      exact h ((hall op hop).trans hpre)
  obtain ⟨hmiss, honly⟩ := Lookup_build_miss ops hops ParseIP ipstr hip
  have hnf : (build ops).Lookup ParseIP ipstr = .error "not found" ↔
      ¬ bs <+: to_array (ParseIP ipstr) 128 := by
    constructor
    · intro h
      exact herr.1 ⟨_, h⟩
    · intro h
      obtain ⟨msg, hmsg⟩ := herr.2 h
      rw [hmsg, honly msg hmsg]
  refine ⟨hbs, ?_, hnf, honly, herr⟩
  constructor
  · rintro ⟨r, hr⟩
    by_contra hno
    obtain ⟨msg, hmsg⟩ := herr.2 hno
    rw [hr] at hmsg
    exact absurd hmsg (by simp)
  · intro hpre
    cases hres : (build ops).Lookup ParseIP ipstr with
    | error msg => exact absurd hpre (herr.1 ⟨msg, hres⟩)
    | ok r => exact ⟨r, rfl⟩

/-- C10 as stated fails: the trie that holds the key `1` has a registered root, and `Lookup`
of `::1`, whose first bit is 0, returns the error. -/
theorem C10_registered_root_counterexample :
    (build [([1], 7)]).root = .mk [1] 1 .nil .nil 7 ∧ (1 : Int) ≠ -1 ∧
    (sample_ParseIP "::1").length = 16 ∧
    (build [([1], 7)]).Lookup sample_ParseIP "::1" = .error "not found" := by
  decide

set_option maxRecDepth 8000 in
/-- C10, at an instance: the keys `1` and `11` are added, so that the root is the registered
node of `1`. The address `8000::1`, whose first bit is 1, is matched; the address `::1`,
whose first bit is 0, gets the error "not found". -/
theorem C10_registered_root_witness :
    (∀ op ∈ [([1], 7), ([1, 1], 8)], KeyWF op.1) ∧
    (build [([1], 7), ([1, 1], 8)]).root
      = .mk [1] 1 .nil (.mk [1] 2 .nil .nil 8) 7 ∧ (1 : Int) ≠ -1 ∧
    (sample_ParseIP "8000::1").length = 16 ∧ (sample_ParseIP "::1").length = 16 ∧
    [1] <+: to_array (sample_ParseIP "8000::1") 128 ∧
    ¬ [1] <+: to_array (sample_ParseIP "::1") 128 ∧
    (∃ r, (build [([1], 7), ([1, 1], 8)]).Lookup sample_ParseIP "8000::1" = .ok r) ∧
    (build [([1], 7), ([1, 1], 8)]).Lookup sample_ParseIP "::1" = .error "not found" :=
  ⟨by decide, by decide, by decide, by decide, by decide, by decide, by decide,
    (C10_registered_root [([1], 7), ([1, 1], 8)] (by decide) [1] 1 .nil
      (.mk [1] 2 .nil .nil 8) 7 (by decide) (by decide)
      sample_ParseIP "8000::1" (by decide)).2.1.2 (by decide),
    (C10_registered_root [([1], 7), ([1, 1], 8)] (by decide) [1] 1 .nil
      (.mk [1] 2 .nil .nil 8) 7 (by decide) (by decide)
      sample_ParseIP "::1" (by decide)).2.2.1.2 (by decide)⟩

/-- C11 (IPv4-mapped rendering). For every successful `Lookup`, the returned network is the
16-byte reconstruction `to16` of the matched node, and the reported prefix length is the
stored prefix length of that node minus 96 exactly when bytes 0 to 9 of the network are zero
and bytes 10 and 11 are `0xFF`, and the stored prefix length otherwise, which is the value of
`adjmask` on the matched node; on every node `adjmask` is the stored prefix length, less 96
exactly when the reconstruction of the node has that pattern. -/
theorem C11_mapped_rendering (ParseIP : String → List Nat) (db : NetDB D) (ipstr : String)
    (network : List Nat) (netmask : Int) (data : D)
    (h : db.Lookup ParseIP ipstr = .ok (network, netmask, data)) :
    network = to16 (lookup_prev db.root (to_array (ParseIP ipstr) 128)) ∧
    network.length = 16 ∧
    (mapped_pattern network →
      netmask = ((lookup_prev db.root (to_array (ParseIP ipstr) 128)).headD .nil).mask - 96) ∧
    (¬ mapped_pattern network →
      netmask = ((lookup_prev db.root (to_array (ParseIP ipstr) 128)).headD .nil).mask) ∧
    (netmask = ((lookup_prev db.root (to_array (ParseIP ipstr) 128)).headD .nil).mask - 96 ↔
      mapped_pattern network) ∧
    netmask = adjmask (lookup_prev db.root (to_array (ParseIP ipstr) 128)) ∧
    ∀ q : List (node D),
      (mapped_pattern (to16 q) → adjmask q = (q.headD .nil).mask - 96) ∧
      (¬ mapped_pattern (to16 q) → adjmask q = (q.headD .nil).mask) := by
  obtain ⟨bs, z, o, anc, _, hnet, hmask⟩ := Lookup_ok ParseIP db ipstr network netmask data h
  have hlen : network.length = 16 := by rw [hnet, to16_length]
  have hiff := IsIPv4Mapped_iff network (by omega)
  have h1 : mapped_pattern network →
      netmask = ((lookup_prev db.root (to_array (ParseIP ipstr) 128)).headD .nil).mask - 96 := by
    intro hp
    rw [hmask, if_pos (hiff.2 hp)]
  have h2 : ¬ mapped_pattern network →
      netmask = ((lookup_prev db.root (to_array (ParseIP ipstr) 128)).headD .nil).mask := by
    intro hp
    rw [hmask, if_neg (fun hm => hp (hiff.1 hm))]
  refine ⟨hnet, hlen, h1, h2, ⟨fun heq => ?_, h1⟩, ?_, adjmask_eq⟩
  · by_contra hp
    have := h2 hp
    omega
  · unfold adjmask
    rw [← hnet]
    exact hmask

set_option maxRecDepth 8000 in
/-- C11, at an instance: `10.0.0.0/8` is added and `10.1.2.3` is looked up; the stored prefix
length is 104 and the reported one is 8. -/
theorem C11_mapped_rendering_witness :
    (after_calls sample_ParseCIDR [("10.0.0.0/8", 1)]).Lookup sample_ParseIP "10.1.2.3"
      = .ok ([0, 0, 0, 0, 0, 0, 0, 0, 0, 0, 255, 255, 10, 0, 0, 0], 8, 1) ∧
    ((lookup_prev (after_calls sample_ParseCIDR [("10.0.0.0/8", 1)]).root
      (to_array (sample_ParseIP "10.1.2.3") 128)).headD .nil).mask = 104 ∧
    ((8 : Int) = ((lookup_prev (after_calls sample_ParseCIDR [("10.0.0.0/8", 1)]).root
        (to_array (sample_ParseIP "10.1.2.3") 128)).headD .nil).mask - 96 ↔
      mapped_pattern [0, 0, 0, 0, 0, 0, 0, 0, 0, 0, 255, 255, 10, 0, 0, 0]) :=
  ⟨by decide, by decide,
    (C11_mapped_rendering sample_ParseIP (after_calls sample_ParseCIDR [("10.0.0.0/8", 1)])
      "10.1.2.3" [0, 0, 0, 0, 0, 0, 0, 0, 0, 0, 255, 255, 10, 0, 0, 0] 8 1 (by decide)).2.2.2.2.1⟩

/-! ## The key codec -/

theorem bit_at_div_mod (ip : List Nat) (j : Nat) :
    (if bit_at ip j then 1 else 0) = ip.getD (j / 8) 0 / 2 ^ (7 - j % 8) % 2 := by
  unfold bit_at
  rw [Nat.testBit_to_div_mod]
  generalize ip.getD (j / 8) 0 / 2 ^ (7 - j % 8) = q
  rcases Nat.mod_two_eq_zero_or_one q with h | h <;> simp [h]

/-- The key of an IPv4 network, as `parse_cidr` returns it. -/
theorem parse_cidr_v4 (ParseCIDR : String → Except String IPNet) (netcidr : String) (N : IPNet)
    (hN : ParseCIDR (cidr_text netcidr) = .ok N) (h4 : N.IP.length = 4) (h1 : 1 ≤ N.ones)
    (h32 : N.ones ≤ 32) :
    parse_cidr ParseCIDR netcidr = .ok (to_array (v4InV6 ++ N.IP) (N.ones + 96), N.ones + 96) ∧
    (to_array (v4InV6 ++ N.IP) (N.ones + 96)).take 96 = v4_bits := by
  have h := parse_cidr_eq ParseCIDR netcidr N hN (by omega)
  have hst : stored_ones N = N.ones + 96 := by unfold stored_ones; rw [if_pos h4]
  have hT : To16 N.IP = v4InV6 ++ N.IP := by unfold To16; rw [if_pos h4]
  rw [hst, hT] at h
  exact ⟨h, by rw [to_array_take _ _ _ (by omega) (by omega), to_array_v4]⟩

/-- C13 (key codec). For every address `ip` and every `n` from 0 to 128, `to_array(ip, n)`
has `n` elements, each 0 or 1, and its element `j` is bit `j` of `ip`, counted from the most
significant bit of byte 0: bit `7 - j % 8` of byte `j / 8`. For an IPv4 network of mask size
`p` from 1 to 32 (4 address bytes), `parse_cidr` returns the prefix length `p + 96` and a
key of that length whose first 96 bits are 80 zeros followed by 16 ones. -/
theorem C13_key_codec (ip : List Nat) (n : Nat) (hn : n ≤ 128) :
    (to_array ip n).length = n ∧
    (∀ b ∈ to_array ip n, b = 0 ∨ b = 1) ∧
    (∀ j, j < n → (to_array ip n).getD j 0 = ip.getD (j / 8) 0 / 2 ^ (7 - j % 8) % 2) ∧
    (∀ (ParseCIDR : String → Except String IPNet) (netcidr : String) (N : IPNet),
      ParseCIDR (cidr_text netcidr) = .ok N → N.IP.length = 4 → 1 ≤ N.ones → N.ones ≤ 32 →
      ∃ bits, parse_cidr ParseCIDR netcidr = .ok (bits, N.ones + 96) ∧
        bits.length = N.ones + 96 ∧
        bits.take 96 = List.replicate 80 0 ++ List.replicate 16 1) := by
  refine ⟨to_array_length ip n, to_array_bits ip n, fun j hj => ?_, ?_⟩
  · rw [to_array_getD ip n j hn hj, bit_at_div_mod]
  · intro ParseCIDR netcidr N hN h4 h1 h32
    obtain ⟨h, ht⟩ := parse_cidr_v4 ParseCIDR netcidr N hN h4 h1 h32
    exact ⟨_, h, to_array_length _ _, ht⟩

/-- C13, at an instance: the first 9 bits of `194.2.218.254` in its 16-byte form, and the key
of `10.0.0.0/8`. -/
theorem C13_key_codec_witness :
    (9 ≤ 128) ∧ to_array [194, 2, 218, 254] 9 = [1, 1, 0, 0, 0, 0, 1, 0, 0] ∧
    (to_array [194, 2, 218, 254] 9).length = 9 ∧
    parse_cidr sample_ParseCIDR "10.0.0.0/8"
      = .ok (List.replicate 80 0 ++ List.replicate 16 1 ++ [0, 0, 0, 0, 1, 0, 1, 0], 104) :=
  ⟨by decide, by decide, (C13_key_codec [194, 2, 218, 254] 9 (by decide)).1, by decide⟩

/-! ## Counts -/

theorem count_le (t : node D) : t.count true ≤ t.count false := by
  induction t with
  | nil => exact Nat.le_refl _
  | mk bs m z o d ihz iho =>
    simp only [node.count]
    split <;> simp <;> omega

theorem count_eq_iff (t : node D) : t.count false = t.count true ↔ t.no_branch := by
  induction t with
  | nil => simp [node.count, node.no_branch]
  | mk bs m z o d ihz iho =>
    have hz := count_le z
    have ho := count_le o
    simp only [node.count, node.no_branch, ← ihz, ← iho]
    by_cases hm : m = -1
    · simp [hm]; omega
    · simp [hm]; omega

/-- C14 (count consistency). For every trie, the empty one included, `Nodes()` is at least
`Networks()`, and the two are equal iff no node of the trie is branch-only (has the prefix
length `-1`). -/
theorem C14_count_consistency (db : NetDB D) :
    db.Networks ≤ db.Nodes ∧ (db.Nodes = db.Networks ↔ db.root.no_branch) :=
  ⟨count_le db.root, count_eq_iff db.root⟩

/-- C12 (key reconstruction round trip). Let `p` point to a registered node of a trie built
by `Add` calls with well-formed keys, and let `k` be the concatenation of the segments from
the root to the node. Then `k` is a key that was added, the `mask` of the node is the length
of `k`, `to16` returns 16 bytes, `to_array` reads back `k` from them as the first `mask` bits,
the remaining bits are zero, and the bit indices that `to16` computes with are `mask - 1`
down to 0, all from 0 to 127. -/
theorem C12_key_reconstruction (ops : List (List Nat × D)) (hops : ∀ op ∈ ops, KeyWF op.1)
    (p : List (node D)) (hp : p ∈ (build ops).pointers) (hreg : (p.headD .nil).mask ≠ -1) :
    (∃ d, (chain_key p, d) ∈ ops) ∧
    (p.headD .nil).mask = ((chain_key p).length : Int) ∧
    (to16 p).length = 16 ∧
    to_array (to16 p) (chain_key p).length = chain_key p ∧
    to_array (to16 p) 128 = chain_key p ++ List.replicate (128 - (chain_key p).length) 0 ∧
    to16_idx p = (List.range (chain_key p).length).map
      (fun (i : Nat) => ((chain_key p).length : Int) - 1 - (i : Int)) ∧
    ∀ c ∈ to16_idx p, 0 ≤ c ∧ c ≤ 127 := by
  obtain ⟨hok, _, h⟩ := build_pointer ops hops p hp
  obtain ⟨hm, hadd, hk⟩ := h hreg
  have hb := chain_ok_bits p hok
  obtain ⟨hi1, hi2⟩ := to16_idx_range p hm hk.2.1
  exact ⟨hadd, hm, to16_length p, to_array_to16 p hm hk.2.1 hb,
    to_array_to16_full p hm hk.2.1 hb, hi1, hi2⟩

/-- C12, at an instance: the node of the key `101` in the trie that holds `101` and `11`. -/
theorem C12_key_reconstruction_witness :
    [node.mk [0, 1] 3 .nil .nil 5, node.mk [1] (-1) (.mk [0, 1] 3 .nil .nil 5)
        (.mk [1] 2 .nil .nil 6) 5] ∈ (build [([1, 0, 1], 5), ([1, 1], 6)]).pointers ∧
    to16 [node.mk [0, 1] 3 .nil .nil 5, node.mk [1] (-1) (.mk [0, 1] 3 .nil .nil 5)
        (.mk [1] 2 .nil .nil 6) 5] = [160, 0, 0, 0, 0, 0, 0, 0, 0, 0, 0, 0, 0, 0, 0, 0] ∧
    to16_idx [node.mk [0, 1] 3 .nil .nil 5, node.mk [1] (-1) (.mk [0, 1] 3 .nil .nil 5)
        (.mk [1] 2 .nil .nil 6) 5] = [2, 1, 0] ∧
    to_array (to16 [node.mk [0, 1] 3 .nil .nil 5, node.mk [1] (-1) (.mk [0, 1] 3 .nil .nil 5)
        (.mk [1] 2 .nil .nil 6) 5])
      (chain_key [node.mk [0, 1] 3 .nil .nil 5, node.mk [1] (-1) (.mk [0, 1] 3 .nil .nil 5)
        (.mk [1] 2 .nil .nil 6) 5]).length
      = chain_key [node.mk [0, 1] 3 .nil .nil 5, node.mk [1] (-1) (.mk [0, 1] 3 .nil .nil 5)
        (.mk [1] 2 .nil .nil 6) 5] :=
  ⟨by decide, by decide, by decide,
    (C12_key_reconstruction [([1, 0, 1], 5), ([1, 1], 6)] (by decide)
      [node.mk [0, 1] 3 .nil .nil 5, node.mk [1] (-1) (.mk [0, 1] 3 .nil .nil 5)
        (.mk [1] 2 .nil .nil 6) 5] (by decide) (by decide)).2.2.2.1⟩

theorem build_registered_pointer (ops : List (List Nat × D)) (hops : ∀ op ∈ ops, KeyWF op.1)
    (p : List (node D)) (hp : p ∈ (build ops).pointers) (hreg : (p.headD .nil).mask ≠ -1) :
    (p.headD .nil).mask = ((chain_key p).length : Int) ∧
    1 ≤ (p.headD .nil).mask ∧ (p.headD .nil).mask ≤ 128 := by
  obtain ⟨hm, _, hk⟩ := (build_pointer ops hops p hp).2.2 hreg
  have h1 := hk.1
  have h2 := hk.2.1
  refine ⟨hm, ?_, ?_⟩ <;> rw [hm] <;> omega

/-- C15 (path and prefix length). In every trie built from the empty trie by `Add` calls with
well-formed keys, the concatenation of the segments from the root to a registered node has
exactly `mask` bits, with `mask` from 1 to 128. One more `Add` of a well-formed key keeps this
for all nodes, and every registered triple of another key stays registered as it was. -/
theorem C15_path_prefix_length (ops : List (List Nat × D)) (hops : ∀ op ∈ ops, KeyWF op.1) :
    (∀ p ∈ (build ops).pointers, (p.headD .nil).mask ≠ -1 →
      (p.headD .nil).mask = ((chain_key p).length : Int) ∧
      1 ≤ (p.headD .nil).mask ∧ (p.headD .nil).mask ≤ 128) ∧
    ∀ k d, KeyWF k →
      (∀ p ∈ ((build ops).add_bits k k.length d).pointers, (p.headD .nil).mask ≠ -1 →
        (p.headD .nil).mask = ((chain_key p).length : Int) ∧
        1 ≤ (p.headD .nil).mask ∧ (p.headD .nil).mask ≤ 128) ∧
      (∀ k0 m0 d0, (k0, m0, d0) ∈ (build ops).entries → k0 ≠ k →
        (k0, m0, d0) ∈ ((build ops).add_bits k k.length d).entries) := by
  refine ⟨fun p hp hreg => build_registered_pointer ops hops p hp hreg, fun k d hk => ⟨?_, ?_⟩⟩
  · intro p hp hreg
    have hops' : ∀ op ∈ ops ++ [(k, d)], KeyWF op.1 := by
      intro op hop
      rcases List.mem_append.1 hop with h | h
      · exact hops op h
      · simp only [List.mem_singleton] at h
        subst h
        exact hk
    have hb : build (ops ++ [(k, d)]) = (build ops).add_bits k k.length d := build_snoc ops (k, d)
    rw [← hb] at hp
    exact build_registered_pointer _ hops' p hp hreg
  · intro k0 m0 d0 hin hne
    exact (add_bits_entries _ (build_WF ops hops) k hk d k0 m0 d0).2 (Or.inr ⟨hin, hne⟩)

/-- C15, at an instance: the registered node of the key `101` under a branch-only root. -/
theorem C15_path_prefix_length_witness :
    (∀ op ∈ [([1, 0, 1], 5), ([1, 1], 6)], KeyWF op.1) ∧
    [node.mk [0, 1] 3 .nil .nil 5, node.mk [1] (-1) (.mk [0, 1] 3 .nil .nil 5)
        (.mk [1] 2 .nil .nil 6) 5] ∈ (build [([1, 0, 1], 5), ([1, 1], 6)]).pointers ∧
    (([node.mk [0, 1] 3 .nil .nil 5, node.mk [1] (-1) (.mk [0, 1] 3 .nil .nil 5)
        (.mk [1] 2 .nil .nil 6) 5].headD .nil).mask
      = ((chain_key [node.mk [0, 1] 3 .nil .nil 5, node.mk [1] (-1) (.mk [0, 1] 3 .nil .nil 5)
        (.mk [1] 2 .nil .nil 6) 5]).length : Int)) :=
  ⟨by decide, by decide,
    ((C15_path_prefix_length [([1, 0, 1], 5), ([1, 1], 6)] (by decide)).1 _ (by decide)
      (by decide)).1⟩

/-- C16 (prefix lengths increase with depth). In every trie built by `Add` calls with
well-formed keys, when a registered node `X` is a proper ancestor of a registered node `Y`
(the pointer to `Y` is `c ++ q` with `c` not empty and `q` the pointer to `X`), the `mask`
of `X` is less than the `mask` of `Y`. -/
theorem C16_masks_increase_with_depth (ops : List (List Nat × D))
    (hops : ∀ op ∈ ops, KeyWF op.1) (c q : List (node D))
    (hp : c ++ q ∈ (build ops).pointers) (hc : c ≠ []) (hq : q ≠ [])
    (hX : (q.headD .nil).mask ≠ -1) (hY : ((c ++ q).headD .nil).mask ≠ -1) :
    (q.headD .nil).mask < ((c ++ q).headD .nil).mask := by
  obtain ⟨hok, _, h⟩ := build_pointer ops hops _ hp
  obtain ⟨hmY, _, _⟩ := h hY
  have hokq := chain_ok_suffix c q hok
  have hlt := chain_key_lt c q hok hc hq
  cases q with
  | nil => exact absurd rfl hq
  | cons n anc =>
    have hmX : n.mask = ((chain_key (n :: anc)).length : Int) := hokq.2.1 hX
    rw [hmY]
    show n.mask < _
    rw [hmX]
    exact_mod_cast hlt

/-- C16, at an instance: the node of `11` below the registered root of `1`. -/
theorem C16_masks_increase_with_depth_witness :
    [node.mk [1] 2 .nil .nil 6] ++ [node.mk [1] 1 .nil (.mk [1] 2 .nil .nil 6) 5]
      ∈ (build [([1], 5), ([1, 1], 6)]).pointers ∧
    (([node.mk [1] 1 .nil (.mk [1] 2 .nil .nil 6) 5] : List (node Nat)).headD .nil).mask
      < (([node.mk [1] 2 .nil .nil 6] ++ [node.mk [1] 1 .nil (.mk [1] 2 .nil .nil 6) 5]).headD
          .nil).mask :=
  ⟨by decide,
    C16_masks_increase_with_depth [([1], 5), ([1, 1], 6)] (by decide)
      [node.mk [1] 2 .nil .nil 6] [node.mk [1] 1 .nil (.mk [1] 2 .nil .nil 6) 5]
      (by decide) (by decide) (by decide) (by decide) (by decide)⟩

/-- C17 (segments of the nodes below the root). In every trie built by `Add` calls with
well-formed keys, every node other than the root has a segment that is not empty, so its key
is longer than the key of its parent: a step from a node into a child, which `Add` and
`Lookup` take along the same pointers, moves at least one bit further in the key, and a
pointer has at most one node more than its key has bits, at most 129. -/
theorem C17_nonroot_segments (ops : List (List Nat × D)) (hops : ∀ op ∈ ops, KeyWF op.1)
    (p : List (node D)) (hp : p ∈ (build ops).pointers) :
    (∀ n anc, p = n :: anc → anc ≠ [] →
      n.bits ≠ [] ∧ (chain_key anc).length < (chain_key (n :: anc)).length) ∧
    p.length ≤ (chain_key p).length + 1 ∧ p.length ≤ 129 := by
  obtain ⟨hok, hne, _⟩ := build_pointer ops hops p hp
  have hlen := chain_length_le p hok
  refine ⟨?_, hlen, ?_⟩
  · intro n anc hpe ha
    subst hpe
    have hb : n.bits ≠ [] := hok.2.2.2.2.1 ha
    refine ⟨hb, ?_⟩
    have hpos : 0 < n.bits.length := List.length_pos.2 hb
    simp only [chain_key, List.length_append]
    omega
  · cases p with
    | nil => simp
    | cons n anc =>
      have := hok.2.2.1
      omega

/-- C17, at an instance: after `1` and `0` the root has an empty segment, and the node of `0`
below it has the segment `0`. -/
theorem C17_nonroot_segments_witness :
    (build [([1], 5), ([0], 6)]).root
      = .mk [] (-1) (.mk [0] 1 .nil .nil 6) (.mk [1] 1 .nil .nil 5) 5 ∧
    [node.mk [0] 1 .nil .nil 6, node.mk [] (-1) (.mk [0] 1 .nil .nil 6) (.mk [1] 1 .nil .nil 5) 5]
      ∈ (build [([1], 5), ([0], 6)]).pointers ∧
    ([node.mk [0] 1 .nil .nil 6,
        node.mk [] (-1) (.mk [0] 1 .nil .nil 6) (.mk [1] 1 .nil .nil 5) 5] : List (node Nat)).length
      ≤ 129 :=
  ⟨by decide, by decide,
    (C17_nonroot_segments [([1], 5), ([0], 6)] (by decide)
      [node.mk [0] 1 .nil .nil 6,
        node.mk [] (-1) (.mk [0] 1 .nil .nil 6) (.mk [1] 1 .nil .nil 5) 5] (by decide)).2.2⟩

/-- C18 (child slots). In every trie built by `Add` calls with well-formed keys, in any
order, the node in the `zero` slot of a node, if there is one, has a segment whose first bit
is 0, and the node in its `one` slot has a segment whose first bit is 1. When a key differs
from the segment of a node at a bit, the split leaves a branch-only node whose two new
children are in different slots, each in the slot of its first bit. -/
theorem C18_child_slots (ops : List (List Nat × D)) (hops : ∀ op ∈ ops, KeyWF op.1) :
    (∀ p ∈ (build ops).pointers, ∀ bs m z o d anc, p = .mk bs m z o d :: anc →
      (z = .nil ∨ z.bits.head? = some 0) ∧ (o = .nil ∨ o.bits.head? = some 1)) ∧
    ∀ (ones : Int) (data : D) (m : Int) (z o : node D) (d : D) (c s r : List Nat) (x y : Nat),
      y ≠ x → (x = 0 ∨ x = 1) → (y = 0 ∨ y = 1) →
      ∃ zero one, Add_loop ones data (.mk (c ++ x :: s) m z o d) (c ++ y :: r)
          = .mk c (-1) zero one d ∧
        zero.bits.head? = some 0 ∧ one.bits.head? = some 1 ∧
        ((zero = .mk (x :: s) m z o d ∧ one = .mk (y :: r) ones .nil .nil data) ∨
          (zero = .mk (y :: r) ones .nil .nil data ∧ one = .mk (x :: s) m z o d)) := by
  constructor
  · intro p hp bs m z o d anc hpe
    subst hpe
    obtain ⟨hok, _, _⟩ := build_pointer ops hops _ hp
    have hz : slot_ok 0 z := hok.2.2.2.2.2.1
    have ho : slot_ok 1 o := hok.2.2.2.2.2.2.1
    constructor
    · cases z with
      | nil => exact Or.inl rfl
      | mk bs' m' z' o' d' => exact Or.inr hz
    · cases o with
      | nil => exact Or.inl rfl
      | mk bs' m' z' o' d' => exact Or.inr ho
  · intro ones data m z o d c s r x y hxy hx hy
    rw [Add_loop_mismatch _ _ _ _ _ _ _ _ _ _ _ hxy]
    by_cases h1 : y = 1
    · rw [if_pos h1]
      have hx0 : x = 0 := by
        rcases hx with h | h
        · exact h
        · exact absurd (h1.trans h.symm) hxy
      exact ⟨_, _, rfl, by simp [node.bits, hx0], by simp [node.bits, h1], Or.inl ⟨rfl, rfl⟩⟩
    · rw [if_neg h1]
      have hy0 : y = 0 := by
        rcases hy with h | h
        · exact h
        · exact absurd h h1
      have hx1 : x = 1 := by
        rcases hx with h | h
        · exact absurd (hy0.trans h.symm) hxy
        · exact h
      exact ⟨_, _, rfl, by simp [node.bits, hy0], by simp [node.bits, hx1], Or.inr ⟨rfl, rfl⟩⟩

/-- C18, at an instance: `0` is added after `1`, and `1` after `0`; both orders give the same
slots. -/
theorem C18_child_slots_witness :
    (∀ op ∈ [([1], 5), ([0], 6)], KeyWF op.1) ∧
    (build [([1], 5), ([0], 6)]).root
      = .mk [] (-1) (.mk [0] 1 .nil .nil 6) (.mk [1] 1 .nil .nil 5) 5 ∧
    (build [([0], 6), ([1], 5)]).root
      = .mk [] (-1) (.mk [0] 1 .nil .nil 6) (.mk [1] 1 .nil .nil 5) 6 ∧
    ((node.mk [0] 1 .nil .nil 6 = .nil ∨ (node.mk [0] 1 .nil .nil 6).bits.head? = some 0) ∧
      (node.mk [1] 1 .nil .nil 5 = .nil ∨ (node.mk [1] 1 .nil .nil 5).bits.head? = some 1)) :=
  ⟨by decide, by decide, by decide,
    (C18_child_slots [([1], 5), ([0], 6)] (by decide)).1
      [node.mk [] (-1) (.mk [0] 1 .nil .nil 6) (.mk [1] 1 .nil .nil 5) 5] (by decide)
      [] (-1) (.mk [0] 1 .nil .nil 6) (.mk [1] 1 .nil .nil 5) 5 [] rfl⟩

/-- C19 (branch-only nodes). In every trie built by `Add` calls with well-formed keys, every
branch-only node (`mask = -1`) has a `zero` child and a `one` child, so a node without
children is registered, and when the trie is not empty `Nodes()` is at most
`2 * Networks() - 1`. -/
theorem C19_branch_nodes_have_two_children (ops : List (List Nat × D))
    (hops : ∀ op ∈ ops, KeyWF op.1) :
    (∀ p ∈ (build ops).pointers, ∀ bs m z o d anc, p = .mk bs m z o d :: anc →
      (m = -1 → z ≠ .nil ∧ o ≠ .nil) ∧ (z = .nil ∧ o = .nil → m ≠ -1)) ∧
    (ops ≠ [] →
      (build ops).root ≠ .nil ∧ 1 ≤ (build ops).Networks ∧
      (build ops).Nodes + 1 ≤ 2 * (build ops).Networks ∧
      (build ops).Nodes ≤ 2 * (build ops).Networks - 1) := by
  obtain ⟨hfull, hne⟩ := build_full ops hops
  constructor
  · intro p hp bs m z o d anc hpe
    have h := full_pointer _ _ p hfull hp bs m z o d anc hpe
    exact ⟨h, fun hzo hm => (h hm).1 hzo.1⟩
  · intro hops_ne
    have hc := full_count _ hfull (hne hops_ne)
    have h1 : (build ops).Nodes + 1 ≤ 2 * (build ops).Networks := hc
    exact ⟨hne hops_ne, by omega, h1, by omega⟩

/-- C19, at an instance: after `101` and `11` the root is branch-only with two children, and
there are 3 nodes for 2 networks. -/
theorem C19_branch_nodes_have_two_children_witness :
    (∀ op ∈ [([1, 0, 1], 5), ([1, 1], 6)], KeyWF op.1) ∧
    (build [([1, 0, 1], 5), ([1, 1], 6)]).root
      = .mk [1] (-1) (.mk [0, 1] 3 .nil .nil 5) (.mk [1] 2 .nil .nil 6) 5 ∧
    (build [([1, 0, 1], 5), ([1, 1], 6)]).Nodes = 3 ∧
    (build [([1, 0, 1], 5), ([1, 1], 6)]).Networks = 2 ∧
    (build [([1, 0, 1], 5), ([1, 1], 6)]).Nodes
      ≤ 2 * (build [([1, 0, 1], 5), ([1, 1], 6)]).Networks - 1 :=
  ⟨by decide, by decide, by decide, by decide,
    ((C19_branch_nodes_have_two_children [([1, 0, 1], 5), ([1, 1], 6)] (by decide)).2
      (by decide)).2.2.2⟩

/-- C20 (the reported prefix length is not negative). For every registered node of a trie
built by `Add` calls with well-formed keys: when its 16-byte reconstruction has the
IPv4-mapped pattern, its stored prefix length is at least 96 and the adjusted length is from
0 to 32; otherwise the adjusted length is the stored one, from 1 to 128. The prefix length
that a successful `Lookup` reports lies in the same ranges. -/
theorem C20_reported_length_range (ops : List (List Nat × D)) (hops : ∀ op ∈ ops, KeyWF op.1)
    (p : List (node D)) (hp : p ∈ (build ops).pointers) (hreg : (p.headD .nil).mask ≠ -1) :
    (mapped_pattern (to16 p) →
      96 ≤ (p.headD .nil).mask ∧ 0 ≤ adjmask p ∧ adjmask p ≤ 32) ∧
    (¬ mapped_pattern (to16 p) → 1 ≤ adjmask p ∧ adjmask p ≤ 128) ∧
    0 ≤ adjmask p ∧
    ∀ (ParseIP : String → List Nat) (ipstr : String) (network : List Nat) (netmask : Int)
      (data : D), (ParseIP ipstr).length = 16 →
      (build ops).Lookup ParseIP ipstr = .ok (network, netmask, data) →
      0 ≤ netmask ∧ (mapped_pattern network → netmask ≤ 32) ∧
      (¬ mapped_pattern network → 1 ≤ netmask ∧ netmask ≤ 128) := by
  obtain ⟨hm, _, hk⟩ := (build_pointer ops hops p hp).2.2 hreg
  obtain ⟨h1, h2, h3⟩ := adjmask_range p hm hk
  refine ⟨h1, h2, h3, ?_⟩
  intro ParseIP ipstr network netmask data hip hres
  obtain ⟨k, ⟨d, hd⟩, _, _, _, hkey, hmask, hnet, _⟩ :=
    (Lookup_build ops hops ParseIP ipstr hip).2 network netmask data hres
  obtain ⟨_, _, _, _, _, hnet', hnm⟩ :=
    Lookup_ok ParseIP (build ops) ipstr network netmask data hres
  have hadj : netmask = adjmask (lookup_prev (build ops).root (to_array (ParseIP ipstr) 128)) := by
    unfold adjmask
    rw [← hnet']
    exact hnm
  obtain ⟨g1, g2, g3⟩ := adjmask_range
    (lookup_prev (build ops).root (to_array (ParseIP ipstr) 128))
    (by rw [hmask, hkey]) (by rw [hkey]; exact hops _ hd)
  rw [← hnet] at g1 g2
  rw [← hadj] at g1 g2 g3
  exact ⟨g3, fun hpat => (g1 hpat).2.2, g2⟩

set_option maxRecDepth 8000 in
/-- C20, at an instance: the node of `10.0.0.0/8`, stored with 104 bits, reported with 8. -/
theorem C20_reported_length_range_witness :
    [node.mk (to_array (sample_ParseIP "10.0.0.0") 104) 104 .nil .nil 1]
      ∈ (build [(to_array (sample_ParseIP "10.0.0.0") 104, 1)]).pointers ∧
    to16 [node.mk (to_array (sample_ParseIP "10.0.0.0") 104) 104 .nil .nil 1]
      = [0, 0, 0, 0, 0, 0, 0, 0, 0, 0, 255, 255, 10, 0, 0, 0] ∧
    adjmask [node.mk (to_array (sample_ParseIP "10.0.0.0") 104) 104 .nil .nil 1] = 8 ∧
    0 ≤ adjmask [node.mk (to_array (sample_ParseIP "10.0.0.0") 104) 104 .nil .nil 1] :=
  ⟨by decide, by decide, by decide,
    (C20_reported_length_range [(to_array (sample_ParseIP "10.0.0.0") 104, 1)] (by decide)
      [node.mk (to_array (sample_ParseIP "10.0.0.0") 104) 104 .nil .nil 1] (by decide)
      (by decide)).2.2.1⟩

end Netdb
